import Mathlib

/-!
# Flash MinSort (flash_minsort.c)

A shallow embedding of `readPage`, `getValue`, `init_MinSort`, `next_MinSort` and
`flash_minsort`, followed by theorems about them.

Modelling conventions.

* `unsigned int` and `int` are 32 bits wide, so `INT_MAX = 2147483647`.
  A key is an `int32_t`; the code stores it in `unsigned int` variables, which
  is modelled by `toUnsigned`.
* Page numbers, slot numbers, record counts and counters are natural numbers.
* `ceil((float) a / b)` is modelled bit-exactly for IEEE single precision
  (`toFloat`, `ceilFloatDiv`).
* The input file is a list of pages, a page is the list of its record slots.
  The header of an input page is never read by the sort and is left out.
* A page of the output file is its two header fields and its record slots. The header
  stamp is modelled byte by byte on the record slots it reaches (`stampSlot`).
* A C loop `for (x = x0; x < X; x++)` becomes a recursive function whose first
  argument counts the iterations that remain (`X - x0` at entry).
-/

namespace FlashMinSort

/-- INT_MAX of limits.h for a 32-bit int. -/
def INT_MAX : Nat := 2147483647

/-- SORT_KEY_SIZE of flash_minsort.h. -/
def SORT_KEY_SIZE : Nat := 4

/-- Modelled from the spec: test_record_t is declared outside src/. The key is a
32-bit signed integer at offset 0 of the record, the remaining bytes are opaque; `value`
holds them as the little-endian number they form. -/
structure test_record_t where
  key : Int
  value : Nat
deriving DecidableEq, Inhabited

/-- Modelled from the spec: external_sort_t is declared outside src/; these are the
fields flash_minsort.c reads. -/
structure external_sort_t where
  page_size : Nat
  headerSize : Nat
  record_size : Nat
  num_pages : Nat

/-- Modelled from the spec: metrics_t is declared outside src/; the four counters
flash_minsort.c updates. -/
structure metrics_t where
  num_reads : Nat
  num_compar : Nat
  num_writes : Nat
  num_memcpys : Nat
deriving DecidableEq

/-- Modelled from the spec: file_iterator_state_t is declared outside src/; the input
file (a sequence of pages of record slots) and the number of valid records. -/
structure file_iterator_state_t where
  file : List (List test_record_t)
  totalRecords : Nat

/-- The struct MinSortState of flash_minsort.h. `buffer` is the input page held in
the first page of the scratch buffer. -/
structure MinSortState where
  buffer : List test_record_t
  min : List Nat
  current : Nat
  next : Nat
  nextIdx : Nat
  record_size : Nat
  num_records : Nat
  numBlocks : Nat
  records_per_block : Nat
  blocks_per_region : Nat
  memoryAvailable : Nat
  numRegions : Nat
  regionIdx : Nat
  lastBlockIdx : Nat
  iteratorState : file_iterator_state_t
  blocksRead : Nat
  tuplesRead : Nat
  tuplesOut : Nat
  bytesRead : Nat

/-- Conversion of an int32_t to unsigned int. -/
def toUnsigned (v : Int) : Nat := (v % 4294967296).toNat

/-- Floor of the binary logarithm by repeated halving; the first argument bounds the
number of halvings. -/
def log2Floor : Nat → Nat → Nat
  | 0, _ => 0
  | fuel + 1, n => if n < 2 then 0 else log2Floor fuel (n / 2) + 1

/-- Conversion `(float) n` of an unsigned int: round to nearest, ties to even, on 24
significant bits. The result is again an integer. -/
def toFloat (n : Nat) : Nat :=
  if n < 16777216 then n
  else
    let s := log2Floor 128 n - 23
    let q := n / 2 ^ s
    let r := n % 2 ^ s
    let half := 2 ^ (s - 1)
    let q1 := if half < r ∨ (r = half ∧ q % 2 = 1) then q + 1 else q
    q1 * 2 ^ s

/-- The expression `(unsigned int) ceil((float) a / b)` with `a`, `b` unsigned int:
both operands are converted to float, the quotient is rounded to nearest-even on 24
significant bits, then rounded up to an integer. The result is `none` where C leaves
the conversion to unsigned int undefined (division by zero, value out of range). -/
def ceilFloatDiv (a b : Nat) : Option Nat :=
  let x := toFloat a
  let y := toFloat b
  if y = 0 then none
  else if x = 0 then some 0
  else
    let A := x * 2 ^ 64
    let q := A / y
    let sticky := A % y
    let s := log2Floor 128 q - 23
    let m := q / 2 ^ s
    let low := q % 2 ^ s
    let half := 2 ^ (s - 1)
    let m1 := if half < low ∨ (low = half ∧ (sticky ≠ 0 ∨ m % 2 = 1)) then m + 1 else m
    let c := (m1 * 2 ^ s + (2 ^ 64 - 1)) / 2 ^ 64
    if c < 4294967296 then some c else none

/-- Function readPage: a page past the end of the file leaves the buffer as it is
(fread fails); the counters and lastBlockIdx are updated in both cases. -/
def readPage (ms : MinSortState) (pageNum : Nat) (_es : external_sort_t)
    (metric : metrics_t) : MinSortState × metrics_t :=
  let buffer := match ms.iteratorState.file.get? pageNum with
    | some page => page
    | none => ms.buffer
  ({ ms with buffer := buffer, blocksRead := ms.blocksRead + 1, lastBlockIdx := pageNum },
   { metric with num_reads := metric.num_reads + 1 })

/-- Function getValue: the key of record slot `recordNum` of the buffered page. -/
def getValue (ms : MinSortState) (recordNum : Nat) (_es : external_sort_t) : Int :=
  (ms.buffer.getD recordNum default).key

/-- Inner loop of init_MinSort (`for j`), for page `i` of region `regionIdx`; the
first argument is `records_per_block - j`. -/
def initSlots (es : external_sort_t) (i regionIdx : Nat) :
    Nat → Nat → MinSortState → metrics_t → MinSortState × metrics_t
  | 0, _, ms, metric => (ms, metric)
  | n + 1, j, ms, metric =>
    if i * ms.records_per_block + j < ms.num_records then
      let val := toUnsigned (getValue ms j es)
      let metric := { metric with num_compar := metric.num_compar + 1 }
      let ms := if val < ms.min.getD regionIdx 0 then
          { ms with min := ms.min.set regionIdx val } else ms
      initSlots es i regionIdx n (j + 1) ms metric
    else (ms, metric)

/-- Body of the page loop of init_MinSort (`for i`). -/
def initPage (es : external_sort_t) (p : MinSortState × metrics_t) (i : Nat) :
    MinSortState × metrics_t :=
  let r := readPage p.1 i es p.2
  let regionIdx := i / r.1.blocks_per_region
  initSlots es i regionIdx r.1.records_per_block 0 r.1 r.2

/-- Function init_MinSort. The result is `none` where the computation of
blocks_per_region or numRegions is undefined in C. -/
def init_MinSort (ms : MinSortState) (es : external_sort_t) (_metric : metrics_t) :
    Option (MinSortState × metrics_t) :=
  let metric : metrics_t := ⟨0, 0, 0, 0⟩
  let ms := { ms with blocksRead := 0, tuplesRead := 0, tuplesOut := 0, bytesRead := 0 }
  let ms := { ms with record_size := es.record_size, numBlocks := es.num_pages,
                      records_per_block := (es.page_size - es.headerSize) / es.record_size }
  let j := ms.memoryAvailable / SORT_KEY_SIZE
  match ceilFloatDiv ms.numBlocks j with
  | none => none
  | some blocks_per_region =>
    match ceilFloatDiv ms.numBlocks blocks_per_region with
    | none => none
    | some numRegions =>
      let ms := { ms with blocks_per_region := blocks_per_region, numRegions := numRegions }
      let ms := { ms with min := List.replicate ms.numRegions INT_MAX }
      let r := (List.range ms.numBlocks).foldl (initPage es) (ms, metric)
      some ({ r.1 with current := INT_MAX, next := INT_MAX, nextIdx := 0,
                       lastBlockIdx := INT_MAX }, r.2)

/-- First part of next_MinSort, the body of `if (ms->nextIdx == 0)` up to the end of
its loop: choose the region with the smallest minimum. -/
def selectRegion (ms : MinSortState) (metric : metrics_t) : MinSortState × metrics_t :=
  (List.range ms.numRegions).foldl
    (fun (p : MinSortState × metrics_t) i =>
      let metric := { p.2 with num_compar := p.2.num_compar + 1 }
      if p.1.min.getD i 0 < p.1.current then
        ({ p.1 with current := p.1.min.getD i 0, regionIdx := i }, metric)
      else (p.1, metric))
    ({ ms with current := INT_MAX, regionIdx := INT_MAX, next := INT_MAX }, metric)

/-- The local variables and state of next_MinSort at the label `done`. `found` tells
whether the label was reached by `goto done`. -/
structure SearchResult where
  ms : MinSortState
  metric : metrics_t
  k : Nat
  i : Nat
  tupleBuffer : test_record_t
  found : Bool

/-- Inner loop of the search of next_MinSort (`for i`) on page `curBlk`; the first
argument is `records_per_block - i`. -/
def searchSlots (es : external_sort_t) (k curBlk : Nat) (tupleBuffer : test_record_t) :
    Nat → Nat → MinSortState → metrics_t → SearchResult
  | 0, i, ms, metric => ⟨ms, metric, k, i, tupleBuffer, false⟩
  | n + 1, i, ms, metric =>
    if curBlk * ms.records_per_block + i ≥ ms.num_records then
      ⟨ms, metric, k, i, tupleBuffer, false⟩
    else
      let dataVal := toUnsigned (getValue ms i es)
      let metric := { metric with num_compar := metric.num_compar + 1 }
      if dataVal = ms.current then
        ⟨{ ms with tuplesOut := ms.tuplesOut + 1 },
         { metric with num_memcpys := metric.num_memcpys + 1 },
         k, i + 1, ms.buffer.getD i default, true⟩
      else
        let metric := { metric with num_compar := metric.num_compar + 1 }
        let ms := if dataVal > ms.current ∧ dataVal < ms.next then
            { ms with next := dataVal, nextIdx := 0 } else ms
        searchSlots es k curBlk tupleBuffer n (i + 1) ms metric

/-- Outer loop of the search of next_MinSort (`for k`); the first argument is
`blocks_per_region - k`. -/
def searchRegion (es : external_sort_t) (startBlk startIndex : Nat)
    (tupleBuffer : test_record_t) :
    Nat → Nat → Nat → MinSortState → metrics_t → SearchResult
  | 0, k, i, ms, metric => ⟨ms, metric, k, i, tupleBuffer, false⟩
  | n + 1, k, _, ms, metric =>
    let curBlk := startBlk + k
    let p := if curBlk ≠ ms.lastBlockIdx then readPage ms curBlk es metric else (ms, metric)
    let i0 := startIndex % p.1.records_per_block
    let r := searchSlots es k curBlk tupleBuffer (p.1.records_per_block - i0) i0 p.1 p.2
    if r.found then r
    else searchRegion es startBlk startIndex tupleBuffer n (k + 1) r.i r.ms r.metric

/-- The state of next_MinSort at the label `done2`. -/
structure RestResult where
  ms : MinSortState
  metric : metrics_t
  i : Nat
  found : Bool

/-- Inner loop after the label `done` (`for ( ; i < records_per_block; i++)`); the
first argument is `records_per_block - i`. -/
def restSlots (es : external_sort_t) (k curBlk : Nat) :
    Nat → Nat → MinSortState → metrics_t → RestResult
  | 0, i, ms, metric => ⟨ms, metric, i, false⟩
  | n + 1, i, ms, metric =>
    if curBlk * ms.records_per_block + i ≥ ms.num_records then ⟨ms, metric, i, false⟩
    else
      let dataVal := toUnsigned (getValue ms i es)
      let metric := { metric with num_compar := metric.num_compar + 1 }
      if dataVal = ms.current then
        ⟨{ ms with nextIdx := k * ms.records_per_block + i }, metric, i, true⟩
      else
        let metric := { metric with num_compar := metric.num_compar + 1 }
        let ms := if dataVal > ms.current ∧ dataVal < ms.next then
            { ms with next := dataVal, nextIdx := 0 } else ms
        restSlots es k curBlk n (i + 1) ms metric

/-- Outer loop after the label `done` (`for ( ; k < blocks_per_region; k++)`); the
first argument is `blocks_per_region - k`. -/
def scanRest (es : external_sort_t) (startBlk : Nat) :
    Nat → Nat → Nat → MinSortState → metrics_t → MinSortState × metrics_t
  | 0, _, _, ms, metric => (ms, metric)
  | n + 1, k, i, ms, metric =>
    let curBlk := startBlk + k
    let p := if curBlk ≠ ms.lastBlockIdx then readPage ms curBlk es metric else (ms, metric)
    let i := if curBlk ≠ ms.lastBlockIdx then 0 else i
    let r := restSlots es k curBlk (p.1.records_per_block - i) i p.1 p.2
    if r.found then (r.ms, r.metric)
    else scanRest es startBlk n (k + 1) r.i r.ms r.metric

/-- Function next_MinSort. `tupleBuffer` is the content of the caller's tuple buffer
at entry; the result is `none` for NULL and otherwise the content of the tuple buffer
at exit. -/
def next_MinSort (ms : MinSortState) (es : external_sort_t) (tupleBuffer : test_record_t)
    (metric : metrics_t) : MinSortState × metrics_t × Option test_record_t :=
  let p := if ms.nextIdx = 0 then selectRegion ms metric else (ms, metric)
  if ms.nextIdx = 0 ∧ p.1.regionIdx = INT_MAX then (p.1, p.2, none)
  else
    let startIndex := p.1.nextIdx
    let startBlk := p.1.regionIdx * p.1.blocks_per_region
    let k0 := startIndex / p.1.records_per_block
    let r := searchRegion es startBlk startIndex tupleBuffer
      (p.1.blocks_per_region - k0) k0 0 p.1 p.2
    let q := scanRest es startBlk (r.ms.blocks_per_region - r.k) r.k r.i
      { r.ms with nextIdx := 0 } r.metric
    let ms := if q.1.nextIdx = 0 then
        { q.1 with min := q.1.min.set q.1.regionIdx q.1.next } else q.1
    (ms, q.2, some r.tupleBuffer)

/-- Modelled from the spec: BLOCK_COUNT_OFFSET is defined outside src/. The 16-bit record
count of a page follows its 32-bit block index, which lies at offset 0. -/
def BLOCK_COUNT_OFFSET : Nat := 4

/-- The bytes of a record read as one little-endian number: the four bytes of the key,
then the remaining bytes. -/
def recordBytes (r : test_record_t) : Nat := toUnsigned r.key + 4294967296 * r.value

/-- The record whose bytes form the little-endian number `x`: the low four bytes are the
key, an int32_t, the others the remaining bytes. -/
def ofRecordBytes (x : Nat) : test_record_t :=
  ⟨if x % 4294967296 < 2147483648 then ((x % 4294967296 : Nat) : Int)
    else ((x % 4294967296 : Nat) : Int) - 4294967296,
   x / 4294967296⟩

/-- A store of the `len`-byte little-endian value `v` at byte `off` of a page buffer, as
the record slot sees it that occupies the bytes `start .. start + size - 1` of that
buffer. The store covers the bytes `lo .. hi - 1` of the slot; when it does not reach the
slot the record is unchanged, otherwise these bytes are replaced by the bytes of `v`
that fall on them. -/
def storeBytes (off len v start size : Nat) (r : test_record_t) : test_record_t :=
  let lo := off - start
  let hi := min (off + len) (start + size) - start
  if hi ≤ lo then r
  else ofRecordBytes (recordBytes r % 256 ^ lo
    + v / 256 ^ (start + lo - off) % 256 ^ (hi - lo) * 256 ^ lo
    + recordBytes r / 256 ^ hi * 256 ^ hi)

/-- The header stamp of flash_minsort, `*((int32_t *) page) = blockIndex` followed by
`*((int16_t *) (page + BLOCK_COUNT_OFFSET)) = count`, as record slot `k` of the stamped
page buffer sees it; the slot starts at byte `headerSize + k * record_size`. With a
header of at least `BLOCK_COUNT_OFFSET + 2` bytes the stamp stays inside the header and
no slot changes; with a shorter header it overwrites the first bytes of the record
area. -/
def stampSlot (es : external_sort_t) (blockIndex count k : Nat) (r : test_record_t) :
    test_record_t :=
  storeBytes BLOCK_COUNT_OFFSET 2 (count % 65536) (es.headerSize + k * es.record_size)
    es.record_size
    (storeBytes 0 4 (blockIndex % 4294967296) (es.headerSize + k * es.record_size)
      es.record_size r)

/-- The record slots of a page buffer after the header stamp. -/
def stampSlots (es : external_sort_t) (blockIndex count : Nat) (slots : List test_record_t) :
    List test_record_t :=
  (List.range slots.length).map
    (fun k => stampSlot es blockIndex count k (slots.getD k default))

/-- A page of the output file as it is read back: the block index in its bytes 0 .. 3,
the record count in the two bytes at BLOCK_COUNT_OFFSET, and the record slots, slot `k`
at byte `headerSize + k * record_size`. The two header fields do not overlap each
other; where they overlap record slots (a header shorter than `BLOCK_COUNT_OFFSET + 2`
bytes), `records` holds the slots as the stamp left them. -/
structure OutputPage where
  blockIndex : Nat
  count : Nat
  records : List test_record_t
deriving DecidableEq

/-- The local variables of flash_minsort and the output file. `outputBuffer` maps a
slot number of the output page (second page of the scratch buffer) to its content.
`emitted` is a ghost log: the tuples next_MinSort has returned so far, in order. -/
structure SortState where
  ms : MinSortState
  metric : metrics_t
  outputBuffer : Nat → test_record_t
  count : Nat
  blockIndex : Nat
  outputFile : List OutputPage
  emitted : List test_record_t

/-- The while loop of flash_minsort. `writeOk j` tells whether the fwrite of the page
that would become page `j` of the output file succeeds. The result is `none` when the
fuel runs out, `some (false, s)` at `return 9` and `some (true, s)` at loop exit. A full
output buffer is stamped in place with block index and count (`stampSlot`) and then
written, so the written page and the buffer carried on hold the stamped slots. -/
def writeLoop (es : external_sort_t) (values_per_page : Nat) (writeOk : Nat → Bool) :
    Nat → SortState → Option (Bool × SortState)
  | 0, _ => none
  | fuel + 1, s =>
    match next_MinSort s.ms es (s.outputBuffer s.count) s.metric with
    | (ms, metric, none) => some (true, { s with ms := ms, metric := metric })
    | (ms, metric, some tuple) =>
      let outputBuffer := Function.update s.outputBuffer s.count tuple
      let count := s.count + 1
      let emitted := s.emitted ++ [tuple]
      if count = values_per_page then
        let stamped := fun k => stampSlot es s.blockIndex count k (outputBuffer k)
        let page : OutputPage :=
          ⟨s.blockIndex, count,
            stampSlots es s.blockIndex count ((List.range values_per_page).map outputBuffer)⟩
        if writeOk s.outputFile.length then
          writeLoop es values_per_page writeOk fuel
            { ms := ms, metric := metric, outputBuffer := stamped, count := 0,
              blockIndex := s.blockIndex + 1, outputFile := s.outputFile ++ [page],
              emitted := emitted }
        else
          some (false, { s with ms := ms, metric := metric, outputBuffer := stamped,
                                count := 0, emitted := emitted })
      else
        writeLoop es values_per_page writeOk fuel
          { s with ms := ms, metric := metric, outputBuffer := outputBuffer, count := count,
                   emitted := emitted }

/-- What flash_minsort leaves behind: its return value, `*resultFilePtr` when it was
assigned, the pages of the output file, the metrics, and the ghost log of the tuples
next_MinSort returned. -/
structure SortResult where
  status : Nat
  resultFilePtr : Option Nat
  outputFile : List OutputPage
  metric : metrics_t
  emitted : List test_record_t
deriving DecidableEq

/-- The variable `ms` of flash_minsort before the call of init_MinSort: the four fields
the function assigns; the others are not yet initialised and read as zero. -/
def initialState (iteratorState : file_iterator_state_t) (buffer : List test_record_t)
    (bufferSizeInBytes : Nat) : MinSortState :=
  { buffer := buffer, min := [], current := 0, next := 0, nextIdx := 0, record_size := 0,
    num_records := iteratorState.totalRecords, numBlocks := 0, records_per_block := 0,
    blocks_per_region := 0, memoryAvailable := bufferSizeInBytes, numRegions := 0,
    regionIdx := 0, lastBlockIdx := 0, iteratorState := iteratorState, blocksRead := 0,
    tuplesRead := 0, tuplesOut := 0, bytesRead := 0 }

/-- Function flash_minsort. `buffer` and `outputBuffer` are the contents of the two
pages of the scratch buffer at entry. The result is `none` when init_MinSort is
undefined or the fuel of the while loop runs out. The final flush stamps and writes
`buffer`, the input page buffer, whose record slots are `ms.buffer`. -/
def flash_minsort (fuel : Nat) (iteratorState : file_iterator_state_t)
    (buffer : List test_record_t) (outputBuffer : Nat → test_record_t)
    (bufferSizeInBytes : Nat) (es : external_sort_t) (metric : metrics_t)
    (writeOk : Nat → Bool) : Option SortResult :=
  match init_MinSort (initialState iteratorState buffer bufferSizeInBytes) es metric with
  | none => none
  | some (ms, metric) =>
    let values_per_page := (es.page_size - es.headerSize) / es.record_size
    match writeLoop es values_per_page writeOk fuel
        ⟨ms, metric, outputBuffer, 0, 0, [], []⟩ with
    | none => none
    | some (false, s) => some ⟨9, none, s.outputFile, s.metric, s.emitted⟩
    | some (true, s) =>
      if s.count > 0 then
        let page : OutputPage :=
          ⟨s.blockIndex, s.count, stampSlots es s.blockIndex s.count s.ms.buffer⟩
        if writeOk s.outputFile.length then
          some ⟨0, some 0, s.outputFile ++ [page], s.metric, s.emitted⟩
        else some ⟨9, none, s.outputFile, s.metric, s.emitted⟩
      else some ⟨0, some 0, s.outputFile, s.metric, s.emitted⟩

/-! ## Vocabulary of the specification -/

/-- The record in global slot `g` of a file with `R` slots per page, that is slot
`g % R` of page `g / R`. -/
def slotAt (file : List (List test_record_t)) (R g : Nat) : test_record_t :=
  (file.getD (g / R) []).getD (g % R) default

/-- The record in global slot `g` of the input file of `ms`. -/
def recAt (ms : MinSortState) (g : Nat) : test_record_t :=
  slotAt ms.iteratorState.file ms.records_per_block g

/-- The key in global slot `g`, as the unsigned value the code compares. -/
def ukey (ms : MinSortState) (g : Nat) : Nat := toUnsigned (recAt ms g).key

/-- The fields next_MinSort never changes after region selection. -/
structure Frame (ms ms1 : MinSortState) : Prop where
  iteratorState : ms1.iteratorState = ms.iteratorState
  records_per_block : ms1.records_per_block = ms.records_per_block
  blocks_per_region : ms1.blocks_per_region = ms.blocks_per_region
  numRegions : ms1.numRegions = ms.numRegions
  num_records : ms1.num_records = ms.num_records
  numBlocks : ms1.numBlocks = ms.numBlocks
  current : ms1.current = ms.current
  regionIdx : ms1.regionIdx = ms.regionIdx
  min : ms1.min = ms.min

/-- The buffer of `ms` holds page `curBlk` wherever that page has valid slots. -/
def Holds (ms : MinSortState) (curBlk : Nat) : Prop :=
  ∀ t, t < ms.records_per_block → curBlk * ms.records_per_block + t < ms.num_records →
    ms.buffer.getD t default = recAt ms (curBlk * ms.records_per_block + t)

/-- The buffer holds the page `lastBlockIdx` wherever that page has valid slots. -/
def Coherent (ms : MinSortState) : Prop := Holds ms ms.lastBlockIdx

/-- Summary of a scan of the valid global slots `lo .. hi - 1` that took the state from
`ms` to `ms1`: no slot holds `current`, and `next` went down to the smallest key above
`current` that was seen. -/
structure Scanned (ms ms1 : MinSortState) (lo hi : Nat) : Prop where
  noHit : ∀ g, lo ≤ g → g < hi → g < ms.num_records → ukey ms g ≠ ms.current
  next_le : ms1.next ≤ ms.next
  next_lb : ∀ g, lo ≤ g → g < hi → g < ms.num_records → ms.current < ukey ms g →
    ms1.next ≤ ukey ms g
  next_from : ms1.next = ms.next ∨
    (ms.current < ms1.next ∧ ∃ g, lo ≤ g ∧ g < hi ∧ g < ms.num_records ∧ ukey ms g = ms1.next)

/-- The update of `next` that both scans of next_MinSort apply to a key `d` that differs
from `current`. -/
def bump (ms : MinSortState) (d : Nat) : MinSortState :=
  if d > ms.current ∧ d < ms.next then { ms with next := d, nextIdx := 0 } else ms

/-- The inputs of a sort that init_MinSort fixes and next_MinSort leaves alone. -/
structure SameInput (ms ms1 : MinSortState) : Prop where
  iteratorState : ms1.iteratorState = ms.iteratorState
  records_per_block : ms1.records_per_block = ms.records_per_block
  blocks_per_region : ms1.blocks_per_region = ms.blocks_per_region
  numRegions : ms1.numRegions = ms.numRegions
  num_records : ms1.num_records = ms.num_records
  numBlocks : ms1.numBlocks = ms.numBlocks

/-- The region (run of `blocks_per_region` pages) that holds global slot `g`. -/
def regionOf (ms : MinSortState) (g : Nat) : Nat :=
  g / (ms.blocks_per_region * ms.records_per_block)

/-- The first global slot of region `r`. -/
def regionStart (ms : MinSortState) (r : Nat) : Nat :=
  r * ms.blocks_per_region * ms.records_per_block

/-- The slots the state `ms` accounts for as already returned: in the region that is
being drained (`nextIdx ≠ 0`) the keys below `current` and the occurrences of `current`
before the position hint, in every other region the keys below the region minimum. -/
def Returned (ms : MinSortState) (g : Nat) : Prop :=
  if ms.nextIdx ≠ 0 ∧ regionOf ms g = ms.regionIdx then
    ukey ms g < ms.current ∨
      (ukey ms g = ms.current ∧ g < regionStart ms ms.regionIdx + ms.nextIdx)
  else ukey ms g < ms.min.getD (regionOf ms g) 0

/-- What holds of `next` and the position hint while a region is being drained. -/
structure Draining (ms : MinSortState) : Prop where
  region_lt : ms.regionIdx < ms.numRegions
  idx_lt : ms.nextIdx < ms.blocks_per_region * ms.records_per_block
  valid : regionStart ms ms.regionIdx + ms.nextIdx < ms.num_records
  hit : ukey ms (regionStart ms ms.regionIdx + ms.nextIdx) = ms.current
  min_eq : ms.min.getD ms.regionIdx 0 = ms.current
  current_lt : ms.current < INT_MAX
  current_le : ∀ r, r < ms.numRegions → ms.current ≤ ms.min.getD r 0
  next_gt : ms.current < ms.next
  next_le : ms.next ≤ INT_MAX
  next_wit : ms.next < INT_MAX → ∃ g, regionStart ms ms.regionIdx ≤ g ∧
    g < regionStart ms ms.regionIdx + ms.blocks_per_region * ms.records_per_block ∧
    g < ms.num_records ∧ ukey ms g = ms.next
  next_lb : ∀ g, regionStart ms ms.regionIdx ≤ g →
    g < regionStart ms ms.regionIdx + ms.nextIdx → g < ms.num_records →
    ms.current < ukey ms g → ms.next ≤ ukey ms g

/-- The invariant of the iterator between two calls of next_MinSort; `ps` lists the
global slots of the records returned so far, in the order of their return. -/
structure Inv (ms : MinSortState) (ps : List Nat) : Prop where
  R_pos : 0 < ms.records_per_block
  B_pos : 0 < ms.blocks_per_region
  G_le : ms.numRegions ≤ INT_MAX
  cover : ms.num_records ≤ ms.numRegions * ms.blocks_per_region * ms.records_per_block
  file_len : ms.num_records ≤ ms.iteratorState.file.length * ms.records_per_block
  coherent : Coherent ms
  min_len : ms.min.length = ms.numRegions
  min_le : ∀ r, r < ms.numRegions → ms.min.getD r 0 ≤ INT_MAX
  min_wit : ∀ r, r < ms.numRegions → ms.min.getD r 0 < INT_MAX →
    ∃ g, g < ms.num_records ∧ regionOf ms g = r ∧ ukey ms g = ms.min.getD r 0
  ret : ∀ g, g ∈ ps ↔ g < ms.num_records ∧ Returned ms g
  nodup : ps.Nodup
  below : ∀ g, g ∈ ps → ∀ r, r < ms.numRegions → ukey ms g ≤ ms.min.getD r 0
  mid : ms.nextIdx ≠ 0 → Draining ms

/-- The global slot from which a call of next_MinSort copies the tuple it returns: the
page and slot at which its search loop stops. -/
def returnedSlot (ms : MinSortState) (es : external_sort_t) (tupleBuffer : test_record_t)
    (metric : metrics_t) : Nat :=
  let p := if ms.nextIdx = 0 then selectRegion ms metric else (ms, metric)
  let k0 := p.1.nextIdx / p.1.records_per_block
  let r := searchRegion es (p.1.regionIdx * p.1.blocks_per_region) p.1.nextIdx tupleBuffer
    (p.1.blocks_per_region - k0) k0 0 p.1 p.2
  (p.1.regionIdx * p.1.blocks_per_region + r.k) * p.1.records_per_block + (r.i - 1)

/-- The part of next_MinSort after region selection: search, rest scan and update of
the region minimum. -/
def drainStep (ms : MinSortState) (es : external_sort_t) (tupleBuffer : test_record_t)
    (metric : metrics_t) : MinSortState × metrics_t × Option test_record_t :=
  let startIndex := ms.nextIdx
  let startBlk := ms.regionIdx * ms.blocks_per_region
  let k0 := startIndex / ms.records_per_block
  let r := searchRegion es startBlk startIndex tupleBuffer
    (ms.blocks_per_region - k0) k0 0 ms metric
  let q := scanRest es startBlk (r.ms.blocks_per_region - r.k) r.k r.i
    { r.ms with nextIdx := 0 } r.metric
  let ms := if q.1.nextIdx = 0 then
      { q.1 with min := q.1.min.set q.1.regionIdx q.1.next } else q.1
  (ms, q.2, some r.tupleBuffer)

/-- The hypotheses under which drainStep is entered: the active region `regionIdx`
holds `current` at the valid slot `gs`, the first such slot from the start position, and
`ps` lists the slots returned so far. -/
structure Armed (ms : MinSortState) (ps : List Nat) (gs : Nat) : Prop where
  R_pos : 0 < ms.records_per_block
  B_pos : 0 < ms.blocks_per_region
  G_le : ms.numRegions ≤ INT_MAX
  cover : ms.num_records ≤ ms.numRegions * ms.blocks_per_region * ms.records_per_block
  file_len : ms.num_records ≤ ms.iteratorState.file.length * ms.records_per_block
  coherent : Coherent ms
  min_len : ms.min.length = ms.numRegions
  min_le : ∀ r, r < ms.numRegions → ms.min.getD r 0 ≤ INT_MAX
  min_wit : ∀ r, r < ms.numRegions → ms.min.getD r 0 < INT_MAX →
    ∃ g, g < ms.num_records ∧ regionOf ms g = r ∧ ukey ms g = ms.min.getD r 0
  nodup : ps.Nodup
  below : ∀ g, g ∈ ps → ∀ r, r < ms.numRegions → ukey ms g ≤ ms.min.getD r 0
  region_lt : ms.regionIdx < ms.numRegions
  min_eq : ms.min.getD ms.regionIdx 0 = ms.current
  current_lt : ms.current < INT_MAX
  current_le : ∀ r, r < ms.numRegions → ms.current ≤ ms.min.getD r 0
  gs_ge : regionStart ms ms.regionIdx + ms.nextIdx ≤ gs
  gs_lt : gs < regionStart ms ms.regionIdx + ms.blocks_per_region * ms.records_per_block
  gs_valid : gs < ms.num_records
  gs_hit : ukey ms gs = ms.current
  gs_first : ∀ g, regionStart ms ms.regionIdx + ms.nextIdx ≤ g → g < gs →
    ukey ms g ≠ ms.current
  gs_hint : ms.nextIdx ≠ 0 → regionStart ms ms.regionIdx + ms.nextIdx = gs
  next_gt : ms.current < ms.next
  next_le : ms.next ≤ INT_MAX
  next_wit : ms.next < INT_MAX → ∃ g, regionStart ms ms.regionIdx ≤ g ∧
    g < regionStart ms ms.regionIdx + ms.blocks_per_region * ms.records_per_block ∧
    g < ms.num_records ∧ ukey ms g = ms.next
  next_lb : ∀ g, regionStart ms ms.regionIdx ≤ g →
    g < regionStart ms ms.regionIdx + ms.nextIdx → g < ms.num_records →
    ms.current < ukey ms g → ms.next ≤ ukey ms g
  ret : ∀ g, g ∈ ps ↔ g < ms.num_records ∧
    (if regionOf ms g = ms.regionIdx then
      ukey ms g < ms.current ∨ (ukey ms g = ms.current ∧ g < gs)
    else ukey ms g < ms.min.getD (regionOf ms g) 0)

/-- The number of record slots of a page, as init_MinSort and flash_minsort compute it. -/
def recordsPerPage (es : external_sort_t) : Nat :=
  (es.page_size - es.headerSize) / es.record_size

/-- The inputs the claims call valid: the file has `num_pages` pages, at least one and
fewer than 2^24 (so that the page count is exact in single precision), a page has at
least one record slot, the record count fits the file, and the memory budget is an
unsigned int of at least one key. The bounds `R_lt` and `PR_lt` keep the machine
integers of the code from wrapping: `count` and `values_per_page` are `int16_t`, and the
slot numbers `curBlk * records_per_block + i` are computed in `unsigned int` for blocks
up to the end of the last region, which lies before block `2 * num_pages`. -/
structure ValidInput (is : file_iterator_state_t) (M : Nat) (es : external_sort_t) : Prop where
  pages : is.file.length = es.num_pages
  P_pos : 1 ≤ es.num_pages
  P_lt : es.num_pages < 16777216
  R_pos : 1 ≤ recordsPerPage es
  R_lt : recordsPerPage es < 32768
  PR_lt : es.num_pages * recordsPerPage es < 2147483648
  N_le : is.totalRecords ≤ es.num_pages * recordsPerPage es
  M_ge : SORT_KEY_SIZE ≤ M
  M_lt : M < 4294967296

/-- Every valid record carries a key that is an int32_t value. -/
def Int32Keys (is : file_iterator_state_t) (R : Nat) : Prop :=
  ∀ g, g < is.totalRecords →
    -2147483648 ≤ (slotAt is.file R g).key ∧ (slotAt is.file R g).key < 2147483648

/-- Every valid record carries a key in `[0, INT_MAX)`. -/
def KeysBelowSentinel (is : file_iterator_state_t) (R : Nat) : Prop :=
  ∀ g, g < is.totalRecords →
    0 ≤ (slotAt is.file R g).key ∧ (slotAt is.file R g).key < 2147483647

/-- The valid records of the input, in file order. -/
def validRecords (is : file_iterator_state_t) (R : Nat) : List test_record_t :=
  (List.range is.totalRecords).map (slotAt is.file R)

/-- The region minima after init_MinSort has scanned the first `n` pages, starting from
the state `m0` in which every minimum is the sentinel. -/
structure Filled (m0 : MinSortState) (n : Nat) (m : MinSortState) : Prop where
  same : SameInput m0 m
  min_len : m.min.length = m0.numRegions
  min_le : ∀ r, r < m0.numRegions → m.min.getD r 0 ≤ INT_MAX
  lower : ∀ g, g < n * m0.records_per_block → g < m0.num_records →
    m.min.getD (regionOf m0 g) 0 ≤ ukey m0 g
  wit : ∀ r, r < m0.numRegions → m.min.getD r 0 < INT_MAX →
    ∃ g, g < n * m0.records_per_block ∧ g < m0.num_records ∧ regionOf m0 g = r ∧
      ukey m0 g = m.min.getD r 0

/-- Exact rounded-up quotient of natural numbers. -/
def ceilDiv (a b : Nat) : Nat := (a + b - 1) / b

/-- The valid global slots whose key, read as unsigned, lies below the sentinel. -/
def eligibleSlots (ms : MinSortState) : List Nat :=
  (List.range ms.num_records).filter (fun g => ukey ms g < INT_MAX)

/-- The caller's side of the iterator: the iterator state, the metrics and the tuple
buffer handed to every call of next_MinSort. -/
structure Caller where
  ms : MinSortState
  metric : metrics_t
  tupleBuffer : test_record_t

/-- One call of next_MinSort by a caller that reuses its tuple buffer; the second
component is the result of the call (`none` for NULL). -/
def callNext (es : external_sort_t) (c : Caller) : Caller × Option test_record_t :=
  match next_MinSort c.ms es c.tupleBuffer c.metric with
  | (ms, metric, none) => (⟨ms, metric, c.tupleBuffer⟩, none)
  | (ms, metric, some t) => (⟨ms, metric, t⟩, some t)

/-- The caller after `n` successive calls of next_MinSort. -/
def stateAfter (es : external_sort_t) : Nat → Caller → Caller
  | 0, c => c
  | n + 1, c => stateAfter es n (callNext es c).1

/-- The results of the first `n` successive calls of next_MinSort. -/
def nextResults (es : external_sort_t) : Nat → Caller → List (Option test_record_t)
  | 0, _ => []
  | n + 1, c => (callNext es c).2 :: nextResults es n (callNext es c).1

/-- The global slots of the records returned by the first `n` successive calls. -/
def returnedSlots (es : external_sort_t) : Nat → Caller → List Nat
  | 0, _ => []
  | n + 1, c =>
    match (callNext es c).2 with
    | none => returnedSlots es n (callNext es c).1
    | some _ => returnedSlot c.ms es c.tupleBuffer c.metric ::
        returnedSlots es n (callNext es c).1

/-- Example input: two pages of two slots, three valid records with keys 3, 1, 2. -/
def exampleInput : file_iterator_state_t :=
  ⟨[[⟨3, 30⟩, ⟨1, 10⟩], [⟨2, 20⟩, ⟨7, 70⟩]], 3⟩

/-- Example page geometry: 22-byte pages, 6-byte header, 8-byte records, two pages. -/
def exampleSort : external_sort_t := ⟨22, 6, 8, 2⟩

/-- Input with a negative key: one page with one slot, whose record has key -1. -/
def negativeKeyInput : file_iterator_state_t := ⟨[[⟨-1, 0⟩]], 1⟩

/-- Page geometry of `negativeKeyInput`: 14-byte pages, 6-byte header, 8-byte records. -/
def negativeKeySort : external_sort_t := ⟨14, 6, 8, 1⟩

/-- The claim about region selection as it is stated: on entry with `nextIdx = 0` the
selection leaves `current` equal to the minimum of `min[0..G)`, `regionIdx` equal to the
lowest index that attains it and `next` equal to the sentinel, and next_MinSort returns
NULL exactly when every entry of `min` is the sentinel. -/
def SelectsLowestMinimum (ms : MinSortState) (es : external_sort_t) (tupleBuffer : test_record_t)
    (metric : metrics_t) : Prop :=
  (∀ r, r < ms.numRegions → (selectRegion ms metric).1.current ≤ ms.min.getD r 0) ∧
  ((selectRegion ms metric).1.regionIdx < ms.numRegions ∧
    ms.min.getD (selectRegion ms metric).1.regionIdx 0 = (selectRegion ms metric).1.current ∧
    ∀ r, r < (selectRegion ms metric).1.regionIdx →
      (selectRegion ms metric).1.current < ms.min.getD r 0) ∧
  (selectRegion ms metric).1.next = INT_MAX ∧
  ((next_MinSort ms es tupleBuffer metric).2.2 = none ↔
    ∀ r, r < ms.numRegions → ms.min.getD r 0 = INT_MAX)

/-- A state with one region whose minimum is the sentinel, as after the last record of a
one-region file has been returned. -/
def drainedState : MinSortState :=
  { initialState ⟨[[⟨4, 0⟩]], 1⟩ [⟨4, 0⟩] 4 with
    min := [INT_MAX], numRegions := 1, numBlocks := 1, records_per_block := 1,
    blocks_per_region := 1, current := 4, next := INT_MAX, record_size := 8 }

/-- A state with three regions whose minima are 5, 3 and 3. -/
def threeRegionState : MinSortState :=
  { initialState ⟨[[⟨5, 0⟩], [⟨3, 0⟩], [⟨3, 1⟩]], 3⟩ [⟨3, 1⟩] 12 with
    min := [5, 3, 3], numRegions := 3, numBlocks := 3, records_per_block := 1,
    blocks_per_region := 1, current := INT_MAX, next := INT_MAX, record_size := 8,
    lastBlockIdx := INT_MAX }

/-- The records of the output file read in page order, the first `count` records of
each page. -/
def readOutput (pages : List OutputPage) : List test_record_t :=
  pages.flatMap (fun page => page.records.take page.count)

/-- The full output page number `j` for the emitted records `em` and `R` slots per page:
block index `j`, count `R`, and the records `j * R .. j * R + R - 1` of `em` under the
header stamp. -/
def pageOf (es : external_sort_t) (R : Nat) (em : List test_record_t) (j : Nat) :
    OutputPage :=
  ⟨j, R, stampSlots es j R ((em.drop (j * R)).take R)⟩

/-- The bookkeeping of the while loop of flash_minsort between two iterations: the
pages written so far are the full pages of the emitted records, and the output buffer
holds the records emitted since the last flush. -/
structure Packed (es : external_sort_t) (R : Nat) (s : SortState) : Prop where
  file : s.outputFile = (List.range s.outputFile.length).map (pageOf es R s.emitted)
  block : s.blockIndex = s.outputFile.length
  pages : s.outputFile.length * R + s.count = s.emitted.length
  count_lt : s.count < R
  slots : ∀ i, i < s.count →
    s.emitted.get? (s.outputFile.length * R + i) = some (s.outputBuffer i)

/-- The number of valid records whose key, read as unsigned, lies below the sentinel. -/
def eligibleCount (is : file_iterator_state_t) (R : Nat) : Nat :=
  ((List.range is.totalRecords).filter
    (fun g => toUnsigned (slotAt is.file R g).key < INT_MAX)).length

/-- Input of scenario S5: one page of seven slots, three valid records with keys
5, 3, 1. -/
def shortPageInput : file_iterator_state_t :=
  ⟨[[⟨5, 0⟩, ⟨3, 0⟩, ⟨1, 0⟩, ⟨0, 0⟩, ⟨0, 0⟩, ⟨0, 0⟩, ⟨0, 0⟩]], 3⟩

/-- Page geometry of scenario S5: 64-byte pages, 6-byte header, 8-byte records. -/
def shortPageSort : external_sort_t := ⟨64, 6, 8, 1⟩

/-- Page geometry with 2^24 + 1 pages of two slots. -/
def largeSort : external_sort_t := ⟨22, 6, 8, 16777217⟩

/-- The state of init_MinSort after the first `n` iterations of its page loop, before
the final assignments to `current`, `next`, `nextIdx` and `lastBlockIdx`. -/
def initScan (ms : MinSortState) (es : external_sort_t) (n : Nat) :
    Option (MinSortState × metrics_t) :=
  let metric : metrics_t := ⟨0, 0, 0, 0⟩
  let ms := { ms with blocksRead := 0, tuplesRead := 0, tuplesOut := 0, bytesRead := 0 }
  let ms := { ms with record_size := es.record_size, numBlocks := es.num_pages,
                      records_per_block := (es.page_size - es.headerSize) / es.record_size }
  let j := ms.memoryAvailable / SORT_KEY_SIZE
  match ceilFloatDiv ms.numBlocks j with
  | none => none
  | some blocks_per_region =>
    match ceilFloatDiv ms.numBlocks blocks_per_region with
    | none => none
    | some numRegions =>
      let ms := { ms with blocks_per_region := blocks_per_region, numRegions := numRegions }
      let ms := { ms with min := List.replicate ms.numRegions INT_MAX }
      some ((List.range n).foldl (initPage es) (ms, metric))

/-- The final assignments of init_MinSort. -/
def initFinish (r : MinSortState × metrics_t) : MinSortState × metrics_t :=
  ({ r.1 with current := INT_MAX, next := INT_MAX, nextIdx := 0, lastBlockIdx := INT_MAX }, r.2)

/-- Page geometry whose pages are too small for one record: 10-byte pages, 6-byte
header, 8-byte records, one page. -/
def tinyPageSort : external_sort_t := ⟨10, 6, 8, 1⟩

/-- Input for `tinyPageSort`: one page without record slots. -/
def tinyPageInput : file_iterator_state_t := ⟨[[]], 0⟩

/-- The claim about configuration errors as it is stated: with a budget below one key,
a page too small for header and record, or no record slot per page, init_MinSort reads
no page and flash_minsort does not report success. -/
def RefusesBadConfiguration (is : file_iterator_state_t) (M : Nat) (es : external_sort_t) :
    Prop :=
  (M < SORT_KEY_SIZE ∨ es.page_size < es.headerSize + es.record_size ∨ recordsPerPage es < 1) →
    ∀ (buffer : List test_record_t) (outputBuffer : Nat → test_record_t) (metric : metrics_t)
      (writeOk : Nat → Bool) (fuel : Nat),
      (∀ m mt, init_MinSort (initialState is buffer M) es metric = some (m, mt) →
        mt.num_reads = 0) ∧
      (∀ res, flash_minsort fuel is buffer outputBuffer M es metric writeOk = some res →
        res.status ≠ 0)

/-- The result of the search loop of next_MinSort (the state at the label `done`). -/
def phaseB (ms : MinSortState) (es : external_sort_t) (tupleBuffer : test_record_t)
    (metric : metrics_t) : SearchResult :=
  let p := if ms.nextIdx = 0 then selectRegion ms metric else (ms, metric)
  let k0 := p.1.nextIdx / p.1.records_per_block
  searchRegion es (p.1.regionIdx * p.1.blocks_per_region) p.1.nextIdx tupleBuffer
    (p.1.blocks_per_region - k0) k0 0 p.1 p.2

/-- The state in which next_MinSort enters its search loop: after region selection when
the call started with `nextIdx = 0`, unchanged otherwise. -/
def selected (ms : MinSortState) (metric : metrics_t) : MinSortState :=
  (if ms.nextIdx = 0 then selectRegion ms metric else (ms, metric)).1

/-- Slot `a` comes before slot `b` in the order by unsigned key, ties broken by position
in the file. -/
def SlotBefore (ms : MinSortState) (a b : Nat) : Prop :=
  ukey ms a < ukey ms b ∨ (ukey ms a = ukey ms b ∧ a < b)

/-- What holds between two calls of next_MinSort beyond `Inv`: while a region is being
drained the page of the position hint is resident and every lower region has a larger
minimum; a returned slot is below the minimum of every lower region; and the slots were
returned in the order `SlotBefore`. -/
structure Ordered (ms : MinSortState) (ps : List Nat) : Prop where
  resident : ms.nextIdx ≠ 0 → ms.regionIdx * ms.blocks_per_region
    + ms.nextIdx / ms.records_per_block = ms.lastBlockIdx
  lower : ms.nextIdx ≠ 0 → ∀ r, r < ms.regionIdx → ms.current < ms.min.getD r 0
  strict : ∀ g, g ∈ ps → ∀ r, r < regionOf ms g → ukey ms g < ms.min.getD r 0
  sorted : ps.Pairwise (SlotBefore ms)

/-- The page reads a draining state has already paid for: the pages of the active
region up to the page of the position hint. -/
def credit (ms : MinSortState) : Nat :=
  if ms.nextIdx = 0 then 0 else ms.nextIdx / ms.records_per_block + 1

/-- A call of next_MinSort from the state `ms`, with `ps` returned before, that returns
the record of slot `gs` and leaves the state `ms1` and the metrics `mt1`. -/
structure Emitted (ms : MinSortState) (metric : metrics_t) (ps : List Nat) (gs : Nat)
    (ms1 : MinSortState) (mt1 : metrics_t) : Prop where
  same : SameInput ms ms1
  inv : Inv ms1 (ps ++ [gs])
  ord : Ordered ms1 (ps ++ [gs])
  valid : gs < ms.num_records
  fresh : gs ∉ ps
  region : regionOf ms gs = ms1.regionIdx
  region_lt : ms1.regionIdx < ms.numRegions
  key : ukey ms gs = ms1.current
  key_lt : ms1.current < INT_MAX
  min_before : ms.min.getD ms1.regionIdx 0 = ms1.current
  min_lower : ∀ r, r < ms1.regionIdx → ms1.current < ms.min.getD r 0
  min_all : ∀ r, r < ms.numRegions → ms1.current ≤ ms.min.getD r 0
  hint : ms.nextIdx ≠ 0 → regionStart ms ms1.regionIdx + ms.nextIdx = gs
  first : ∀ g, regionStart ms ms1.regionIdx ≤ g → g < gs → ukey ms g = ms1.current → g ∈ ps
  next_gt : ms1.current < ms1.next
  next_le : ms1.next ≤ INT_MAX
  next_wit : ms1.next < INT_MAX → ∃ g, regionStart ms ms1.regionIdx ≤ g ∧
    g < regionStart ms ms1.regionIdx + ms.blocks_per_region * ms.records_per_block ∧
    g < ms.num_records ∧ ukey ms g = ms1.next
  outcome :
    (ms1.nextIdx = 0 ∧ ms1.min = ms.min.set ms1.regionIdx ms1.next ∧
      (∀ g, gs + 1 ≤ g →
        g < regionStart ms ms1.regionIdx + ms.blocks_per_region * ms.records_per_block →
        g < ms.num_records → ukey ms g ≠ ms1.current) ∧
      (∀ g, regionStart ms ms1.regionIdx ≤ g →
        g < regionStart ms ms1.regionIdx + ms.blocks_per_region * ms.records_per_block →
        g < ms.num_records → ms1.current < ukey ms g → ms1.next ≤ ukey ms g)) ∨
    (ms1.nextIdx ≠ 0 ∧ ms1.min = ms.min ∧
      gs + 1 ≤ regionStart ms ms1.regionIdx + ms1.nextIdx ∧
      regionStart ms ms1.regionIdx + ms1.nextIdx
        < regionStart ms ms1.regionIdx + ms.blocks_per_region * ms.records_per_block ∧
      regionStart ms ms1.regionIdx + ms1.nextIdx < ms.num_records ∧
      ukey ms (regionStart ms ms1.regionIdx + ms1.nextIdx) = ms1.current ∧
      (∀ g, gs + 1 ≤ g → g < regionStart ms ms1.regionIdx + ms1.nextIdx →
        g < ms.num_records → ukey ms g ≠ ms1.current))
  reads_hit : ms1.nextIdx ≠ 0 → mt1.num_reads + credit ms ≤ metric.num_reads + credit ms1
  reads_end : ms1.nextIdx = 0 →
    mt1.num_reads + credit ms ≤ metric.num_reads + ms.blocks_per_region

/-- Modelled from the spec's words: the stable sort by key. Insertion sort, which puts
each record in front of the first record with a key at least as large among the sorted
records that followed it in the input, so that records with equal keys keep their input
order. -/
def stableSortByKey (l : List test_record_t) : List test_record_t :=
  l.insertionSort (fun a b => a.key ≤ b.key)

/-- The number of distinct key values among the valid records of region `r`, for `R`
slots per page and `B` pages per region. -/
def distinctKeys (is : file_iterator_state_t) (R B r : Nat) : Nat :=
  (((List.range is.totalRecords).filter (fun g => g / R / B = r)).map
    (fun g => (slotAt is.file R g).key)).toFinset.card

/-- The bound on page reads: P for the scan of init_MinSort plus, for every region r,
B reads for each of the `distinctKeys` key values of the region. -/
def readBound (is : file_iterator_state_t) (es : external_sort_t) (B G : Nat) : Nat :=
  es.num_pages
    + (Finset.sum (Finset.range G) (fun r => distinctKeys is (recordsPerPage es) B r)) * B

/-- The pairs (region, unsigned key) that still have a slot to return: the pairs of the
eligible slots not listed in `ps`. -/
def pendingKeys (ms : MinSortState) (ps : List Nat) : Finset (Nat × Nat) :=
  (((eligibleSlots ms).filter (fun g => decide (g ∉ ps))).map
    (fun g => (regionOf ms g, ukey ms g))).toFinset

/-- Input of the read-count example: two pages of seven slots, keys 9 on the first page
and keys 1 on the second. -/
def twoPageInput : file_iterator_state_t :=
  ⟨[[⟨9, 0⟩, ⟨9, 1⟩, ⟨9, 2⟩, ⟨9, 3⟩, ⟨9, 4⟩, ⟨9, 5⟩, ⟨9, 6⟩],
    [⟨1, 0⟩, ⟨1, 1⟩, ⟨1, 2⟩, ⟨1, 3⟩, ⟨1, 4⟩, ⟨1, 5⟩, ⟨1, 6⟩]], 14⟩

/-- Page geometry of the read-count example: 64-byte pages, 6-byte header, 8-byte
records, two pages. -/
def twoPageSort : external_sort_t := ⟨64, 6, 8, 2⟩

theorem Frame.self (ms : MinSortState) : Frame ms ms :=
  ⟨rfl, rfl, rfl, rfl, rfl, rfl, rfl, rfl, rfl⟩

theorem Frame.seq {a b c : MinSortState} (h1 : Frame a b) (h2 : Frame b c) : Frame a c :=
  ⟨h2.1.trans h1.1, h2.2.trans h1.2, h2.3.trans h1.3, h2.4.trans h1.4, h2.5.trans h1.5,
   h2.6.trans h1.6, h2.7.trans h1.7, h2.8.trans h1.8, h2.9.trans h1.9⟩

theorem Frame.recAt_eq {a b : MinSortState} (h : Frame a b) (g : Nat) : recAt b g = recAt a g := by
  unfold FlashMinSort.recAt
  rw [h.iteratorState, h.records_per_block]

theorem Frame.ukey_eq {a b : MinSortState} (h : Frame a b) (g : Nat) : ukey b g = ukey a g := by
  unfold FlashMinSort.ukey
  rw [h.recAt_eq]

theorem Scanned.empty (ms : MinSortState) (lo : Nat) : Scanned ms ms lo lo :=
  ⟨fun g h1 h2 => absurd h2 (by omega), le_refl _, fun g h1 h2 => absurd h2 (by omega), Or.inl rfl⟩

theorem Scanned.of_next_eq {ms ms1 : MinSortState} (lo : Nat) (h : ms1.next = ms.next) :
    Scanned ms ms1 lo lo :=
  ⟨fun g h1 h2 => absurd h2 (by omega), le_of_eq h, fun g h1 h2 => absurd h2 (by omega),
    Or.inl h⟩

theorem Scanned.vacuous {ms ms1 : MinSortState} {lo hi : Nat} (h : ms1.next = ms.next)
    (hle : ∀ g, lo ≤ g → g < hi → ms.num_records ≤ g) : Scanned ms ms1 lo hi :=
  ⟨fun g h1 h2 h3 => absurd h3 (by have := hle g h1 h2; omega), le_of_eq h,
   fun g h1 h2 h3 => absurd h3 (by have := hle g h1 h2; omega), Or.inl h⟩

theorem Scanned.join {a b c : MinSortState} {lo mid hi : Nat} (hf : Frame a b)
    (h1 : Scanned a b lo mid) (h2 : Scanned b c mid hi) (hlm : lo ≤ mid) (hmh : mid ≤ hi) :
    Scanned a c lo hi := by
  have hN := hf.num_records
  have hc := hf.current
  refine ⟨?_, ?_, ?_, ?_⟩
  · intro g hlo hhi hg
    by_cases hm : g < mid
    · exact h1.noHit g hlo hm hg
    · have := h2.noHit g (by omega) hhi (by omega)
      rwa [hf.ukey_eq, hc] at this
  · exact le_trans h2.next_le h1.next_le
  · intro g hlo hhi hg hcg
    by_cases hm : g < mid
    · exact le_trans h2.next_le (h1.next_lb g hlo hm hg hcg)
    · have := h2.next_lb g (by omega) hhi (by omega)
      rw [hf.ukey_eq, hc] at this
      exact this hcg
  · rcases h2.next_from with h | ⟨hgt, g, hg1, hg2, hg3, hg4⟩
    · rcases h1.next_from with h' | ⟨hgt, g, hg1, hg2, hg3, hg4⟩
      · exact Or.inl (h.trans h')
      · exact Or.inr ⟨by rw [h]; exact hgt, g, hg1, by omega, hg3, by rw [h]; exact hg4⟩
    · refine Or.inr ⟨by rw [← hc]; exact hgt, g, by omega, hg2, by omega, ?_⟩
      rw [← hf.ukey_eq]; exact hg4

theorem bump_frame (ms : MinSortState) (d : Nat) : Frame ms (bump ms d) := by
  unfold bump; split <;> exact ⟨rfl, rfl, rfl, rfl, rfl, rfl, rfl, rfl, rfl⟩

theorem bump_buffer (ms : MinSortState) (d : Nat) : (bump ms d).buffer = ms.buffer := by
  unfold bump; split <;> rfl

theorem bump_lastBlockIdx (ms : MinSortState) (d : Nat) :
    (bump ms d).lastBlockIdx = ms.lastBlockIdx := by
  unfold bump; split <;> rfl

theorem bump_nextIdx (ms : MinSortState) (d : Nat) (h : ms.nextIdx = 0) :
    (bump ms d).nextIdx = 0 := by
  unfold bump; split
  · rfl
  · exact h

theorem bump_scanned (ms : MinSortState) (g : Nat) (hg : g < ms.num_records)
    (hne : ukey ms g ≠ ms.current) :
    Scanned ms (bump ms (ukey ms g)) g (g + 1) := by
  unfold bump
  split
  · rename_i h
    refine ⟨?_, ?_, ?_, ?_⟩
    · intro g' h1 h2 _
      have : g' = g := by omega
      subst this; exact hne
    · exact le_of_lt h.2
    · intro g' h1 h2 _ _
      have : g' = g := by omega
      subst this; exact le_refl _
    · exact Or.inr ⟨h.1, g, le_refl _, by omega, hg, rfl⟩
  · rename_i h
    refine ⟨?_, le_refl _, ?_, Or.inl rfl⟩
    · intro g' h1 h2 _
      have : g' = g := by omega
      subst this; exact hne
    · intro g' h1 h2 _ hc
      have : g' = g := by omega
      subst this
      by_contra hlt
      exact h ⟨hc, by omega⟩

theorem Holds.getValue {ms : MinSortState} {curBlk : Nat} (h : Holds ms curBlk)
    (es : external_sort_t) {t : Nat} (ht : t < ms.records_per_block)
    (hv : curBlk * ms.records_per_block + t < ms.num_records) :
    toUnsigned (getValue ms t es) = ukey ms (curBlk * ms.records_per_block + t) := by
  unfold FlashMinSort.getValue FlashMinSort.ukey
  rw [h t ht hv]

theorem Holds.frame {ms ms1 : MinSortState} {curBlk : Nat} (h : Holds ms curBlk)
    (hf : Frame ms ms1) (hb : ms1.buffer = ms.buffer) : Holds ms1 curBlk := by
  intro t ht hv
  rw [hf.records_per_block] at ht hv
  rw [hf.num_records] at hv
  rw [hb, hf.recAt_eq, hf.records_per_block]
  exact h t ht hv

theorem restSlots_spec (es : external_sort_t) (k curBlk : Nat) :
    ∀ (n i : Nat) (ms : MinSortState) (metric : metrics_t) (r : RestResult),
      restSlots es k curBlk n i ms metric = r →
      i + n = ms.records_per_block → Holds ms curBlk → ms.nextIdx = 0 →
      Frame ms r.ms ∧ r.ms.buffer = ms.buffer ∧ r.ms.lastBlockIdx = ms.lastBlockIdx ∧
      (r.found = true →
        i ≤ r.i ∧ r.i < ms.records_per_block ∧
        curBlk * ms.records_per_block + r.i < ms.num_records ∧
        ukey ms (curBlk * ms.records_per_block + r.i) = ms.current ∧
        r.ms.nextIdx = k * ms.records_per_block + r.i ∧
        Scanned ms r.ms (curBlk * ms.records_per_block + i)
          (curBlk * ms.records_per_block + r.i)) ∧
      (r.found = false →
        r.ms.nextIdx = 0 ∧
        Scanned ms r.ms (curBlk * ms.records_per_block + i)
          (curBlk * ms.records_per_block + ms.records_per_block)) := by
  intro n
  induction n with
  | zero =>
    intro i ms metric r hr hn hb hidx
    simp only [restSlots] at hr
    subst hr
    refine ⟨Frame.self _, rfl, rfl, by simp, fun _ => ⟨hidx, ?_⟩⟩
    have : i = ms.records_per_block := by omega
    rw [this]; exact Scanned.empty _ _
  | succ n ih =>
    intro i ms metric r hr hn hb hidx
    have hi : i < ms.records_per_block := by omega
    rw [restSlots] at hr
    split at hr
    · rename_i hinv
      subst hr
      refine ⟨Frame.self _, rfl, rfl, by simp, fun _ => ⟨hidx, ?_⟩⟩
      exact ⟨fun g h1 _ h3 => absurd h3 (by omega), le_refl _,
        fun g h1 _ h3 => absurd h3 (by omega), Or.inl rfl⟩
    · rename_i hval
      have hval : curBlk * ms.records_per_block + i < ms.num_records := by omega
      have hk := hb.getValue es hi hval
      simp only [hk] at hr
      split at hr
      · rename_i hhit
        subst hr
        refine ⟨⟨rfl, rfl, rfl, rfl, rfl, rfl, rfl, rfl, rfl⟩, rfl, rfl, fun _ => ?_, by simp⟩
        exact ⟨le_refl _, hi, hval, hhit, rfl, Scanned.of_next_eq _ rfl⟩
      · rename_i hmiss
        have hfr := bump_frame ms (ukey ms (curBlk * ms.records_per_block + i))
        have hsc := bump_scanned ms _ hval hmiss
        have hbb := bump_buffer ms (ukey ms (curBlk * ms.records_per_block + i))
        have hbl := bump_lastBlockIdx ms (ukey ms (curBlk * ms.records_per_block + i))
        have hbn := bump_nextIdx ms (ukey ms (curBlk * ms.records_per_block + i)) hidx
        have hR := hfr.records_per_block
        have hN := hfr.num_records
        obtain ⟨h1, h2, h3, h4, h5⟩ := ih (i + 1)
          (bump ms (ukey ms (curBlk * ms.records_per_block + i))) _ r hr
          (by rw [hR]; omega) (hb.frame hfr hbb) hbn
        rw [hR] at h4 h5
        rw [hN, hfr.ukey_eq, hfr.current] at h4
        refine ⟨hfr.seq h1, h2.trans hbb, h3.trans hbl, fun hf => ?_, fun hf => ?_⟩
        · obtain ⟨a1, a2, a3, a4, a5, a6⟩ := h4 hf
          exact ⟨by omega, a2, a3, a4, a5, hsc.join hfr a6 (by omega) (by omega)⟩
        · obtain ⟨a1, a2⟩ := h5 hf
          exact ⟨a1, hsc.join hfr a2 (by omega) (by omega)⟩


theorem searchSlots_spec (es : external_sort_t) (k curBlk : Nat) (tb : test_record_t) :
    ∀ (n i : Nat) (ms : MinSortState) (metric : metrics_t) (r : SearchResult),
      searchSlots es k curBlk tb n i ms metric = r →
      i + n = ms.records_per_block → Holds ms curBlk →
      Frame ms r.ms ∧ r.ms.buffer = ms.buffer ∧ r.ms.lastBlockIdx = ms.lastBlockIdx ∧ r.k = k ∧
      (r.found = true → ∃ t, i ≤ t ∧ t < ms.records_per_block ∧
        curBlk * ms.records_per_block + t < ms.num_records ∧
        ukey ms (curBlk * ms.records_per_block + t) = ms.current ∧
        r.i = t + 1 ∧ r.tupleBuffer = recAt ms (curBlk * ms.records_per_block + t) ∧
        Scanned ms r.ms (curBlk * ms.records_per_block + i)
          (curBlk * ms.records_per_block + t)) ∧
      (r.found = false → r.tupleBuffer = tb ∧
        Scanned ms r.ms (curBlk * ms.records_per_block + i)
          (curBlk * ms.records_per_block + ms.records_per_block)) := by
  intro n
  induction n with
  | zero =>
    intro i ms metric r hr hn hb
    simp only [searchSlots] at hr
    subst hr
    refine ⟨Frame.self _, rfl, rfl, rfl, by simp, fun _ => ⟨rfl, ?_⟩⟩
    have : i = ms.records_per_block := by omega
    rw [this]; exact Scanned.empty _ _
  | succ n ih =>
    intro i ms metric r hr hn hb
    have hi : i < ms.records_per_block := by omega
    rw [searchSlots] at hr
    split at hr
    · rename_i hinv
      subst hr
      refine ⟨Frame.self _, rfl, rfl, rfl, by simp, fun _ => ⟨rfl, ?_⟩⟩
      exact ⟨fun g h1 _ h3 => absurd h3 (by omega), le_refl _,
        fun g h1 _ h3 => absurd h3 (by omega), Or.inl rfl⟩
    · rename_i hval
      have hval : curBlk * ms.records_per_block + i < ms.num_records := by omega
      have hk := hb.getValue es hi hval
      simp only [hk] at hr
      split at hr
      · rename_i hhit
        subst hr
        refine ⟨⟨rfl, rfl, rfl, rfl, rfl, rfl, rfl, rfl, rfl⟩, rfl, rfl, rfl, fun _ => ?_, by simp⟩
        exact ⟨i, le_refl _, hi, hval, hhit, rfl, hb i hi hval, Scanned.of_next_eq _ rfl⟩
      · rename_i hmiss
        have hfr := bump_frame ms (ukey ms (curBlk * ms.records_per_block + i))
        have hsc := bump_scanned ms _ hval hmiss
        have hbb := bump_buffer ms (ukey ms (curBlk * ms.records_per_block + i))
        have hbl := bump_lastBlockIdx ms (ukey ms (curBlk * ms.records_per_block + i))
        have hR := hfr.records_per_block
        have hN := hfr.num_records
        obtain ⟨h1, h2, h3, hk', h4, h5⟩ := ih (i + 1)
          (bump ms (ukey ms (curBlk * ms.records_per_block + i))) _ r hr
          (by rw [hR]; omega) (hb.frame hfr hbb)
        rw [hR] at h4 h5
        rw [hN] at h4
        refine ⟨hfr.seq h1, h2.trans hbb, h3.trans hbl, hk', fun hf => ?_, fun hf => ?_⟩
        · obtain ⟨t, a1, a2, a3, a4, a5, a6, a7⟩ := h4 hf
          rw [hfr.ukey_eq, hfr.current] at a4
          rw [hfr.recAt_eq] at a6
          exact ⟨t, by omega, a2, a3, a4, a5, a6, hsc.join hfr a7 (by omega) (by omega)⟩
        · obtain ⟨a1, a2⟩ := h5 hf
          exact ⟨a1, hsc.join hfr a2 (by omega) (by omega)⟩

theorem slotAt_page (file : List (List test_record_t)) (R pg t : Nat) (ht : t < R) :
    slotAt file R (pg * R + t) = (file.getD pg []).getD t default := by
  unfold slotAt
  have h1 : (pg * R + t) / R = pg := by
    rw [Nat.mul_comm, Nat.mul_add_div (by omega), Nat.div_eq_of_lt ht, Nat.add_zero]
  have h2 : (pg * R + t) % R = t := by
    rw [Nat.mul_comm, Nat.mul_add_mod, Nat.mod_eq_of_lt ht]
  rw [h1, h2]

theorem readPage_spec (ms : MinSortState) (pg : Nat) (es : external_sort_t) (metric : metrics_t)
    (hfile : ms.num_records ≤ ms.iteratorState.file.length * ms.records_per_block) :
    Frame ms (readPage ms pg es metric).1 ∧ (readPage ms pg es metric).1.lastBlockIdx = pg ∧
    Holds (readPage ms pg es metric).1 pg ∧ (readPage ms pg es metric).1.next = ms.next ∧
    (readPage ms pg es metric).1.nextIdx = ms.nextIdx := by
  refine ⟨⟨rfl, rfl, rfl, rfl, rfl, rfl, rfl, rfl, rfl⟩, rfl, ?_, rfl, rfl⟩
  intro t ht hv
  simp only [readPage] at ht hv ⊢
  have hpg : pg < ms.iteratorState.file.length := by
    by_contra hge
    have : ms.iteratorState.file.length * ms.records_per_block ≤ pg * ms.records_per_block :=
      Nat.mul_le_mul_right _ (by omega)
    omega
  unfold recAt
  simp only []
  rw [slotAt_page _ _ _ _ ht, List.get?_eq_get hpg]
  simp [List.getD_eq_getElem?_getD, hpg]

theorem Holds.coherent {ms : MinSortState} {curBlk : Nat} (h : Holds ms curBlk)
    (hl : ms.lastBlockIdx = curBlk) : Coherent ms := by
  unfold Coherent; rw [hl]; exact h

/-- The page test at the head of both page loops: after it the buffer holds `curBlk`. -/
theorem load_spec (ms : MinSortState) (curBlk : Nat) (es : external_sort_t) (metric : metrics_t)
    (hfile : ms.num_records ≤ ms.iteratorState.file.length * ms.records_per_block)
    (hc : Coherent ms) (p : MinSortState × metrics_t)
    (hp : (if curBlk ≠ ms.lastBlockIdx then readPage ms curBlk es metric else (ms, metric)) = p) :
    Frame ms p.1 ∧ p.1.lastBlockIdx = curBlk ∧ Holds p.1 curBlk ∧ p.1.next = ms.next ∧
    p.1.nextIdx = ms.nextIdx := by
  split at hp
  · subst hp; exact readPage_spec ms curBlk es metric hfile
  · rename_i h
    subst hp
    have h : curBlk = ms.lastBlockIdx := by simpa using h
    refine ⟨Frame.self _, h.symm, ?_, rfl, rfl⟩
    rw [h]; exact hc

theorem scanRest_spec (es : external_sort_t) (startBlk : Nat) :
    ∀ (n k i : Nat) (ms : MinSortState) (metric : metrics_t) (q : MinSortState × metrics_t),
      scanRest es startBlk n k i ms metric = q →
      k + n = ms.blocks_per_region →
      ms.num_records ≤ ms.iteratorState.file.length * ms.records_per_block →
      Coherent ms → ms.nextIdx = 0 →
      ∀ i1, (if startBlk + k ≠ ms.lastBlockIdx then 0 else i) = i1 →
      i1 ≤ ms.records_per_block → 0 < k * ms.records_per_block + i1 →
      Frame ms q.1 ∧ Coherent q.1 ∧
      ((q.1.nextIdx = 0 ∧
          Scanned ms q.1 ((startBlk + k) * ms.records_per_block + i1)
            ((startBlk + (k + n)) * ms.records_per_block)) ∨
       (q.1.nextIdx ≠ 0 ∧ ∃ g, (startBlk + k) * ms.records_per_block + i1 ≤ g ∧
          g < (startBlk + (k + n)) * ms.records_per_block ∧ g < ms.num_records ∧
          ukey ms g = ms.current ∧ startBlk * ms.records_per_block + q.1.nextIdx = g ∧
          Scanned ms q.1 ((startBlk + k) * ms.records_per_block + i1) g)) := by
  intro n
  induction n with
  | zero =>
    intro k i ms metric q hq hB hfile hc hidx i1 hi1 hle hpos
    simp only [scanRest] at hq
    subst hq
    refine ⟨Frame.self _, hc, Or.inl ⟨hidx, ?_⟩⟩
    exact Scanned.vacuous rfl (fun g h1 h2 => by simp only [Nat.add_zero] at h2; omega)
  | succ n ih =>
    intro k i ms metric q hq hB hfile hc hidx i1 hi1 hle hpos
    rw [scanRest] at hq
    simp only [hi1] at hq
    generalize hp : (if startBlk + k ≠ ms.lastBlockIdx then readPage ms (startBlk + k) es metric
      else (ms, metric)) = p at hq
    obtain ⟨pf, pl, ph, pn, pi⟩ := load_spec ms (startBlk + k) es metric hfile hc p hp
    have hR := pf.records_per_block
    have hN := pf.num_records
    generalize hr : restSlots es k (startBlk + k) (p.1.records_per_block - i1) i1 p.1 p.2 = r at hq
    obtain ⟨rf, rb, rl, rt, rn⟩ := restSlots_spec es k (startBlk + k) _ _ _ _ r hr
      (by rw [hR]; omega) ph (by rw [pi]; exact hidx)
    rw [hR] at rt rn
    rw [hN, pf.ukey_eq, pf.current] at rt
    have hsc0 : Scanned ms p.1 ((startBlk + k) * ms.records_per_block + i1)
        ((startBlk + k) * ms.records_per_block + i1) := Scanned.of_next_eq _ pn
    have hco : Coherent r.ms := by
      apply Holds.coherent (ph.frame rf rb)
      rw [rl, pl]
    have e1 : (startBlk + (k + (n + 1))) * ms.records_per_block
        = (startBlk + (k + 1 + n)) * ms.records_per_block := by
      rw [Nat.add_assoc k 1 n, Nat.add_comm 1 n]
    have e2 : (startBlk + (k + 1)) * ms.records_per_block
        = (startBlk + k) * ms.records_per_block + ms.records_per_block := by
      rw [← Nat.add_assoc, Nat.succ_mul]
    have e3 : (startBlk + (k + 1)) * ms.records_per_block
        ≤ (startBlk + (k + 1 + n)) * ms.records_per_block :=
      Nat.mul_le_mul_right _ (by omega)
    split at hq
    · rename_i hfound
      subst hq
      obtain ⟨a1, a2, a3, a4, a5, a6⟩ := rt hfound
      refine ⟨pf.seq rf, hco, Or.inr ⟨?_, _, ?_, ?_, a3, a4, ?_, ?_⟩⟩
      · show r.ms.nextIdx ≠ 0
        rw [a5]; omega
      · show (startBlk + k) * ms.records_per_block + i1 ≤ _
        omega
      · rw [e1]; omega
      · show startBlk * ms.records_per_block + r.ms.nextIdx = _
        rw [a5, Nat.add_mul]; omega
      · exact hsc0.join pf a6 (le_refl _) (by omega)
    · rename_i hnf
      have hnf : r.found = false := by simpa using hnf
      obtain ⟨a1, a2⟩ := rn hnf
      have hsc1 := hsc0.join pf a2 (le_refl _) (by omega)
      have hf2 := pf.seq rf
      have hRpos : 0 < ms.records_per_block := by
        rcases Nat.eq_zero_or_pos ms.records_per_block with h | h
        · rw [h] at hpos hle; simp at hpos; omega
        · exact h
      obtain ⟨b1, b2, b3⟩ := ih (k + 1) r.i r.ms r.metric q hq
        (by rw [hf2.blocks_per_region]; omega)
        (by rw [hf2.num_records, hf2.iteratorState, hf2.records_per_block]; exact hfile)
        hco a1 0
        (by rw [rl, pl]; simp)
        (Nat.zero_le _)
        (by rw [hf2.records_per_block, Nat.succ_mul]; omega)
      rw [hf2.records_per_block, hf2.num_records] at b3
      simp only [Nat.add_zero] at b3
      refine ⟨hf2.seq b1, b2, ?_⟩
      rcases b3 with ⟨c1, c2⟩ | ⟨c1, g, c2, c3, c4, c5, c6, c7⟩
      · left
        refine ⟨c1, ?_⟩
        rw [e1]
        rw [e2] at c2
        exact hsc1.join hf2 c2 (by omega) (by omega)
      · right
        rw [hf2.ukey_eq, hf2.current] at c5
        rw [e2] at c2 c7
        refine ⟨c1, g, by omega, by rw [e1]; exact c3, c4, c5, c6, ?_⟩
        exact hsc1.join hf2 c7 (by omega) (by omega)

theorem searchRegion_spec (es : external_sort_t) (startBlk startIndex : Nat) (tb : test_record_t) :
    ∀ (n k i : Nat) (ms : MinSortState) (metric : metrics_t) (r : SearchResult),
      searchRegion es startBlk startIndex tb n k i ms metric = r →
      k + n = ms.blocks_per_region →
      ms.num_records ≤ ms.iteratorState.file.length * ms.records_per_block →
      Coherent ms →
      ∀ kh ih, k ≤ kh → kh < ms.blocks_per_region → ih < ms.records_per_block →
      (k < kh → startIndex % ms.records_per_block = 0) →
      (k = kh → startIndex % ms.records_per_block ≤ ih) →
      (startBlk + kh) * ms.records_per_block + ih < ms.num_records →
      ukey ms ((startBlk + kh) * ms.records_per_block + ih) = ms.current →
      (∀ g, (startBlk + k) * ms.records_per_block + startIndex % ms.records_per_block ≤ g →
        g < (startBlk + kh) * ms.records_per_block + ih → ukey ms g ≠ ms.current) →
      r.found = true ∧ r.k = kh ∧ r.i = ih + 1 ∧
      r.tupleBuffer = recAt ms ((startBlk + kh) * ms.records_per_block + ih) ∧
      Frame ms r.ms ∧ Coherent r.ms ∧ r.ms.lastBlockIdx = startBlk + kh ∧
      Scanned ms r.ms ((startBlk + k) * ms.records_per_block + startIndex % ms.records_per_block)
        ((startBlk + kh) * ms.records_per_block + ih) := by
  intro n
  induction n with
  | zero =>
    intro k i ms metric r hr hB hfile hc kh ih hk hkh hih h0 h1 hv hhit hno
    omega
  | succ n ih' =>
    intro k i ms metric r hr hB hfile hc kh ih hk hkh hih h0 h1 hv hhit hno
    rw [searchRegion] at hr
    generalize hp : (if startBlk + k ≠ ms.lastBlockIdx then readPage ms (startBlk + k) es metric
      else (ms, metric)) = p at hr
    obtain ⟨pf, pl, ph, pn, pi⟩ := load_spec ms (startBlk + k) es metric hfile hc p hp
    have hR := pf.records_per_block
    have hN := pf.num_records
    simp only [hR] at hr
    have hi0 : startIndex % ms.records_per_block < ms.records_per_block :=
      Nat.mod_lt _ (by omega)
    generalize hs : searchSlots es k (startBlk + k) tb
      (ms.records_per_block - startIndex % ms.records_per_block)
      (startIndex % ms.records_per_block) p.1 p.2 = s at hr
    obtain ⟨sf, sb, sl, sk, st, sn⟩ := searchSlots_spec es k (startBlk + k) tb _ _ _ _ s hs
      (by rw [hR]; omega) ph
    rw [hR] at st sn
    rw [hN] at st
    have hsc0 : Scanned ms p.1
        ((startBlk + k) * ms.records_per_block + startIndex % ms.records_per_block)
        ((startBlk + k) * ms.records_per_block + startIndex % ms.records_per_block) :=
      Scanned.of_next_eq _ pn
    have hco : Coherent s.ms := by
      apply Holds.coherent (ph.frame sf sb)
      rw [sl, pl]
    have e2 : (startBlk + (k + 1)) * ms.records_per_block
        = (startBlk + k) * ms.records_per_block + ms.records_per_block := by
      rw [← Nat.add_assoc, Nat.succ_mul]
    rcases Nat.lt_or_ge k kh with hlt | hge
    · -- the hit lies on a later page
      have hz := h0 hlt
      have e3 : (startBlk + (k + 1)) * ms.records_per_block
          ≤ (startBlk + kh) * ms.records_per_block := Nat.mul_le_mul_right _ (by omega)
      have hnf : s.found = false := by
        cases hfd : s.found with
        | false => rfl
        | true =>
          obtain ⟨t, a1, a2, a3, a4, a5, a6, a7⟩ := st hfd
          rw [pf.ukey_eq, pf.current] at a4
          exact absurd a4 (hno _ (by omega) (by omega))
      rw [if_neg (by simp [hnf])] at hr
      obtain ⟨a1, a2⟩ := sn hnf
      have hf2 := pf.seq sf
      have hsc1 := hsc0.join pf a2 (le_refl _) (by omega)
      obtain ⟨b1, b2, b3, b4, b5, b6, b7, b8⟩ := ih' (k + 1) s.i s.ms s.metric r hr
        (by rw [hf2.blocks_per_region]; omega)
        (by rw [hf2.num_records, hf2.iteratorState, hf2.records_per_block]; exact hfile)
        hco kh ih (by omega) (by rw [hf2.blocks_per_region]; exact hkh)
        (by rw [hf2.records_per_block]; exact hih)
        (fun _ => by rw [hf2.records_per_block]; exact hz)
        (fun _ => by rw [hf2.records_per_block, hz]; exact Nat.zero_le _)
        (by rw [hf2.records_per_block, hf2.num_records]; exact hv)
        (by rw [hf2.records_per_block, hf2.ukey_eq, hf2.current]; exact hhit)
        (by
          intro g hg1 hg2
          rw [hf2.records_per_block] at hg1 hg2
          rw [hf2.ukey_eq, hf2.current]
          exact hno g (by omega) hg2)
      rw [hf2.records_per_block] at b4 b8
      rw [hf2.recAt_eq] at b4
      refine ⟨b1, b2, b3, b4, hf2.seq b5, b6, b7, ?_⟩
      rw [hz, e2] at b8
      rw [hz] at hsc1
      rw [hz]
      exact hsc1.join hf2 b8 (by omega) (by omega)
    · -- the hit lies on this page
      have hkk : k = kh := by omega
      subst hkk
      have hle := h1 rfl
      have hfd : s.found = true := by
        cases hfd : s.found with
        | true => rfl
        | false =>
          obtain ⟨a1, a2⟩ := sn hfd
          have := a2.noHit ((startBlk + k) * ms.records_per_block + ih) (by omega) (by omega)
            (by rw [hN]; exact hv)
          rw [pf.ukey_eq, pf.current] at this
          exact absurd hhit this
      rw [if_pos hfd] at hr
      subst hr
      obtain ⟨t, a1, a2, a3, a4, a5, a6, a7⟩ := st hfd
      rw [pf.ukey_eq, pf.current] at a4
      have ht : t = ih := by
        rcases Nat.lt_trichotomy t ih with h | h | h
        · exact absurd a4 (hno _ (by omega) (by omega))
        · exact h
        · have := a7.noHit ((startBlk + k) * ms.records_per_block + ih) (by omega)
            (by omega) (by rw [hN]; exact hv)
          rw [pf.ukey_eq, pf.current] at this
          exact absurd hhit this
      subst ht
      rw [pf.recAt_eq] at a6
      exact ⟨hfd, sk, a5, a6, pf.seq sf, hco, by rw [sl, pl],
        hsc0.join pf a7 (le_refl _) (by omega)⟩

/-- The loop of selectRegion after its first `n` iterations. -/
theorem selectLoop_spec (ms : MinSortState) (metric : metrics_t) (n : Nat) :
    ∃ c ri mt,
      (List.range n).foldl
        (fun (p : MinSortState × metrics_t) i =>
          let metric := { p.2 with num_compar := p.2.num_compar + 1 }
          if p.1.min.getD i 0 < p.1.current then
            ({ p.1 with current := p.1.min.getD i 0, regionIdx := i }, metric)
          else (p.1, metric))
        ({ ms with current := INT_MAX, regionIdx := INT_MAX, next := INT_MAX }, metric)
        = ({ ms with current := c, regionIdx := ri, next := INT_MAX }, mt) ∧
      ((ri = INT_MAX ∧ c = INT_MAX ∧ ∀ r, r < n → INT_MAX ≤ ms.min.getD r 0) ∨
       (ri < n ∧ c = ms.min.getD ri 0 ∧ c < INT_MAX ∧ (∀ r, r < n → c ≤ ms.min.getD r 0) ∧
        ∀ r, r < ri → c < ms.min.getD r 0)) := by
  induction n with
  | zero =>
    exact ⟨INT_MAX, INT_MAX, metric, rfl, Or.inl ⟨rfl, rfl, fun r h => absurd h (by omega)⟩⟩
  | succ n ih =>
    obtain ⟨c, ri, mt, he, hc⟩ := ih
    rw [List.range_succ, List.foldl_append, he]
    simp only [List.foldl_cons, List.foldl_nil]
    by_cases hlt : ms.min.getD n 0 < c
    · rw [if_pos hlt]
      refine ⟨ms.min.getD n 0, n, _, rfl, Or.inr ⟨by omega, rfl, ?_, ?_, ?_⟩⟩
      · rcases hc with ⟨_, h2, _⟩ | ⟨_, _, h3, _, _⟩ <;> omega
      · intro r hr
        rcases Nat.lt_or_ge r n with h | h
        · rcases hc with ⟨_, h2, h3⟩ | ⟨_, _, _, h4, _⟩
          · have := h3 r h; omega
          · have := h4 r h; omega
        · have : r = n := by omega
          rw [this]
      · intro r hr
        rcases hc with ⟨_, h2, h3⟩ | ⟨_, _, _, h4, _⟩
        · have := h3 r hr; omega
        · have := h4 r hr; omega
    · rw [if_neg hlt]
      refine ⟨c, ri, _, rfl, ?_⟩
      rcases hc with ⟨h1, h2, h3⟩ | ⟨h1, h2, h3, h4, h5⟩
      · left
        refine ⟨h1, h2, fun r hr => ?_⟩
        rcases Nat.lt_or_ge r n with h | h
        · exact h3 r h
        · have : r = n := by omega
          rw [this]; omega
      · right
        refine ⟨by omega, h2, h3, fun r hr => ?_, h5⟩
        rcases Nat.lt_or_ge r n with h | h
        · exact h4 r h
        · have : r = n := by omega
          rw [this]; omega

theorem selectRegion_spec (ms : MinSortState) (metric : metrics_t) :
    ∃ c ri mt,
      selectRegion ms metric = ({ ms with current := c, regionIdx := ri, next := INT_MAX }, mt) ∧
      ((ri = INT_MAX ∧ c = INT_MAX ∧ ∀ r, r < ms.numRegions → INT_MAX ≤ ms.min.getD r 0) ∨
       (ri < ms.numRegions ∧ c = ms.min.getD ri 0 ∧ c < INT_MAX ∧
        (∀ r, r < ms.numRegions → c ≤ ms.min.getD r 0) ∧
        ∀ r, r < ri → c < ms.min.getD r 0)) :=
  selectLoop_spec ms metric ms.numRegions

theorem regionOf_eq_iff (ms : MinSortState) (g r : Nat)
    (hW : 0 < ms.blocks_per_region * ms.records_per_block) :
    regionOf ms g = r ↔ regionStart ms r ≤ g ∧
      g < regionStart ms r + ms.blocks_per_region * ms.records_per_block := by
  unfold regionOf regionStart
  rw [Nat.mul_assoc]
  constructor
  · intro h
    subst h
    constructor
    · exact Nat.div_mul_le_self _ _
    · have := Nat.lt_div_mul_add (a := g) hW
      exact this
  · rintro ⟨h1, h2⟩
    apply Nat.div_eq_of_lt_le
    · exact h1
    · rw [Nat.succ_mul]; exact h2

theorem search_of_armed {ms : MinSortState} {ps : List Nat} {gs : Nat} (h : Armed ms ps gs)
    (es : external_sort_t) (tb : test_record_t) (metric : metrics_t) (r : SearchResult)
    (hr : searchRegion es (ms.regionIdx * ms.blocks_per_region) ms.nextIdx tb
      (ms.blocks_per_region - ms.nextIdx / ms.records_per_block)
      (ms.nextIdx / ms.records_per_block) 0 ms metric = r) :
    r.found = true ∧ r.tupleBuffer = recAt ms gs ∧ Frame ms r.ms ∧ Coherent r.ms ∧
    r.ms.lastBlockIdx = ms.regionIdx * ms.blocks_per_region + r.k ∧
    r.k < ms.blocks_per_region ∧ 1 ≤ r.i ∧ r.i ≤ ms.records_per_block ∧
    (ms.regionIdx * ms.blocks_per_region + r.k) * ms.records_per_block + r.i = gs + 1 ∧
    Scanned ms r.ms (regionStart ms ms.regionIdx + ms.nextIdx) gs := by
  have hR := h.R_pos
  have hge := h.gs_ge
  have hlt := h.gs_lt
  unfold regionStart at hge hlt
  -- local position of the hit
  obtain ⟨d, hd⟩ : ∃ d, gs = ms.regionIdx * ms.blocks_per_region * ms.records_per_block + d :=
    ⟨gs - ms.regionIdx * ms.blocks_per_region * ms.records_per_block, by omega⟩
  have hdq : ms.nextIdx ≤ d := by omega
  have hdB : d < ms.blocks_per_region * ms.records_per_block := by omega
  have hkh : d / ms.records_per_block < ms.blocks_per_region :=
    Nat.div_lt_of_lt_mul (by rw [Nat.mul_comm]; exact hdB)
  have hih : d % ms.records_per_block < ms.records_per_block := Nat.mod_lt _ hR
  have hdm := Nat.div_add_mod' d ms.records_per_block
  have hqm := Nat.div_add_mod' ms.nextIdx ms.records_per_block
  have hkk : ms.nextIdx / ms.records_per_block ≤ d / ms.records_per_block :=
    Nat.div_le_div_right hdq
  have epos : ∀ k i, (ms.regionIdx * ms.blocks_per_region + k) * ms.records_per_block + i
      = ms.regionIdx * ms.blocks_per_region * ms.records_per_block
        + (k * ms.records_per_block + i) := by
    intro k i; rw [Nat.add_mul]; omega
  have egs : (ms.regionIdx * ms.blocks_per_region + d / ms.records_per_block)
      * ms.records_per_block + d % ms.records_per_block = gs := by
    rw [epos, hdm, hd]
  have estart : (ms.regionIdx * ms.blocks_per_region + ms.nextIdx / ms.records_per_block)
      * ms.records_per_block + ms.nextIdx % ms.records_per_block
      = regionStart ms ms.regionIdx + ms.nextIdx := by
    rw [epos, hqm]; rfl
  obtain ⟨a1, a2, a3, a4, a5, a6, a7, a8⟩ := searchRegion_spec es _ _ tb _ _ _ _ _ r hr
    (by omega) h.file_len h.coherent (d / ms.records_per_block) (d % ms.records_per_block)
    hkk hkh hih
    (by
      intro hlt'
      by_cases hq : ms.nextIdx = 0
      · rw [hq]; exact Nat.zero_mod _
      · have := h.gs_hint hq
        unfold regionStart at this
        have : d = ms.nextIdx := by omega
        rw [this] at hlt'
        omega)
    (by
      intro heq
      rw [heq] at hqm
      omega)
    (by rw [egs]; exact h.gs_valid)
    (by rw [egs]; exact h.gs_hit)
    (by
      intro g hg1 hg2
      rw [estart] at hg1
      rw [egs] at hg2
      exact h.gs_first g hg1 hg2)
  rw [egs] at a4 a8
  rw [estart] at a8
  refine ⟨a1, a4, a5, a6, by rw [a7, a2], by rw [a2]; exact hkh, by omega, by omega, ?_, a8⟩
  rw [a2, a3, ← Nat.add_assoc, egs]

theorem Frame.regionOf_eq {a b : MinSortState} (h : Frame a b) (g : Nat) :
    regionOf b g = regionOf a g := by
  unfold FlashMinSort.regionOf
  rw [h.blocks_per_region, h.records_per_block]

theorem Frame.regionStart_eq {a b : MinSortState} (h : Frame a b) (r : Nat) :
    regionStart b r = regionStart a r := by
  unfold FlashMinSort.regionStart
  rw [h.blocks_per_region, h.records_per_block]

theorem Frame.sameInput {a b : MinSortState} (h : Frame a b) : SameInput a b :=
  ⟨h.iteratorState, h.records_per_block, h.blocks_per_region, h.numRegions, h.num_records,
   h.numBlocks⟩

theorem Armed.width_pos {ms : MinSortState} {ps : List Nat} {gs : Nat} (h : Armed ms ps gs) :
    0 < ms.blocks_per_region * ms.records_per_block := Nat.mul_pos h.B_pos h.R_pos

theorem Armed.gs_region {ms : MinSortState} {ps : List Nat} {gs : Nat} (h : Armed ms ps gs) :
    regionOf ms gs = ms.regionIdx :=
  (regionOf_eq_iff ms gs _ h.width_pos).2 ⟨by have := h.gs_ge; omega, h.gs_lt⟩

theorem Armed.gs_not_mem {ms : MinSortState} {ps : List Nat} {gs : Nat} (h : Armed ms ps gs) :
    gs ∉ ps := by
  intro hm
  have := ((h.ret gs).1 hm).2
  rw [if_pos h.gs_region, h.gs_hit] at this
  rcases this with h1 | ⟨_, h2⟩ <;> omega

/-- The state at the label `done2` when the rest scan has found another occurrence of
`current` at slot `g2`. -/
theorem inv_of_found {ms : MinSortState} {ps : List Nat} {gs : Nat} (h : Armed ms ps gs)
    (m : MinSortState) (hf : Frame ms m) (hco : Coherent m) (g2 : Nat)
    (hidx : m.nextIdx ≠ 0) (hg2 : regionStart ms ms.regionIdx + m.nextIdx = g2)
    (hlo : gs + 1 ≤ g2)
    (hhi : g2 < regionStart ms ms.regionIdx + ms.blocks_per_region * ms.records_per_block)
    (hval : g2 < ms.num_records) (hhit : ukey ms g2 = ms.current)
    (hno : ∀ g, gs + 1 ≤ g → g < g2 → g < ms.num_records → ukey ms g ≠ ms.current)
    (hgt : ms.current < m.next) (hle : m.next ≤ INT_MAX)
    (hwit : m.next < INT_MAX → ∃ g, regionStart ms ms.regionIdx ≤ g ∧
      g < regionStart ms ms.regionIdx + ms.blocks_per_region * ms.records_per_block ∧
      g < ms.num_records ∧ ukey ms g = m.next)
    (hlb : ∀ g, regionStart ms ms.regionIdx ≤ g → g < g2 → g < ms.num_records →
      ms.current < ukey ms g → m.next ≤ ukey ms g) :
    Inv m (ps ++ [gs]) := by
  have hR := hf.records_per_block
  have hB := hf.blocks_per_region
  have hG := hf.numRegions
  have hN := hf.num_records
  have hmin := hf.min
  have hcur := hf.current
  have hri := hf.regionIdx
  have hgsr := h.gs_region
  refine
    { R_pos := by rw [hR]; exact h.R_pos
      B_pos := by rw [hB]; exact h.B_pos
      G_le := by rw [hG]; exact h.G_le
      cover := by rw [hN, hG, hB, hR]; exact h.cover
      file_len := by rw [hN, hf.iteratorState, hR]; exact h.file_len
      coherent := hco
      min_len := by rw [hmin, hG]; exact h.min_len
      min_le := by rw [hmin, hG]; exact h.min_le
      min_wit := ?_
      ret := ?_
      nodup := ?_
      below := ?_
      mid := ?_ }
  · intro r hr hlt
    rw [hG] at hr
    rw [hmin] at hlt ⊢
    obtain ⟨g, a1, a2, a3⟩ := h.min_wit r hr hlt
    exact ⟨g, by rw [hN]; exact a1, by rw [hf.regionOf_eq]; exact a2, by rw [hf.ukey_eq]; exact a3⟩
  · intro g
    rw [List.mem_append, List.mem_singleton, h.ret g]
    unfold Returned
    rw [hN, hf.regionOf_eq, hri, hf.ukey_eq, hcur, hmin, hf.regionStart_eq, hg2]
    by_cases hreg : regionOf ms g = ms.regionIdx
    · rw [if_pos hreg, if_pos ⟨hidx, hreg⟩]
      constructor
      · rintro (⟨a1, a2⟩ | a1)
        · refine ⟨a1, ?_⟩
          rcases a2 with a2 | ⟨a2, a3⟩
          · exact Or.inl a2
          · exact Or.inr ⟨a2, by omega⟩
        · subst a1
          exact ⟨h.gs_valid, Or.inr ⟨h.gs_hit, by omega⟩⟩
      · rintro ⟨a1, a2 | ⟨a2, a3⟩⟩
        · exact Or.inl ⟨a1, Or.inl a2⟩
        · rcases Nat.lt_trichotomy g gs with c | c | c
          · exact Or.inl ⟨a1, Or.inr ⟨a2, c⟩⟩
          · exact Or.inr c
          · exact absurd a2 (hno g (by omega) a3 a1)
    · rw [if_neg hreg, if_neg (fun hh => hreg hh.2)]
      constructor
      · rintro (a1 | a1)
        · exact a1
        · subst a1; exact absurd hgsr hreg
      · exact fun a => Or.inl a
  · rw [List.nodup_append]
    refine ⟨h.nodup, List.nodup_singleton _, ?_⟩
    intro a ha hb
    rw [List.mem_singleton] at hb
    subst hb
    exact h.gs_not_mem ha
  · intro g hg r hr
    rw [hG] at hr
    rw [hf.ukey_eq, hmin]
    rw [List.mem_append, List.mem_singleton] at hg
    rcases hg with hg | hg
    · exact h.below g hg r hr
    · subst hg; rw [h.gs_hit]; exact h.current_le r hr
  · intro _
    refine
      { region_lt := by rw [hri, hG]; exact h.region_lt
        idx_lt := by rw [hB, hR]; omega
        valid := by rw [hf.regionStart_eq, hri, hg2, hN]; exact hval
        hit := by rw [hf.regionStart_eq, hri, hg2, hf.ukey_eq, hcur]; exact hhit
        min_eq := by rw [hmin, hri, hcur]; exact h.min_eq
        current_lt := by rw [hcur]; exact h.current_lt
        current_le := by rw [hcur, hmin, hG]; exact h.current_le
        next_gt := by rw [hcur]; exact hgt
        next_le := hle
        next_wit := ?_
        next_lb := ?_ }
    · intro hlt
      obtain ⟨g, a1, a2, a3, a4⟩ := hwit hlt
      rw [hf.regionStart_eq, hri, hB, hR, hN]
      exact ⟨g, a1, a2, a3, by rw [hf.ukey_eq]; exact a4⟩
    · intro g a1 a2 a3 a4
      rw [hf.regionStart_eq, hri] at a1 a2
      rw [hg2] at a2
      rw [hN] at a3
      rw [hcur, hf.ukey_eq] at a4
      rw [hf.ukey_eq]
      exact hlb g a1 a2 a3 a4

theorem getD_set_eq (l : List Nat) (i v : Nat) (h : i < l.length) :
    (l.set i v).getD i 0 = v := by
  simp [List.getD_eq_getElem?_getD, List.getElem?_set, h]

theorem getD_set_ne (l : List Nat) (i j v : Nat) (h : i ≠ j) :
    (l.set i v).getD j 0 = l.getD j 0 := by
  simp [List.getD_eq_getElem?_getD, List.getElem?_set, h]

theorem SameInput.recAt_same {a b : MinSortState} (h : SameInput a b) (g : Nat) :
    recAt b g = recAt a g := by
  unfold FlashMinSort.recAt
  rw [h.iteratorState, h.records_per_block]

theorem SameInput.ukey_same {a b : MinSortState} (h : SameInput a b) (g : Nat) :
    ukey b g = ukey a g := by
  unfold FlashMinSort.ukey
  rw [h.recAt_same]

theorem SameInput.regionOf_same {a b : MinSortState} (h : SameInput a b) (g : Nat) :
    regionOf b g = regionOf a g := by
  unfold FlashMinSort.regionOf
  rw [h.blocks_per_region, h.records_per_block]

theorem SameInput.regionStart_same {a b : MinSortState} (h : SameInput a b) (r : Nat) :
    regionStart b r = regionStart a r := by
  unfold FlashMinSort.regionStart
  rw [h.blocks_per_region, h.records_per_block]

theorem SameInput.same_self (a : MinSortState) : SameInput a a := ⟨rfl, rfl, rfl, rfl, rfl, rfl⟩

theorem SameInput.same_seq {a b c : MinSortState} (h1 : SameInput a b) (h2 : SameInput b c) :
    SameInput a c :=
  ⟨h2.1.trans h1.1, h2.2.trans h1.2, h2.3.trans h1.3, h2.4.trans h1.4, h2.5.trans h1.5,
   h2.6.trans h1.6⟩

/-- The state after the update of the region minimum when the rest scan has reached the
end of the region without another occurrence of `current`; `nx` is the final `next`. -/
theorem inv_of_drained {ms : MinSortState} {ps : List Nat} {gs : Nat} (h : Armed ms ps gs)
    (m : MinSortState) (hs : SameInput ms m) (hco : Coherent m) (hidx : m.nextIdx = 0)
    (nx : Nat) (hmin : m.min = ms.min.set ms.regionIdx nx)
    (hno : ∀ g, gs + 1 ≤ g →
      g < regionStart ms ms.regionIdx + ms.blocks_per_region * ms.records_per_block →
      g < ms.num_records → ukey ms g ≠ ms.current)
    (hgt : ms.current < nx) (hle : nx ≤ INT_MAX)
    (hwit : nx < INT_MAX → ∃ g, regionStart ms ms.regionIdx ≤ g ∧
      g < regionStart ms ms.regionIdx + ms.blocks_per_region * ms.records_per_block ∧
      g < ms.num_records ∧ ukey ms g = nx)
    (hlb : ∀ g, regionStart ms ms.regionIdx ≤ g →
      g < regionStart ms ms.regionIdx + ms.blocks_per_region * ms.records_per_block →
      g < ms.num_records → ms.current < ukey ms g → nx ≤ ukey ms g) :
    Inv m (ps ++ [gs]) := by
  have hR := hs.records_per_block
  have hB := hs.blocks_per_region
  have hG := hs.numRegions
  have hN := hs.num_records
  have hgsr := h.gs_region
  have hrl : ms.regionIdx < ms.min.length := by rw [h.min_len]; exact h.region_lt
  refine
    { R_pos := by rw [hR]; exact h.R_pos
      B_pos := by rw [hB]; exact h.B_pos
      G_le := by rw [hG]; exact h.G_le
      cover := by rw [hN, hG, hB, hR]; exact h.cover
      file_len := by rw [hN, hs.iteratorState, hR]; exact h.file_len
      coherent := hco
      min_len := by rw [hmin, List.length_set, hG]; exact h.min_len
      min_le := ?_
      min_wit := ?_
      ret := ?_
      nodup := ?_
      below := ?_
      mid := fun hne => absurd hidx hne }
  · intro r hr
    rw [hmin]
    by_cases hrr : ms.regionIdx = r
    · subst hrr; rw [getD_set_eq _ _ _ hrl]; exact hle
    · rw [getD_set_ne _ _ _ _ hrr]; exact h.min_le r (by rw [← hG]; exact hr)
  · intro r hr
    rw [hmin, hN]
    by_cases hrr : ms.regionIdx = r
    · subst hrr
      rw [getD_set_eq _ _ _ hrl]
      intro hlt
      obtain ⟨g, a1, a2, a3, a4⟩ := hwit hlt
      exact ⟨g, a3, by rw [hs.regionOf_same]; exact (regionOf_eq_iff ms g _ h.width_pos).2 ⟨a1, a2⟩,
        by rw [hs.ukey_same]; exact a4⟩
    · rw [getD_set_ne _ _ _ _ hrr]
      intro hlt
      obtain ⟨g, a1, a2, a3⟩ := h.min_wit r (by rw [← hG]; exact hr) hlt
      exact ⟨g, a1, by rw [hs.regionOf_same]; exact a2, by rw [hs.ukey_same]; exact a3⟩
  · intro g
    have hRet : Returned m g ↔ ukey ms g < (ms.min.set ms.regionIdx nx).getD (regionOf ms g) 0 := by
      unfold Returned
      rw [if_neg (fun hh => hh.1 hidx), hs.regionOf_same, hs.ukey_same, hmin]
    rw [List.mem_append, List.mem_singleton, h.ret g, hN, hRet]
    by_cases hreg : regionOf ms g = ms.regionIdx
    · rw [if_pos hreg, hreg, getD_set_eq _ _ _ hrl]
      have hint := (regionOf_eq_iff ms g _ h.width_pos).1 hreg
      constructor
      · rintro (⟨a1, a2⟩ | a1)
        · refine ⟨a1, ?_⟩
          rcases a2 with a2 | ⟨a2, a3⟩ <;> omega
        · subst a1
          exact ⟨h.gs_valid, by rw [h.gs_hit]; exact hgt⟩
      · rintro ⟨a1, a2⟩
        have hle' : ukey ms g ≤ ms.current := by
          by_contra hc
          have := hlb g hint.1 hint.2 a1 (by omega)
          omega
        rcases Nat.lt_or_eq_of_le hle' with c | c
        · exact Or.inl ⟨a1, Or.inl c⟩
        · rcases Nat.lt_trichotomy g gs with d | d | d
          · exact Or.inl ⟨a1, Or.inr ⟨c, d⟩⟩
          · exact Or.inr d
          · exact absurd c (hno g (by omega) hint.2 a1)
    · rw [if_neg hreg, getD_set_ne _ _ _ _ (fun hh => hreg hh.symm)]
      constructor
      · rintro (a1 | a1)
        · exact a1
        · subst a1; exact absurd hgsr hreg
      · exact fun a => Or.inl a
  · rw [List.nodup_append]
    refine ⟨h.nodup, List.nodup_singleton _, ?_⟩
    intro a ha hb
    rw [List.mem_singleton] at hb
    subst hb
    exact h.gs_not_mem ha
  · intro g hg r hr
    rw [hs.ukey_same, hmin]
    have hr' : r < ms.numRegions := by rw [← hG]; exact hr
    have hkey : ukey ms g ≤ ms.current := by
      rw [List.mem_append, List.mem_singleton] at hg
      rcases hg with hg | hg
      · rw [← h.min_eq]; exact h.below g hg _ h.region_lt
      · subst hg; rw [h.gs_hit]
    by_cases hrr : ms.regionIdx = r
    · subst hrr; rw [getD_set_eq _ _ _ hrl]; omega
    · rw [getD_set_ne _ _ _ _ hrr]
      exact le_trans hkey (h.current_le r hr')

theorem drainStep_spec {ms : MinSortState} {ps : List Nat} {gs : Nat} (h : Armed ms ps gs)
    (es : external_sort_t) (tb : test_record_t) (metric : metrics_t) :
    ∃ ms1 mt1, drainStep ms es tb metric = (ms1, mt1, some (recAt ms gs)) ∧
      SameInput ms ms1 ∧ Inv ms1 (ps ++ [gs]) ∧
      (ms.regionIdx * ms.blocks_per_region
          + (searchRegion es (ms.regionIdx * ms.blocks_per_region) ms.nextIdx tb
            (ms.blocks_per_region - ms.nextIdx / ms.records_per_block)
            (ms.nextIdx / ms.records_per_block) 0 ms metric).k) * ms.records_per_block
        + ((searchRegion es (ms.regionIdx * ms.blocks_per_region) ms.nextIdx tb
            (ms.blocks_per_region - ms.nextIdx / ms.records_per_block)
            (ms.nextIdx / ms.records_per_block) 0 ms metric).i - 1) = gs := by
  unfold drainStep
  simp only []
  generalize hr : searchRegion es (ms.regionIdx * ms.blocks_per_region) ms.nextIdx tb
    (ms.blocks_per_region - ms.nextIdx / ms.records_per_block)
    (ms.nextIdx / ms.records_per_block) 0 ms metric = r
  obtain ⟨f1, f2, f3, f4, f5, f6, f7, f8, f9, f10⟩ := search_of_armed h es tb metric r hr
  obtain ⟨m2, hm2⟩ : ∃ m2 : MinSortState, { r.ms with nextIdx := 0 } = m2 := ⟨_, rfl⟩
  rw [hm2]
  have g1 : Frame ms m2 := by
    subst hm2
    exact ⟨f3.1, f3.2, f3.3, f3.4, f3.5, f3.6, f3.7, f3.8, f3.9⟩
  have g2 : Coherent m2 := by subst hm2; exact f4
  have g3 : m2.nextIdx = 0 := by subst hm2; rfl
  have g4 : m2.next = r.ms.next := by subst hm2; rfl
  have g5 : m2.lastBlockIdx = ms.regionIdx * ms.blocks_per_region + r.k := by
    subst hm2; exact f5
  have g6 : Scanned ms m2 (regionStart ms ms.regionIdx + ms.nextIdx) gs :=
    ⟨f10.noHit, by rw [g4]; exact f10.next_le, by rw [g4]; exact f10.next_lb,
     by rw [g4]; exact f10.next_from⟩
  have hR := g1.records_per_block
  have hB := g1.blocks_per_region
  have hN := g1.num_records
  rw [f3.blocks_per_region]
  generalize hq : scanRest es (ms.regionIdx * ms.blocks_per_region)
    (ms.blocks_per_region - r.k) r.k r.i m2 r.metric = q
  obtain ⟨q1, q2, q3⟩ := scanRest_spec es _ _ _ _ _ _ q hq (by rw [hB]; omega)
    (by rw [hN, g1.iteratorState, hR]; exact h.file_len) g2 g3 r.i
    (by rw [g5]; simp) (by rw [hR]; exact f8) (by rw [hR]; omega)
  simp only [hR, hN, g1.ukey_eq, g1.current] at q3
  have ehi : (ms.regionIdx * ms.blocks_per_region + (r.k + (ms.blocks_per_region - r.k)))
      * ms.records_per_block
      = regionStart ms ms.regionIdx + ms.blocks_per_region * ms.records_per_block := by
    have : r.k + (ms.blocks_per_region - r.k) = ms.blocks_per_region := by omega
    rw [this, Nat.add_mul]; rfl
  rw [f9, ehi] at q3
  have hfq := g1.seq q1
  -- what the two scans together say about `next`
  have hgs := h.gs_ge
  have hnle : q.1.next ≤ ms.next := by
    rcases q3 with ⟨_, s⟩ | ⟨_, g, _, _, _, _, _, s⟩
    · exact le_trans s.next_le g6.next_le
    · exact le_trans s.next_le g6.next_le
  have hnle' : q.1.next ≤ INT_MAX := le_trans hnle h.next_le
  have key : ∀ hi, Scanned m2 q.1 (gs + 1) hi →
      hi ≤ regionStart ms ms.regionIdx + ms.blocks_per_region * ms.records_per_block →
      ms.current < q.1.next ∧
      (q.1.next < INT_MAX → ∃ g, regionStart ms ms.regionIdx ≤ g ∧
        g < regionStart ms ms.regionIdx + ms.blocks_per_region * ms.records_per_block ∧
        g < ms.num_records ∧ ukey ms g = q.1.next) ∧
      (∀ g, regionStart ms ms.regionIdx ≤ g → g < hi → g < ms.num_records →
        ms.current < ukey ms g → q.1.next ≤ ukey ms g) ∧
      (∀ g, gs + 1 ≤ g → g < hi → g < ms.num_records → ukey ms g ≠ ms.current) := by
    intro hi s hhi
    have sno := s.noHit
    have slb := s.next_lb
    have sfrom := s.next_from
    rw [hN] at sno slb sfrom
    simp only [g1.ukey_eq, g1.current] at sno slb sfrom
    have hfrom : q.1.next = ms.next ∨ (ms.current < q.1.next ∧
        ∃ g, regionStart ms ms.regionIdx ≤ g ∧
          g < regionStart ms ms.regionIdx + ms.blocks_per_region * ms.records_per_block ∧
          g < ms.num_records ∧ ukey ms g = q.1.next) := by
      rcases sfrom with e | ⟨a1, g, a2, a3, a4, a5⟩
      · rcases g6.next_from with e' | ⟨b1, g, b2, b3, b4, b5⟩
        · exact Or.inl (e.trans e')
        · right
          rw [e]
          exact ⟨b1, g, by omega, by have := h.gs_lt; omega, b4, b5⟩
      · exact Or.inr ⟨a1, g, by omega, by omega, a4, a5⟩
    refine ⟨?_, ?_, ?_, sno⟩
    · rcases hfrom with e | ⟨a, _⟩
      · rw [e]; exact h.next_gt
      · exact a
    · intro hlt
      rcases hfrom with e | ⟨_, a⟩
      · rw [e] at hlt ⊢; exact h.next_wit hlt
      · exact a
    · intro g a1 a2 a3 a4
      by_cases c1 : g < regionStart ms ms.regionIdx + ms.nextIdx
      · exact le_trans hnle (h.next_lb g a1 c1 a3 a4)
      · by_cases c2 : g < gs
        · exact le_trans s.next_le (g6.next_lb g (by omega) c2 a3 a4)
        · by_cases c3 : g = gs
          · subst c3; rw [h.gs_hit] at a4; omega
          · exact slb g (by omega) a2 a3 a4
  have hslot : (ms.regionIdx * ms.blocks_per_region + r.k) * ms.records_per_block + (r.i - 1)
      = gs := by omega
  rcases q3 with ⟨n0, s⟩ | ⟨n1, g, a1, a2, a3, a4, a5, s⟩
  · obtain ⟨k1, k2, k3, k4⟩ := key _ s (le_refl _)
    rw [if_pos n0]
    refine ⟨_, _, by rw [f2], ?_, ?_, hslot⟩
    · exact ⟨hfq.iteratorState, hfq.records_per_block, hfq.blocks_per_region, hfq.numRegions,
        hfq.num_records, hfq.numBlocks⟩
    · exact inv_of_drained h { q.1 with min := q.1.min.set q.1.regionIdx q.1.next }
        ⟨hfq.iteratorState, hfq.records_per_block, hfq.blocks_per_region,
          hfq.numRegions, hfq.num_records, hfq.numBlocks⟩
        q2 n0 q.1.next
        (by show q.1.min.set q.1.regionIdx q.1.next = _; rw [hfq.min, hfq.regionIdx])
        k4 k1 hnle' k2 k3
  · obtain ⟨k1, k2, k3, k4⟩ := key _ s (by omega)
    rw [if_neg n1]
    refine ⟨_, _, by rw [f2], hfq.sameInput, ?_, hslot⟩
    have a5' : regionStart ms ms.regionIdx + q.1.nextIdx = g := a5
    exact inv_of_found h q.1 hfq q2 g n1 a5' a1 a2 a3 a4 k4 k1 hnle' k2 k3

theorem next_MinSort_eq (ms : MinSortState) (es : external_sort_t) (tb : test_record_t)
    (metric : metrics_t) :
    next_MinSort ms es tb metric =
      if ms.nextIdx = 0 ∧
          (if ms.nextIdx = 0 then selectRegion ms metric else (ms, metric)).1.regionIdx = INT_MAX
      then ((if ms.nextIdx = 0 then selectRegion ms metric else (ms, metric)).1,
            (if ms.nextIdx = 0 then selectRegion ms metric else (ms, metric)).2, none)
      else drainStep (if ms.nextIdx = 0 then selectRegion ms metric else (ms, metric)).1 es tb
            (if ms.nextIdx = 0 then selectRegion ms metric else (ms, metric)).2 := rfl

theorem Inv.W_pos {ms : MinSortState} {ps : List Nat} (h : Inv ms ps) :
    0 < ms.blocks_per_region * ms.records_per_block := Nat.mul_pos h.B_pos h.R_pos

theorem Inv.region_lt {ms : MinSortState} {ps : List Nat} (h : Inv ms ps) {g : Nat}
    (hg : g < ms.num_records) : regionOf ms g < ms.numRegions := by
  unfold regionOf
  apply Nat.div_lt_of_lt_mul
  have := h.cover
  rw [Nat.mul_assoc, Nat.mul_comm] at this
  omega

/-- A state that differs from one satisfying the invariant only in `current`, `regionIdx`,
`next` and the counters, while no region is being drained. -/
theorem Inv.idle {ms : MinSortState} {ps : List Nat} (h : Inv ms ps) (m : MinSortState)
    (hs : SameInput ms m) (hmin : m.min = ms.min) (hbuf : m.buffer = ms.buffer)
    (hl : m.lastBlockIdx = ms.lastBlockIdx) (h0 : ms.nextIdx = 0) (h1 : m.nextIdx = 0) :
    Inv m ps := by
  have hR := hs.records_per_block
  have hB := hs.blocks_per_region
  have hG := hs.numRegions
  have hN := hs.num_records
  refine
    { R_pos := by rw [hR]; exact h.R_pos
      B_pos := by rw [hB]; exact h.B_pos
      G_le := by rw [hG]; exact h.G_le
      cover := by rw [hN, hG, hB, hR]; exact h.cover
      file_len := by rw [hN, hs.iteratorState, hR]; exact h.file_len
      coherent := ?_
      min_len := by rw [hmin, hG]; exact h.min_len
      min_le := by rw [hmin, hG]; exact h.min_le
      min_wit := ?_
      ret := ?_
      nodup := h.nodup
      below := ?_
      mid := fun hne => absurd h1 hne }
  · intro t ht hv
    rw [hR] at ht
    rw [hl, hR, hN] at hv
    rw [hbuf, hs.recAt_same, hl, hR]
    exact h.coherent t ht hv
  · intro r hr hlt
    rw [hG] at hr
    rw [hmin] at hlt ⊢
    obtain ⟨g, a1, a2, a3⟩ := h.min_wit r hr hlt
    exact ⟨g, by rw [hN]; exact a1, by rw [hs.regionOf_same]; exact a2, by rw [hs.ukey_same]; exact a3⟩
  · intro g
    rw [h.ret g, hN]
    unfold Returned
    rw [if_neg (fun hh => hh.1 h0), if_neg (fun hh => hh.1 h1), hs.regionOf_same, hs.ukey_same, hmin]
  · intro g hg r hr
    rw [hs.ukey_same, hmin]
    exact h.below g hg r (by rw [← hG]; exact hr)

/-- Entry of the search with a position hint: the hint is the slot to return. -/
theorem armed_of_draining {ms : MinSortState} {ps : List Nat} (h : Inv ms ps)
    (hne : ms.nextIdx ≠ 0) : Armed ms ps (regionStart ms ms.regionIdx + ms.nextIdx) := by
  have d := h.mid hne
  exact
    { R_pos := h.R_pos
      B_pos := h.B_pos
      G_le := h.G_le
      cover := h.cover
      file_len := h.file_len
      coherent := h.coherent
      min_len := h.min_len
      min_le := h.min_le
      min_wit := h.min_wit
      nodup := h.nodup
      below := h.below
      region_lt := d.region_lt
      min_eq := d.min_eq
      current_lt := d.current_lt
      current_le := d.current_le
      gs_ge := le_refl _
      gs_lt := by have := d.idx_lt; omega
      gs_valid := d.valid
      gs_hit := d.hit
      gs_first := fun g h1 h2 => absurd h2 (by omega)
      gs_hint := fun _ => rfl
      next_gt := d.next_gt
      next_le := d.next_le
      next_wit := d.next_wit
      next_lb := d.next_lb
      ret := by
        intro g
        rw [h.ret g]
        unfold Returned
        by_cases hreg : regionOf ms g = ms.regionIdx
        · rw [if_pos ⟨hne, hreg⟩, if_pos hreg]
        · rw [if_neg (fun hh => hreg hh.2), if_neg hreg] }

/-- Entry of the search after region selection: the first slot of the chosen region
that holds `current` is the slot to return. -/
theorem armed_of_select {ms : MinSortState} {ps : List Nat} (h : Inv ms ps)
    (h0 : ms.nextIdx = 0) (m : MinSortState) (c ri : Nat)
    (hm : m = { ms with current := c, regionIdx := ri, next := INT_MAX })
    (hri : ri < ms.numRegions) (hc : c = ms.min.getD ri 0) (hlt : c < INT_MAX)
    (hall : ∀ r, r < ms.numRegions → c ≤ ms.min.getD r 0) :
    ∃ gs, Armed m ps gs := by
  classical
  obtain ⟨w, w1, w2, w3⟩ := h.min_wit ri hri (by rw [← hc]; exact hlt)
  have hwr := (regionOf_eq_iff ms w ri h.W_pos).1 w2
  have hex : ∃ g, regionStart ms ri ≤ g ∧ g < ms.num_records ∧ ukey ms g = c :=
    ⟨w, hwr.1, w1, by rw [hc]; exact w3⟩
  have hfs := Nat.find_spec hex
  have hfm : ∀ g, g < Nat.find hex → ¬(regionStart ms ri ≤ g ∧ g < ms.num_records ∧
      ukey ms g = c) := fun g hg => Nat.find_min hex hg
  have hfle : Nat.find hex ≤ w := Nat.find_min' hex ⟨hwr.1, w1, by rw [hc]; exact w3⟩
  refine ⟨Nat.find hex, ?_⟩
  subst hm
  exact
    { R_pos := h.R_pos
      B_pos := h.B_pos
      G_le := h.G_le
      cover := h.cover
      file_len := h.file_len
      coherent := h.coherent
      min_len := h.min_len
      min_le := h.min_le
      min_wit := h.min_wit
      nodup := h.nodup
      below := h.below
      region_lt := hri
      min_eq := hc.symm
      current_lt := hlt
      current_le := hall
      gs_ge := by
        show regionStart ms ri + ms.nextIdx ≤ _
        rw [h0]; exact hfs.1
      gs_lt := by
        show _ < regionStart ms ri + ms.blocks_per_region * ms.records_per_block
        omega
      gs_valid := hfs.2.1
      gs_hit := hfs.2.2
      gs_first := by
        intro g a1 a2 a3
        have a1 : regionStart ms ri + ms.nextIdx ≤ g := a1
        rw [h0] at a1
        exact hfm g a2 ⟨a1, by have := hfs.2.1; omega, a3⟩
      gs_hint := fun hne => absurd h0 hne
      next_gt := hlt
      next_le := le_refl _
      next_wit := fun hh => absurd hh (lt_irrefl _)
      next_lb := by
        intro g a1 a2
        have a2 : g < regionStart ms ri + ms.nextIdx := a2
        have a1 : regionStart ms ri ≤ g := a1
        omega
      ret := by
        intro g
        rw [h.ret g]
        unfold Returned
        rw [if_neg (fun hh => hh.1 h0)]
        show _ ↔ g < ms.num_records ∧
          (if regionOf ms g = ri then ukey ms g < c ∨ (ukey ms g = c ∧ g < Nat.find hex)
           else ukey ms g < ms.min.getD (regionOf ms g) 0)
        by_cases hreg : regionOf ms g = ri
        · rw [if_pos hreg, hreg, ← hc]
          have hint := (regionOf_eq_iff ms g ri h.W_pos).1 hreg
          constructor
          · rintro ⟨a1, a2⟩; exact ⟨a1, Or.inl a2⟩
          · rintro ⟨a1, a2 | ⟨a2, a3⟩⟩
            · exact ⟨a1, a2⟩
            · exact absurd ⟨hint.1, a1, a2⟩ (hfm g a3)
        · rw [if_neg hreg] }

theorem returnedSlot_eq (ms : MinSortState) (es : external_sort_t) (tb : test_record_t)
    (metric : metrics_t) (m : MinSortState) (mt : metrics_t)
    (hp : (if ms.nextIdx = 0 then selectRegion ms metric else (ms, metric)) = (m, mt)) :
    returnedSlot ms es tb metric =
      (m.regionIdx * m.blocks_per_region
          + (searchRegion es (m.regionIdx * m.blocks_per_region) m.nextIdx tb
            (m.blocks_per_region - m.nextIdx / m.records_per_block)
            (m.nextIdx / m.records_per_block) 0 m mt).k) * m.records_per_block
        + ((searchRegion es (m.regionIdx * m.blocks_per_region) m.nextIdx tb
            (m.blocks_per_region - m.nextIdx / m.records_per_block)
            (m.nextIdx / m.records_per_block) 0 m mt).i - 1) := by
  unfold returnedSlot
  rw [hp]

/-- One call of next_MinSort from a state that satisfies the invariant: either every
region minimum is the sentinel and the call returns NULL, or it returns the record of
a valid slot `gs` not returned before, whose key is below the sentinel and at least
every key returned before, and the invariant holds again with `gs` added. -/
theorem next_MinSort_step {ms : MinSortState} {ps : List Nat} (h : Inv ms ps)
    (es : external_sort_t) (tb : test_record_t) (metric : metrics_t) :
    (ms.nextIdx = 0 ∧ (∀ r, r < ms.numRegions → ms.min.getD r 0 = INT_MAX) ∧
      ∃ ms1 mt1, next_MinSort ms es tb metric = (ms1, mt1, none) ∧ SameInput ms ms1 ∧
        Inv ms1 ps ∧ ms1.min = ms.min ∧ ms1.nextIdx = 0 ∧ ms1.buffer = ms.buffer) ∨
    (∃ gs ms1 mt1, next_MinSort ms es tb metric = (ms1, mt1, some (recAt ms gs)) ∧
      returnedSlot ms es tb metric = gs ∧ gs < ms.num_records ∧ gs ∉ ps ∧
      ukey ms gs < INT_MAX ∧ (∀ g, g ∈ ps → ukey ms g ≤ ukey ms gs) ∧
      SameInput ms ms1 ∧ Inv ms1 (ps ++ [gs])) := by
  rw [next_MinSort_eq]
  by_cases h0 : ms.nextIdx = 0
  · obtain ⟨c, ri, mt, hsel, hcase⟩ := selectRegion_spec ms metric
    have hp : (if ms.nextIdx = 0 then selectRegion ms metric else (ms, metric))
        = ({ ms with current := c, regionIdx := ri, next := INT_MAX }, mt) := by
      rw [if_pos h0, hsel]
    rw [returnedSlot_eq ms es tb metric _ _ hp, hp]
    rcases hcase with ⟨a1, a2, a3⟩ | ⟨a1, a2, a3, a4, a5⟩
    · left
      refine ⟨h0, fun r hr => le_antisymm (h.min_le r hr) (a3 r hr), ?_⟩
      rw [if_pos ⟨h0, a1⟩]
      exact ⟨_, _, rfl, ⟨rfl, rfl, rfl, rfl, rfl, rfl⟩,
        h.idle _ ⟨rfl, rfl, rfl, rfl, rfl, rfl⟩ rfl rfl rfl h0 h0, rfl, h0, rfl⟩
    · right
      have hne : ri ≠ INT_MAX := by have := h.G_le; omega
      rw [if_neg (fun hh => hne hh.2)]
      obtain ⟨gs, harm⟩ := armed_of_select h h0 _ c ri rfl a1 a2 a3 a4
      obtain ⟨ms1, mt1, b1, b2, b3, b4⟩ := drainStep_spec harm es tb mt
      refine ⟨gs, ms1, mt1, b1, b4, harm.gs_valid, harm.gs_not_mem, ?_, ?_, ?_, b3⟩
      · have := harm.gs_hit
        have e : ukey ms gs = c := this
        rw [e]; exact a3
      · intro g hg
        have e : ukey ms gs = c := harm.gs_hit
        rw [e, a2]
        exact h.below g hg ri a1
      · exact ⟨b2.1, b2.2, b2.3, b2.4, b2.5, b2.6⟩
  · right
    have hp : (if ms.nextIdx = 0 then selectRegion ms metric else (ms, metric))
        = (ms, metric) := by rw [if_neg h0]
    rw [returnedSlot_eq ms es tb metric _ _ hp, hp]
    rw [if_neg (fun hh => h0 hh.1)]
    have harm := armed_of_draining h h0
    obtain ⟨ms1, mt1, b1, b2, b3, b4⟩ := drainStep_spec harm es tb metric
    have d := h.mid h0
    refine ⟨_, ms1, mt1, b1, b4, harm.gs_valid, harm.gs_not_mem, ?_, ?_, b2, b3⟩
    · rw [harm.gs_hit]; exact d.current_lt
    · intro g hg
      rw [harm.gs_hit, ← d.min_eq]
      exact h.below g hg _ d.region_lt

theorem log2Floor_eq : ∀ (f n : Nat), n < 2 ^ f → log2Floor f n = Nat.log2 n := by
  intro f
  induction f with
  | zero =>
    intro n hn
    have : n = 0 := by simpa using hn
    subst this
    rw [log2Floor, Nat.log2_zero]
  | succ f ih =>
    intro n hn
    rw [log2Floor, Nat.log2]
    by_cases h : n < 2
    · rw [if_pos h, if_neg (by omega)]
    · rw [if_neg h, if_pos (by omega), ih (n / 2)]
      rw [Nat.div_lt_iff_lt_mul (by norm_num), ← Nat.pow_succ]
      exact hn

theorem toFloat_small (n : Nat) (h : n < 16777216) : toFloat n = n := by
  unfold toFloat; rw [if_pos h]

theorem toFloat_large (n : Nat) (h1 : 16777216 ≤ n) (h2 : n < 4294967296) :
    16777216 ≤ toFloat n ∧ toFloat n ≤ 4294967296 := by
  unfold toFloat
  rw [if_neg (by omega)]
  simp only []
  rw [log2Floor_eq 128 n (lt_trans h2 (by norm_num))]
  have hn0 : n ≠ 0 := by omega
  have hL1 : 24 ≤ Nat.log2 n := (Nat.le_log2 hn0).2 (by norm_num; exact h1)
  have hL2 : Nat.log2 n < 32 := (Nat.log2_lt hn0).2 (by norm_num; exact h2)
  obtain ⟨s, hs⟩ : ∃ s, Nat.log2 n = s + 23 := ⟨Nat.log2 n - 23, by omega⟩
  have hs1 : 1 ≤ s := by omega
  have hs2 : s ≤ 8 := by omega
  rw [hs, Nat.add_sub_cancel]
  have hlo : 2 ^ (s + 23) ≤ n := by rw [← hs]; exact Nat.log2_self_le hn0
  have hhi : n < 2 ^ (s + 24) := by
    have := @Nat.lt_log2_self n
    rw [hs] at this; exact this
  have hE : 0 < 2 ^ s := Nat.pow_pos (by norm_num)
  have hq1 : 2 ^ 23 ≤ n / 2 ^ s := by
    rw [Nat.le_div_iff_mul_le hE, ← Nat.pow_add, Nat.add_comm]; exact hlo
  have hq2 : n / 2 ^ s < 2 ^ 24 := by
    rw [Nat.div_lt_iff_lt_mul hE, ← Nat.pow_add, Nat.add_comm]; exact hhi
  have hE2 : 2 ≤ 2 ^ s := by
    calc 2 = 2 ^ 1 := by norm_num
      _ ≤ 2 ^ s := Nat.pow_le_pow_right (by norm_num) hs1
  have hE3 : 2 ^ s ≤ 256 := by
    calc 2 ^ s ≤ 2 ^ 8 := Nat.pow_le_pow_right (by norm_num) hs2
      _ = 256 := by norm_num
  norm_num at hq1 hq2
  constructor
  · split
    · calc 16777216 = 8388608 * 2 := by norm_num
        _ ≤ (n / 2 ^ s + 1) * 2 ^ s := Nat.mul_le_mul (by omega) hE2
    · calc 16777216 = 8388608 * 2 := by norm_num
        _ ≤ (n / 2 ^ s) * 2 ^ s := Nat.mul_le_mul (by omega) hE2
  · split
    · calc (n / 2 ^ s + 1) * 2 ^ s ≤ 16777216 * 256 := Nat.mul_le_mul (by omega) hE3
        _ = 4294967296 := by norm_num
    · calc (n / 2 ^ s) * 2 ^ s ≤ 16777216 * 256 := Nat.mul_le_mul (by omega) hE3
        _ = 4294967296 := by norm_num

/-- Arithmetic core of the rounded division: `m1` is the rounded 24-bit mantissa of
`x * D / y` at scale `E`, with `D = E * F`. -/
theorem ceil_core_arith (x y q st E F D m low half t m1 : Nat)
    (hx : x < 16777216) (hy1 : 1 ≤ y)
    (h1 : x * D = y * q + st) (h1' : st < y)
    (h2 : q = E * m + low) (h2' : low < E)
    (h3 : D = E * F) (hD : D = 18446744073709551616)
    (h4 : 8388608 ≤ m)
    (h5 : E = 2 * half) (h5' : 1 ≤ half)
    (ht1 : x ≤ t * y) (ht2 : t * y < x + y) (ht3 : 1 ≤ t)
    (hm1 : m1 = m ∨ m1 = m + 1)
    (hup : m1 = m + 1 → half ≤ low)
    (hdn : half < low → m1 = m + 1) :
    (m1 * E + (D - 1)) / D = t := by
  have hE : 0 < E := by omega
  have hF : 0 < F := by
    rcases Nat.eq_zero_or_pos F with h | h
    · rw [h, Nat.mul_zero] at h3; omega
    · exact h
  have hDpos : 0 < D := by omega
  -- upper bound
  have hq_le : q ≤ t * D := by
    have : y * q ≤ y * (t * D) := by
      calc y * q ≤ x * D := by omega
        _ ≤ (t * y) * D := Nat.mul_le_mul_right _ ht1
        _ = y * (t * D) := by ring
    exact Nat.le_of_mul_le_mul_left this (by omega)
  have hm_le : m ≤ t * F := by
    have : E * m ≤ E * (t * F) := by
      calc E * m ≤ q := by omega
        _ ≤ t * D := hq_le
        _ = E * (t * F) := by rw [h3]; ring
    exact Nat.le_of_mul_le_mul_left this hE
  have hupper : m1 ≤ t * F := by
    rcases hm1 with e | e
    · omega
    · have hl := hup e
      by_contra hc
      have hmt : m = t * F := by omega
      have : q = t * D + low := by rw [h2, hmt, h3]; ring
      omega
  -- lower bound
  obtain ⟨u, hu⟩ : ∃ u, t = u + 1 := ⟨t - 1, by omega⟩
  have hlower : u * F < m1 := by
    by_contra hc
    have hm1le : m1 ≤ u * F := by omega
    have hmle : m ≤ u * F := by rcases hm1 with e | e <;> omega
    have huy : u * y < x := by
      have : t * y = u * y + y := by rw [hu]; ring
      omega
    have hu1 : 1 ≤ u := by
      rcases Nat.eq_zero_or_pos u with h | h
      · rw [h] at hmle; simp at hmle; omega
      · exact h
    have hyx : y < x := by
      calc y = 1 * y := by ring
        _ ≤ u * y := Nat.mul_le_mul_right _ hu1
        _ < x := huy
    -- q is at least u * D + D / y
    have hw : u * D + D / y ≤ q := by
      have hwy : (D / y) * y ≤ D := Nat.div_mul_le_self D y
      have hx' : (u * y + 1) * D ≤ x * D := Nat.mul_le_mul_right _ (by omega)
      have e1 : (u * y + 1) * D = y * (u * D) + D := by ring
      have : y * (u * D + D / y) < y * (q + 1) := by
        calc y * (u * D + D / y) = y * (u * D) + (D / y) * y := by ring
          _ ≤ y * (u * D) + D := by omega
          _ ≤ x * D := by omega
          _ < y * q + y := by omega
          _ = y * (q + 1) := by ring
      have := Nat.lt_of_mul_lt_mul_left this
      omega
    have hmu : m = u * F := by
      have hqE : q < E * (m + 1) := by rw [h2]; ring_nf; omega
      have : E * (u * F) < E * (m + 1) := by
        calc E * (u * F) = u * D := by rw [h3]; ring
          _ ≤ q := le_trans (Nat.le_add_right _ _) hw
          _ < E * (m + 1) := hqE
      have := Nat.lt_of_mul_lt_mul_left this
      omega
    have hlow : D / y ≤ low := by
      have : q = u * D + low := by rw [h2, hmu, h3]; ring
      omega
    -- half ≤ u * 2^40
    have hhalf : half ≤ u * 1099511627776 := by
      have : E * 8388608 ≤ u * D := by
        calc E * 8388608 ≤ E * m := Nat.mul_le_mul_left _ h4
          _ = u * D := by rw [hmu, h3]; ring
      rw [hD, h5] at this
      omega
    have hwbig : u * 1099511627776 + 1 ≤ D / y := by
      rw [Nat.le_div_iff_mul_le (by omega)]
      have : u * y ≤ 16777214 := by omega
      calc (u * 1099511627776 + 1) * y = (u * y) * 1099511627776 + y := by ring
        _ ≤ 16777214 * 1099511627776 + 16777216 := by
            apply Nat.add_le_add (Nat.mul_le_mul_right _ this) (by omega)
        _ ≤ D := by rw [hD]; norm_num
    have := hdn (by omega)
    omega
  apply Nat.div_eq_of_lt_le
  · have : (u * F + 1) * E ≤ m1 * E := Nat.mul_le_mul_right _ (by omega)
    have e : (u * F + 1) * E = u * D + E := by rw [h3]; ring
    have e2 : t * D = u * D + D := by rw [hu]; ring
    omega
  · have : m1 * E ≤ (t * F) * E := Nat.mul_le_mul_right _ hupper
    have e : (t * F) * E = t * D := by rw [h3]; ring
    have e2 : (t + 1) * D = t * D + D := by ring
    omega

/-- The rounded-up quotient of the float model agrees with the exact one whenever the
dividend is exactly representable (below 2^24) and the divisor is a positive unsigned int. -/
theorem ceilFloatDiv_exact (a b : Nat) (ha1 : 1 ≤ a) (ha : a < 16777216) (hb1 : 1 ≤ b)
    (hb : b < 4294967296) : ceilFloatDiv a b = some ((a + b - 1) / b) := by
  have hy : 1 ≤ toFloat b ∧ toFloat b ≤ 4294967296 ∧
      (a + toFloat b - 1) / toFloat b = (a + b - 1) / b := by
    rcases Nat.lt_or_ge b 16777216 with h | h
    · rw [toFloat_small b h]; exact ⟨hb1, by omega, rfl⟩
    · obtain ⟨h1, h2⟩ := toFloat_large b h hb
      refine ⟨by omega, h2, ?_⟩
      rw [Nat.div_eq_of_lt_le (k := 1) (by omega) (by omega),
        Nat.div_eq_of_lt_le (k := 1) (by omega) (by omega)]
  obtain ⟨hy1, hy2, hy3⟩ := hy
  unfold ceilFloatDiv
  simp only []
  rw [toFloat_small a ha, if_neg (by omega), if_neg (by omega)]
  generalize toFloat b = y at hy1 hy2 hy3 ⊢
  rw [← hy3]
  have hD : (2 : Nat) ^ 64 = 18446744073709551616 := by norm_num
  have hq1 : 2 ^ 32 ≤ a * 2 ^ 64 / y := by
    rw [Nat.le_div_iff_mul_le (by omega)]
    calc 2 ^ 32 * y ≤ 2 ^ 32 * 2 ^ 32 := Nat.mul_le_mul_left _ (by norm_num; exact hy2)
      _ = 1 * 2 ^ 64 := by norm_num
      _ ≤ a * 2 ^ 64 := Nat.mul_le_mul_right _ ha1
  have hq2 : a * 2 ^ 64 / y < 2 ^ 88 := by
    calc a * 2 ^ 64 / y ≤ a * 2 ^ 64 := Nat.div_le_self _ _
      _ < 16777216 * 2 ^ 64 := Nat.mul_lt_mul_of_pos_right ha (by norm_num)
      _ = 2 ^ 88 := by norm_num
  generalize hq : a * 2 ^ 64 / y = q at hq1 hq2 ⊢
  have hq0 : q ≠ 0 := by
    have : 0 < 2 ^ 32 := by norm_num
    omega
  rw [log2Floor_eq 128 q (lt_trans hq2 (by norm_num))]
  have hL1 : 32 ≤ Nat.log2 q := (Nat.le_log2 hq0).2 hq1
  have hL2 : Nat.log2 q < 88 := (Nat.log2_lt hq0).2 hq2
  obtain ⟨s, hs⟩ : ∃ s, Nat.log2 q = s + 23 := ⟨Nat.log2 q - 23, by omega⟩
  have hs1 : 1 ≤ s := by omega
  have hs2 : s ≤ 64 := by omega
  rw [hs, Nat.add_sub_cancel]
  have hlo : 2 ^ (s + 23) ≤ q := by rw [← hs]; exact Nat.log2_self_le hq0
  have hhi : q < 2 ^ (s + 24) := by
    have := @Nat.lt_log2_self q
    rw [hs] at this; exact this
  have hE : 0 < 2 ^ s := Nat.pow_pos (by norm_num)
  have hm1 : 8388608 ≤ q / 2 ^ s := by
    rw [Nat.le_div_iff_mul_le hE]
    calc 8388608 * 2 ^ s = 2 ^ (s + 23) := by rw [Nat.pow_add]; norm_num; ring
      _ ≤ q := hlo
  have hEh : 2 ^ s = 2 * 2 ^ (s - 1) := by
    obtain ⟨s', hs'⟩ : ∃ s', s = s' + 1 := ⟨s - 1, by omega⟩
    rw [hs', Nat.add_sub_cancel, Nat.pow_succ]; ring
  have hDEF : (2 : Nat) ^ 64 = 2 ^ s * 2 ^ (64 - s) := by
    rw [← Nat.pow_add]; congr 1; omega
  have hdm := Nat.div_add_mod (a * 2 ^ 64) y
  rw [hq] at hdm
  have hdm2 := Nat.div_add_mod q (2 ^ s)
  have hmod := Nat.mod_lt (a * 2 ^ 64) (show 0 < y by omega)
  have hmod2 := Nat.mod_lt q hE
  have htm := Nat.div_add_mod (a + y - 1) y
  have htl := Nat.mod_lt (a + y - 1) (show 0 < y by omega)
  have ht1 : a ≤ (a + y - 1) / y * y := by rw [Nat.mul_comm]; omega
  have ht2 : (a + y - 1) / y * y < a + y := by rw [Nat.mul_comm]; omega
  have ht3 : 1 ≤ (a + y - 1) / y := by
    rw [Nat.le_div_iff_mul_le (by omega)]; omega
  have ht4 : (a + y - 1) / y ≤ a := by
    have : (a + y - 1) / y * 1 ≤ (a + y - 1) / y * y := Nat.mul_le_mul_left _ hy1
    have : (a + y - 1) / y * y ≤ a + y - 1 := Nat.div_mul_le_self _ _
    by_contra hc
    have h3 : (a + 1) * y ≤ (a + y - 1) / y * y := Nat.mul_le_mul_right _ (by omega)
    have h4 : (a + 1) * y = a * y + y := by ring
    have h5 : a * 1 ≤ a * y := Nat.mul_le_mul_left _ hy1
    omega
  have key := ceil_core_arith a y q (a * 2 ^ 64 % y) (2 ^ s) (2 ^ (64 - s)) (2 ^ 64)
    (q / 2 ^ s) (q % 2 ^ s) (2 ^ (s - 1)) ((a + y - 1) / y)
    (if 2 ^ (s - 1) < q % 2 ^ s ∨
        q % 2 ^ s = 2 ^ (s - 1) ∧ (a * 2 ^ 64 % y ≠ 0 ∨ q / 2 ^ s % 2 = 1)
      then q / 2 ^ s + 1 else q / 2 ^ s)
    ha hy1 (by omega) hmod (by omega) hmod2 hDEF hD hm1 hEh (Nat.pow_pos (by norm_num))
    ht1 ht2 ht3
    (by split <;> simp)
    (by
      intro h
      split at h
      · rename_i hc
        rcases hc with hc | hc
        · omega
        · omega
      · omega)
    (by
      intro h
      rw [if_pos (Or.inl h)])
  rw [key, if_pos (by omega)]

theorem regionOf_slot (ms : MinSortState) (i t : Nat) (ht : t < ms.records_per_block) :
    regionOf ms (i * ms.records_per_block + t) = i / ms.blocks_per_region := by
  unfold regionOf
  rw [Nat.mul_comm ms.blocks_per_region, ← Nat.div_div_eq_div_mul]
  congr 1
  rw [Nat.mul_comm, Nat.mul_add_div (by omega), Nat.div_eq_of_lt ht, Nat.add_zero]

theorem initSlots_spec (es : external_sort_t) (i rI : Nat) :
    ∀ (n j : Nat) (ms : MinSortState) (metric : metrics_t) (q : MinSortState × metrics_t),
      initSlots es i rI n j ms metric = q →
      j + n = ms.records_per_block → Holds ms i → rI < ms.min.length →
      SameInput ms q.1 ∧ q.1.buffer = ms.buffer ∧ q.1.lastBlockIdx = ms.lastBlockIdx ∧
      q.1.min.length = ms.min.length ∧
      (∀ r, q.1.min.getD r 0 ≤ ms.min.getD r 0) ∧
      (∀ r, r ≠ rI → q.1.min.getD r 0 = ms.min.getD r 0) ∧
      (∀ t, j ≤ t → t < ms.records_per_block → i * ms.records_per_block + t < ms.num_records →
        q.1.min.getD rI 0 ≤ ukey ms (i * ms.records_per_block + t)) ∧
      (q.1.min.getD rI 0 = ms.min.getD rI 0 ∨
        ∃ t, j ≤ t ∧ t < ms.records_per_block ∧
          i * ms.records_per_block + t < ms.num_records ∧
          ukey ms (i * ms.records_per_block + t) = q.1.min.getD rI 0) := by
  intro n
  induction n with
  | zero =>
    intro j ms metric q hq hn hb hr
    simp only [initSlots] at hq
    subst hq
    exact ⟨SameInput.same_self _, rfl, rfl, rfl, fun _ => le_refl _, fun _ _ => rfl,
      fun t h1 h2 => absurd h2 (by omega), Or.inl rfl⟩
  | succ n ih =>
    intro j ms metric q hq hn hb hr
    have hj : j < ms.records_per_block := by omega
    rw [initSlots] at hq
    split at hq
    · rename_i hval
      have hk := hb.getValue es hj hval
      simp only [hk] at hq
      obtain ⟨m1, hm1⟩ : ∃ m1 : MinSortState,
          (if ukey ms (i * ms.records_per_block + j) < ms.min.getD rI 0 then
            { ms with min := ms.min.set rI (ukey ms (i * ms.records_per_block + j)) }
           else ms) = m1 := ⟨_, rfl⟩
      rw [hm1] at hq
      have hs1 : SameInput ms m1 := by
        rw [← hm1]; split <;> exact ⟨rfl, rfl, rfl, rfl, rfl, rfl⟩
      have hb1 : m1.buffer = ms.buffer := by rw [← hm1]; split <;> rfl
      have hl1 : m1.lastBlockIdx = ms.lastBlockIdx := by rw [← hm1]; split <;> rfl
      have hlen1 : m1.min.length = ms.min.length := by
        rw [← hm1]; split
        · exact List.length_set _ _ _
        · rfl
      have hmin1 : m1.min.getD rI 0 ≤ ukey ms (i * ms.records_per_block + j) ∧
          m1.min.getD rI 0 ≤ ms.min.getD rI 0 ∧
          (m1.min.getD rI 0 = ms.min.getD rI 0 ∨
            m1.min.getD rI 0 = ukey ms (i * ms.records_per_block + j)) := by
        rw [← hm1]; split
        · rename_i hlt
          show (ms.min.set rI _).getD rI 0 ≤ _ ∧ (ms.min.set rI _).getD rI 0 ≤ _ ∧
            ((ms.min.set rI _).getD rI 0 = _ ∨ (ms.min.set rI _).getD rI 0 = _)
          rw [getD_set_eq _ _ _ hr]
          exact ⟨le_refl _, le_of_lt hlt, Or.inr rfl⟩
        · rename_i hge
          exact ⟨by omega, le_refl _, Or.inl rfl⟩
      have hoth1 : ∀ r, r ≠ rI → m1.min.getD r 0 = ms.min.getD r 0 := by
        intro r hne
        rw [← hm1]; split
        · exact getD_set_ne _ _ _ _ (fun h => hne h.symm)
        · rfl
      have hh1 : Holds m1 i := by
        intro t ht hv
        rw [hs1.records_per_block] at ht hv
        rw [hs1.num_records] at hv
        rw [hb1, hs1.recAt_same, hs1.records_per_block]
        exact hb t ht hv
      obtain ⟨a1, a2, a3, a4, a5, a6, a7, a8⟩ := ih (j + 1) m1 _ q hq
        (by rw [hs1.records_per_block]; omega) hh1 (by rw [hlen1]; exact hr)
      rw [hs1.records_per_block] at a7 a8
      rw [hs1.num_records] at a7 a8
      simp only [hs1.ukey_same] at a7 a8
      refine ⟨hs1.same_seq a1, a2.trans hb1, a3.trans hl1, a4.trans hlen1, ?_, ?_, ?_, ?_⟩
      · intro r
        by_cases hrr : r = rI
        · subst hrr; exact le_trans (a5 r) hmin1.2.1
        · exact le_trans (a5 r) (le_of_eq (hoth1 r hrr))
      · intro r hne; rw [a6 r hne, hoth1 r hne]
      · intro t h1 h2 h3
        rcases Nat.eq_or_lt_of_le h1 with e | e
        · subst e; exact le_trans (a5 rI) hmin1.1
        · exact a7 t (by omega) h2 h3
      · rcases a8 with e | ⟨t, b1, b2, b3, b4⟩
        · rcases hmin1.2.2 with e' | e'
          · exact Or.inl (e.trans e')
          · exact Or.inr ⟨j, le_refl _, hj, hval, by rw [e, e']⟩
        · exact Or.inr ⟨t, by omega, b2, b3, b4⟩
    · rename_i hinv
      subst hq
      exact ⟨SameInput.same_self _, rfl, rfl, rfl, fun _ => le_refl _, fun _ _ => rfl,
        fun t h1 h2 h3 => absurd h3 (by omega), Or.inl rfl⟩

theorem initPage_spec (es : external_sort_t) (m0 : MinSortState) (n : Nat)
    (p : MinSortState × metrics_t) (h : Filled m0 n p.1)
    (hn : n < m0.numRegions * m0.blocks_per_region)
    (hfile : m0.num_records ≤ m0.iteratorState.file.length * m0.records_per_block) :
    Filled m0 (n + 1) (initPage es p n).1 := by
  have hs := h.same
  unfold initPage
  simp only []
  obtain ⟨rf, rl, rh, _, _⟩ := readPage_spec p.1 n es p.2
    (by rw [hs.num_records, hs.iteratorState, hs.records_per_block]; exact hfile)
  generalize readPage p.1 n es p.2 = r at rf rl rh ⊢
  have hs2 : SameInput m0 r.1 := hs.same_seq rf.sameInput
  have hrI : n / r.1.blocks_per_region < r.1.min.length := by
    rw [rf.min, h.min_len, hs2.blocks_per_region]
    exact Nat.div_lt_of_lt_mul (by rw [Nat.mul_comm]; exact hn)
  generalize hq : initSlots es n (n / r.1.blocks_per_region) r.1.records_per_block 0 r.1 r.2 = q
  obtain ⟨a1, a2, a3, a4, a5, a6, a7, a8⟩ := initSlots_spec es n _ _ _ _ _ q hq
    (by omega) rh hrI
  have hs3 : SameInput m0 q.1 := hs2.same_seq a1
  rw [hs2.records_per_block, hs2.num_records] at a7 a8
  simp only [hs2.ukey_same] at a7 a8
  simp only [hs2.blocks_per_region] at a6 a7 a8
  simp only [rf.min] at a5 a6 a8
  have hreg : ∀ t, t < m0.records_per_block →
      regionOf m0 (n * m0.records_per_block + t) = n / m0.blocks_per_region :=
    fun t ht => regionOf_slot m0 n t ht
  refine ⟨hs3, by rw [a4, rf.min]; exact h.min_len, ?_, ?_, ?_⟩
  · intro r hr
    exact le_trans (a5 r) (h.min_le r hr)
  · intro g hg hgN
    rcases Nat.lt_or_ge g (n * m0.records_per_block) with c | c
    · exact le_trans (a5 _) (h.lower g c hgN)
    · obtain ⟨t, ht⟩ : ∃ t, g = n * m0.records_per_block + t := ⟨g - n * m0.records_per_block,
        by omega⟩
      have htR : t < m0.records_per_block := by
        rw [Nat.succ_mul] at hg; omega
      subst ht
      rw [hreg t htR]
      exact a7 t (Nat.zero_le _) htR hgN
  · intro r hr hlt
    by_cases hrr : r = n / m0.blocks_per_region
    · subst hrr
      rcases a8 with e | ⟨t, b1, b2, b3, b4⟩
      · rw [e] at hlt ⊢
        obtain ⟨g, c1, c2, c3, c4⟩ := h.wit _ hr hlt
        exact ⟨g, by rw [Nat.succ_mul]; omega, c2, c3, c4⟩
      · exact ⟨_, by rw [Nat.succ_mul]; omega, b3, hreg t b2, b4⟩
    · rw [a6 r hrr] at hlt ⊢
      obtain ⟨g, c1, c2, c3, c4⟩ := h.wit _ hr hlt
      exact ⟨g, by rw [Nat.succ_mul]; omega, c2, c3, c4⟩

theorem initLoop_spec (es : external_sort_t) (m0 : MinSortState) (metric : metrics_t)
    (hmin : m0.min = List.replicate m0.numRegions INT_MAX)
    (hfile : m0.num_records ≤ m0.iteratorState.file.length * m0.records_per_block) :
    ∀ n, n ≤ m0.numRegions * m0.blocks_per_region →
      Filled m0 n ((List.range n).foldl (initPage es) (m0, metric)).1 := by
  intro n
  induction n with
  | zero =>
    intro _
    simp only [List.range_zero, List.foldl_nil]
    refine ⟨SameInput.same_self _, by rw [hmin, List.length_replicate], ?_, ?_, ?_⟩
    · intro r hr
      show m0.min.getD r 0 ≤ _
      rw [hmin, List.getD_eq_getElem?_getD, List.getElem?_replicate, if_pos hr]
      exact le_refl _
    · intro g hg; simp at hg
    · intro r hr hlt
      have : m0.min.getD r 0 = INT_MAX := by
        rw [hmin, List.getD_eq_getElem?_getD, List.getElem?_replicate, if_pos hr]; rfl
      have hlt : m0.min.getD r 0 < INT_MAX := hlt
      omega
  | succ n ih =>
    intro hn
    rw [List.range_succ, List.foldl_append]
    exact initPage_spec es m0 n _ (ih (by omega)) (by omega) hfile

theorem ceilDiv_pos {a b : Nat} (ha : 1 ≤ a) (hb : 1 ≤ b) : 1 ≤ ceilDiv a b := by
  unfold ceilDiv
  rw [Nat.le_div_iff_mul_le (by omega)]; omega

theorem ceilDiv_le {a b : Nat} (hb : 1 ≤ b) : ceilDiv a b ≤ a := by
  unfold ceilDiv
  rcases Nat.eq_zero_or_pos a with h | h
  · subst h
    rw [Nat.zero_add]
    exact Nat.le_of_eq (Nat.div_eq_of_lt (by omega))
  · apply Nat.div_le_of_le_mul
    obtain ⟨a1, rfl⟩ : ∃ a1, a = a1 + 1 := ⟨a - 1, by omega⟩
    obtain ⟨b1, rfl⟩ : ∃ b1, b = b1 + 1 := ⟨b - 1, by omega⟩
    have : (b1 + 1) * (a1 + 1) = b1 * a1 + b1 + a1 + 1 := by ring
    omega

theorem le_ceilDiv_mul {a b : Nat} (hb : 1 ≤ b) : a ≤ ceilDiv a b * b := by
  unfold ceilDiv
  have := Nat.lt_div_mul_add (a := a + b - 1) (b := b) (by omega)
  omega

theorem init_MinSort_spec {is : file_iterator_state_t} {M : Nat} {es : external_sort_t}
    (hv : ValidInput is M es) (buffer : List test_record_t) (metric : metrics_t) :
    ∃ m mt, init_MinSort (initialState is buffer M) es metric = some (m, mt) ∧
      Inv m [] ∧ m.iteratorState = is ∧ m.records_per_block = recordsPerPage es ∧
      m.num_records = is.totalRecords ∧ m.numBlocks = es.num_pages ∧
      m.blocks_per_region = ceilDiv es.num_pages (M / SORT_KEY_SIZE) ∧
      m.numRegions = ceilDiv es.num_pages (ceilDiv es.num_pages (M / SORT_KEY_SIZE)) ∧
      m.nextIdx = 0 := by
  have hj1 : 1 ≤ M / SORT_KEY_SIZE := by
    have := hv.M_ge
    unfold SORT_KEY_SIZE at this ⊢
    omega
  have hj2 : M / SORT_KEY_SIZE < 4294967296 := by
    have := hv.M_lt
    unfold SORT_KEY_SIZE
    omega
  have hB1 := ceilDiv_pos hv.P_pos hj1
  have hB2 : ceilDiv es.num_pages (M / SORT_KEY_SIZE) ≤ es.num_pages := ceilDiv_le hj1
  have hG1 := ceilDiv_pos hv.P_pos hB1
  have hG2 : ceilDiv es.num_pages (ceilDiv es.num_pages (M / SORT_KEY_SIZE)) ≤ es.num_pages :=
    ceilDiv_le hB1
  have hGB := le_ceilDiv_mul (a := es.num_pages) hB1
  have hcB : ceilFloatDiv es.num_pages (M / SORT_KEY_SIZE)
      = some (ceilDiv es.num_pages (M / SORT_KEY_SIZE)) :=
    ceilFloatDiv_exact _ _ hv.P_pos hv.P_lt hj1 hj2
  have hcG : ceilFloatDiv es.num_pages (ceilDiv es.num_pages (M / SORT_KEY_SIZE))
      = some (ceilDiv es.num_pages (ceilDiv es.num_pages (M / SORT_KEY_SIZE))) :=
    ceilFloatDiv_exact _ _ hv.P_pos hv.P_lt hB1 (by have := hv.P_lt; omega)
  generalize hBdef : ceilDiv es.num_pages (M / SORT_KEY_SIZE) = B at *
  generalize hGdef : ceilDiv es.num_pages B = G at *
  simp only [init_MinSort, initialState, hcB, hcG]
  obtain ⟨m0, hm0⟩ : ∃ m0 : MinSortState, m0 =
      { buffer := buffer, min := List.replicate G INT_MAX, current := 0, next := 0,
        nextIdx := 0, record_size := es.record_size, num_records := is.totalRecords,
        numBlocks := es.num_pages,
        records_per_block := (es.page_size - es.headerSize) / es.record_size,
        blocks_per_region := B, memoryAvailable := M, numRegions := G, regionIdx := 0,
        lastBlockIdx := 0, iteratorState := is, blocksRead := 0, tuplesRead := 0,
        tuplesOut := 0, bytesRead := 0 } := ⟨_, rfl⟩
  rw [← hm0]
  have e1 : m0.min = List.replicate m0.numRegions INT_MAX := by rw [hm0]
  have e2 : m0.records_per_block = recordsPerPage es := by rw [hm0]; rfl
  have e3 : m0.num_records = is.totalRecords := by rw [hm0]
  have e4 : m0.iteratorState = is := by rw [hm0]
  have e5 : m0.blocks_per_region = B := by rw [hm0]
  have e6 : m0.numRegions = G := by rw [hm0]
  have e7 : m0.numBlocks = es.num_pages := by rw [hm0]
  have hPR : es.num_pages * recordsPerPage es ≤ G * B * recordsPerPage es :=
    Nat.mul_le_mul_right _ hGB
  have hfile : m0.num_records ≤ m0.iteratorState.file.length * m0.records_per_block := by
    rw [e3, e4, e2, hv.pages]; exact hv.N_le
  have hfill := initLoop_spec es m0 ⟨0, 0, 0, 0⟩ e1 hfile es.num_pages (by rw [e6, e5]; exact hGB)
  generalize (List.range es.num_pages).foldl (initPage es) (m0, ⟨0, 0, 0, 0⟩) = r at hfill ⊢
  have hs := hfill.same
  refine ⟨_, _, rfl, ?_, by rw [← e4]; exact hs.iteratorState,
    by rw [← e2]; exact hs.records_per_block, by rw [← e3]; exact hs.num_records,
    by rw [← e7]; exact hs.numBlocks, by rw [← e5]; exact hs.blocks_per_region,
    by rw [← e6]; exact hs.numRegions, rfl⟩
  obtain ⟨m, hm⟩ : ∃ m : MinSortState, m =
      { r.1 with current := INT_MAX, next := INT_MAX, nextIdx := 0, lastBlockIdx := INT_MAX } :=
    ⟨_, rfl⟩
  rw [← hm]
  have s1 : SameInput m0 m := by
    rw [hm]; exact ⟨hs.1, hs.2, hs.3, hs.4, hs.5, hs.6⟩
  have s2 : m.min = r.1.min := by rw [hm]
  have s3 : m.nextIdx = 0 := by rw [hm]
  have s4 : m.lastBlockIdx = INT_MAX := by rw [hm]
  have hR := s1.records_per_block
  have hBq := s1.blocks_per_region
  have hGq := s1.numRegions
  have hN := s1.num_records
  have hNle : m0.num_records ≤ es.num_pages * m0.records_per_block := by
    rw [e3, e2]; exact hv.N_le
  refine
    { R_pos := by rw [hR, e2]; exact hv.R_pos
      B_pos := by rw [hBq, e5]; exact hB1
      G_le := by rw [hGq, e6]; have := hv.P_lt; unfold INT_MAX; omega
      cover := by rw [hN, hGq, hBq, hR, e5, e6, e3, e2]; exact le_trans hv.N_le hPR
      file_len := by rw [hN, s1.iteratorState, hR]; exact hfile
      coherent := ?_
      min_len := by rw [s2, hGq]; exact hfill.min_len
      min_le := by rw [s2, hGq]; exact hfill.min_le
      min_wit := ?_
      ret := ?_
      nodup := List.nodup_nil
      below := fun g hg => absurd hg (List.not_mem_nil g)
      mid := fun hne => absurd s3 hne }
  · intro t ht hvd
    rw [s4, hR, hN] at hvd
    have : es.num_pages * m0.records_per_block ≤ INT_MAX * m0.records_per_block :=
      Nat.mul_le_mul_right _ (by have := hv.P_lt; unfold INT_MAX; omega)
    omega
  · intro r' hr' hlt
    rw [hGq] at hr'
    rw [s2] at hlt ⊢
    obtain ⟨g, _, c2, c3, c4⟩ := hfill.wit r' hr' hlt
    exact ⟨g, by rw [hN]; exact c2, by rw [s1.regionOf_same]; exact c3, by rw [s1.ukey_same]; exact c4⟩
  · intro g
    constructor
    · intro hg; exact absurd hg (List.not_mem_nil g)
    · rintro ⟨hg, hret⟩
      exfalso
      unfold Returned at hret
      rw [if_neg (fun hh => hh.1 s3), s1.ukey_same, s1.regionOf_same, s2] at hret
      rw [hN] at hg
      have := hfill.lower g (by omega) hg
      omega

theorem Inv.returned_lt {ms : MinSortState} {ps : List Nat} (h : Inv ms ps) {g : Nat}
    (hg : g < ms.num_records) (hr : Returned ms g) : ukey ms g < INT_MAX := by
  unfold Returned at hr
  split at hr
  · rename_i hc
    have d := h.mid hc.1
    have := d.current_lt
    rcases hr with a | ⟨a, _⟩ <;> omega
  · have := h.min_le _ (h.region_lt hg)
    omega

theorem Inv.subset_eligible {ms : MinSortState} {ps : List Nat} (h : Inv ms ps) :
    ps ⊆ eligibleSlots ms := by
  intro g hg
  obtain ⟨a, b⟩ := (h.ret g).1 hg
  unfold eligibleSlots
  rw [List.mem_filter, List.mem_range]
  exact ⟨a, by simpa using h.returned_lt a b⟩

theorem eligibleSlots_nodup (ms : MinSortState) : (eligibleSlots ms).Nodup :=
  List.Nodup.filter _ (List.nodup_range _)

theorem Inv.length_le {ms : MinSortState} {ps : List Nat} (h : Inv ms ps) :
    ps.length ≤ (eligibleSlots ms).length :=
  (h.nodup.subperm h.subset_eligible).length_le

/-- When every region minimum is the sentinel, everything eligible has been returned. -/
theorem Inv.perm_of_done {ms : MinSortState} {ps : List Nat} (h : Inv ms ps)
    (h0 : ms.nextIdx = 0) (hall : ∀ r, r < ms.numRegions → ms.min.getD r 0 = INT_MAX) :
    ps.Perm (eligibleSlots ms) := by
  rw [List.perm_ext_iff_of_nodup h.nodup (eligibleSlots_nodup ms)]
  intro g
  rw [h.ret g]
  unfold eligibleSlots
  rw [List.mem_filter, List.mem_range]
  constructor
  · rintro ⟨a, b⟩
    exact ⟨a, by simpa using h.returned_lt a b⟩
  · rintro ⟨a, b⟩
    refine ⟨a, ?_⟩
    unfold Returned
    rw [if_neg (fun hh => hh.1 h0), hall _ (h.region_lt a)]
    simpa using b

theorem SameInput.eligibleSlots_same {a b : MinSortState} (h : SameInput a b) :
    eligibleSlots b = eligibleSlots a := by
  unfold FlashMinSort.eligibleSlots
  rw [h.num_records]
  congr 1
  funext g
  rw [h.ukey_same]

theorem callNext_cases {c : Caller} {ps : List Nat} (h : Inv c.ms ps) (es : external_sort_t) :
    (∃ c1, callNext es c = (c1, none) ∧ SameInput c.ms c1.ms ∧ Inv c1.ms ps ∧
      ps.Perm (eligibleSlots c.ms)) ∨
    (∃ c1 gs, callNext es c = (c1, some (recAt c.ms gs)) ∧
      returnedSlot c.ms es c.tupleBuffer c.metric = gs ∧ gs < c.ms.num_records ∧ gs ∉ ps ∧
      ukey c.ms gs < INT_MAX ∧ (∀ g, g ∈ ps → ukey c.ms g ≤ ukey c.ms gs) ∧
      SameInput c.ms c1.ms ∧ Inv c1.ms (ps ++ [gs])) := by
  rcases next_MinSort_step h es c.tupleBuffer c.metric with
    ⟨a1, a2, ms1, mt1, a3, a4, a5, _, _, _⟩ | ⟨gs, ms1, mt1, b1, b2, b3, b4, b5, b6, b7, b8⟩
  · left
    refine ⟨⟨ms1, mt1, c.tupleBuffer⟩, ?_, a4, a5, h.perm_of_done a1 a2⟩
    unfold callNext
    rw [a3]
  · right
    refine ⟨⟨ms1, mt1, recAt c.ms gs⟩, gs, ?_, b2, b3, b4, b5, b6, b7, b8⟩
    unfold callNext
    rw [b1]

/-- All calls: the invariant is kept, the returned slots have non-decreasing keys, and
the returned records are the records in the returned slots. -/
theorem trace_inv (es : external_sort_t) :
    ∀ (n : Nat) (c : Caller) (ps : List Nat), Inv c.ms ps →
      ps.Pairwise (fun a b => ukey c.ms a ≤ ukey c.ms b) →
      SameInput c.ms (stateAfter es n c).ms ∧
      Inv (stateAfter es n c).ms (ps ++ returnedSlots es n c) ∧
      (ps ++ returnedSlots es n c).Pairwise (fun a b => ukey c.ms a ≤ ukey c.ms b) ∧
      (nextResults es n c).reduceOption = (returnedSlots es n c).map (recAt c.ms) := by
  intro n
  induction n with
  | zero =>
    intro c ps h hp
    simp only [stateAfter, returnedSlots, nextResults, List.append_nil]
    exact ⟨SameInput.same_self _, h, hp, rfl⟩
  | succ n ih =>
    intro c ps h hp
    rcases callNext_cases h es with ⟨c1, a1, a2, a3, _⟩ | ⟨c1, gs, b1, b2, b3, b4, b5, b6, b7, b8⟩
    · have hp1 : ps.Pairwise (fun a b => ukey c1.ms a ≤ ukey c1.ms b) := by
        simpa only [a2.ukey_same] using hp
      obtain ⟨i1, i2, i3, i4⟩ := ih c1 ps a3 hp1
      simp only [stateAfter, returnedSlots, nextResults, a1]
      refine ⟨a2.same_seq i1, i2, by simpa only [a2.ukey_same] using i3, ?_⟩
      rw [List.reduceOption_cons_of_none, i4]
      congr 1
      funext g
      exact a2.recAt_same g
    · have hp1 : (ps ++ [gs]).Pairwise (fun a b => ukey c1.ms a ≤ ukey c1.ms b) := by
        simp only [b7.ukey_same]
        rw [List.pairwise_append]
        refine ⟨hp, List.pairwise_singleton _ _, ?_⟩
        intro a ha b hb
        rw [List.mem_singleton] at hb
        subst hb
        exact b6 a ha
      obtain ⟨i1, i2, i3, i4⟩ := ih c1 (ps ++ [gs]) b8 hp1
      simp only [stateAfter, returnedSlots, nextResults, b1, b2]
      rw [List.append_assoc] at i2 i3
      refine ⟨b7.same_seq i1, i2, by simpa only [b7.ukey_same] using i3, ?_⟩
      rw [List.reduceOption_cons_of_some, i4, List.map_cons]
      congr 2
      funext g
      exact b7.recAt_same g

theorem toUnsigned_of_nonneg (k : Int) (h0 : 0 ≤ k) (h1 : k < 4294967296) :
    (toUnsigned k : Int) = k := by
  unfold toUnsigned
  omega

theorem toUnsigned_lt_iff (k : Int) (h0 : -2147483648 ≤ k) (h1 : k < 2147483648) :
    toUnsigned k < INT_MAX ↔ (0 ≤ k ∧ k < 2147483647) := by
  unfold toUnsigned INT_MAX
  omega

theorem toUnsigned_cast (k : Int) (h0 : -2147483648 ≤ k) (h1 : k < 2147483648)
    (h : toUnsigned k < INT_MAX) : (toUnsigned k : Int) = k := by
  unfold toUnsigned INT_MAX at *
  omega

theorem trace_count (es : external_sort_t) :
    ∀ (k : Nat) (c : Caller) (ps : List Nat), Inv c.ms ps →
      ps.length + k = (eligibleSlots c.ms).length →
      nextResults es (k + 1) c
        = (returnedSlots es k c).map (fun g => some (recAt c.ms g)) ++ [none] ∧
      (returnedSlots es k c).length = k ∧
      (ps ++ returnedSlots es k c).Perm (eligibleSlots c.ms) := by
  intro k
  induction k with
  | zero =>
    intro c ps h hl
    rcases callNext_cases h es with ⟨c1, a1, a2, a3, a4⟩ | ⟨c1, gs, b1, b2, b3, b4, b5, b6, b7, b8⟩
    · simp only [nextResults, returnedSlots, a1, List.map_nil, List.nil_append,
        List.length_nil, List.append_nil]
      exact ⟨trivial, trivial, a4⟩
    · exfalso
      have := b8.length_le
      rw [b7.eligibleSlots_same, List.length_append, List.length_singleton] at this
      omega
  | succ k ih =>
    intro c ps h hl
    rcases callNext_cases h es with ⟨c1, a1, a2, a3, a4⟩ | ⟨c1, gs, b1, b2, b3, b4, b5, b6, b7, b8⟩
    · exfalso
      have := a4.length_eq
      omega
    · obtain ⟨i1, i2, i3⟩ := ih c1 (ps ++ [gs]) b8
        (by rw [b7.eligibleSlots_same, List.length_append, List.length_singleton]; omega)
      rw [nextResults, returnedSlots]
      simp only [b1, b2]
      rw [i1]
      rw [b7.eligibleSlots_same, List.append_assoc] at i3
      refine ⟨?_, by rw [List.length_cons, i2], i3⟩
      simp only [List.map_cons, List.cons_append, List.singleton_append, b7.recAt_same]

theorem exampleInput_valid : ValidInput exampleInput 4 exampleSort :=
  ⟨by decide, by decide, by decide, by decide, by decide, by decide, by decide,
    by decide, by decide⟩

theorem exampleInput_keys : KeysBelowSentinel exampleInput (recordsPerPage exampleSort) := by
  intro g hg
  have hg : g < 3 := hg
  interval_cases g <;> decide

theorem KeysBelowSentinel.int32 {is : file_iterator_state_t} {R : Nat}
    (h : KeysBelowSentinel is R) : Int32Keys is R := by
  intro g hg
  have := h g hg
  omega

/-- C1: for every valid input whose keys are int32 values, the records returned by
successive next_MinSort calls after init_MinSort have non-decreasing keys: each returned
key is at least every key returned before it. -/
theorem next_MinSort_keys_nondecreasing {is : file_iterator_state_t} {M : Nat}
    {es : external_sort_t} (hv : ValidInput is M es) (hk : Int32Keys is (recordsPerPage es))
    (buffer : List test_record_t) (metric : metrics_t) (tupleBuffer : test_record_t) :
    ∃ ms mt, init_MinSort (initialState is buffer M) es metric = some (ms, mt) ∧
      ∀ n, ((nextResults es n ⟨ms, mt, tupleBuffer⟩).reduceOption).Pairwise
        (fun a b => a.key ≤ b.key) := by
  obtain ⟨ms, mt, h1, h2, h3, h4, h5, _⟩ := init_MinSort_spec hv buffer metric
  refine ⟨ms, mt, h1, fun n => ?_⟩
  obtain ⟨t1, t2, t3, t4⟩ := trace_inv es n ⟨ms, mt, tupleBuffer⟩ [] h2 List.Pairwise.nil
  rw [t4, List.pairwise_map]
  rw [List.nil_append] at t2 t3
  have hsub := t2.subset_eligible
  rw [t1.eligibleSlots_same] at hsub
  have hkey : ∀ g, g ∈ returnedSlots es n ⟨ms, mt, tupleBuffer⟩ →
      ((ukey ms g : Nat) : Int) = (recAt ms g).key := by
    intro g hg
    have := hsub hg
    unfold eligibleSlots at this
    rw [List.mem_filter, List.mem_range] at this
    obtain ⟨a, b⟩ := this
    have b : ukey ms g < INT_MAX := by simpa using b
    have hr := hk g (by rw [← h5]; exact a)
    have e : recAt ms g = slotAt is.file (recordsPerPage es) g := by
      unfold recAt; rw [h3, h4]
    rw [← e] at hr
    exact toUnsigned_cast _ hr.1 hr.2 b
  refine List.Pairwise.imp_of_mem ?_ t3
  intro a b ha hb hab
  rw [← hkey a ha, ← hkey b hb]
  exact_mod_cast hab

theorem next_MinSort_keys_nondecreasing_witness :
    ValidInput exampleInput 4 exampleSort ∧
    Int32Keys exampleInput (recordsPerPage exampleSort) ∧
    ∃ ms mt, init_MinSort (initialState exampleInput [] 4) exampleSort ⟨0, 0, 0, 0⟩
        = some (ms, mt) ∧
      ∀ n, ((nextResults exampleSort n ⟨ms, mt, ⟨0, 0⟩⟩).reduceOption).Pairwise
        (fun a b => a.key ≤ b.key) :=
  ⟨exampleInput_valid, exampleInput_keys.int32,
   next_MinSort_keys_nondecreasing exampleInput_valid exampleInput_keys.int32 [] ⟨0, 0, 0, 0⟩
     ⟨0, 0⟩⟩

theorem eligibleSlots_all {ms : MinSortState} {is : file_iterator_state_t} {R : Nat}
    (h3 : ms.iteratorState = is) (h4 : ms.records_per_block = R)
    (h5 : ms.num_records = is.totalRecords) (hk : KeysBelowSentinel is R) :
    eligibleSlots ms = List.range is.totalRecords := by
  unfold eligibleSlots
  rw [h5, List.filter_eq_self]
  intro g hg
  rw [List.mem_range] at hg
  have := hk g hg
  have e : ukey ms g = toUnsigned (slotAt is.file R g).key := by
    unfold ukey recAt; rw [h3, h4]
  simp only [decide_eq_true_eq, e]
  exact (toUnsigned_lt_iff _ (by omega) (by omega)).2 this

theorem recAt_eq_slotAt {ms : MinSortState} {is : file_iterator_state_t} {R : Nat}
    (h3 : ms.iteratorState = is) (h4 : ms.records_per_block = R) :
    recAt ms = slotAt is.file R := by
  funext g
  unfold recAt; rw [h3, h4]

/-- C2: for every valid input whose N valid records have keys in [0, INT_MAX), the first
N calls of next_MinSort after init_MinSort each return a record, the call after them
returns NULL, and the N returned records are a permutation of the N valid input
records. -/
theorem next_MinSort_returns_each_record_once {is : file_iterator_state_t} {M : Nat}
    {es : external_sort_t} (hv : ValidInput is M es)
    (hk : KeysBelowSentinel is (recordsPerPage es))
    (buffer : List test_record_t) (metric : metrics_t) (tupleBuffer : test_record_t) :
    ∃ ms mt, init_MinSort (initialState is buffer M) es metric = some (ms, mt) ∧
      ∃ out : List test_record_t,
        nextResults es (is.totalRecords + 1) ⟨ms, mt, tupleBuffer⟩ = out.map some ++ [none] ∧
        out.length = is.totalRecords ∧
        out.Perm (validRecords is (recordsPerPage es)) := by
  obtain ⟨ms, mt, h1, h2, h3, h4, h5, _⟩ := init_MinSort_spec hv buffer metric
  refine ⟨ms, mt, h1, ?_⟩
  have hel := eligibleSlots_all h3 h4 h5 hk
  obtain ⟨t1, t2, t3⟩ := trace_count es is.totalRecords ⟨ms, mt, tupleBuffer⟩ [] h2
    (by
      show 0 + is.totalRecords = (eligibleSlots ms).length
      rw [hel, List.length_range, Nat.zero_add])
  refine ⟨(returnedSlots es is.totalRecords ⟨ms, mt, tupleBuffer⟩).map (recAt ms), ?_, ?_, ?_⟩
  · rw [t1, List.map_map]; rfl
  · rw [List.length_map, t2]
  · rw [List.nil_append] at t3
    have t3 : (returnedSlots es is.totalRecords ⟨ms, mt, tupleBuffer⟩).Perm
        (List.range is.totalRecords) := by rw [← hel]; exact t3
    unfold validRecords
    rw [← recAt_eq_slotAt h3 h4]
    exact t3.map _

theorem next_MinSort_returns_each_record_once_witness :
    ValidInput exampleInput 4 exampleSort ∧
    KeysBelowSentinel exampleInput (recordsPerPage exampleSort) ∧
    ∃ ms mt, init_MinSort (initialState exampleInput [] 4) exampleSort ⟨0, 0, 0, 0⟩
        = some (ms, mt) ∧
      ∃ out : List test_record_t,
        nextResults exampleSort (exampleInput.totalRecords + 1) ⟨ms, mt, ⟨0, 0⟩⟩
          = out.map some ++ [none] ∧
        out.length = exampleInput.totalRecords ∧
        out.Perm (validRecords exampleInput (recordsPerPage exampleSort)) :=
  ⟨exampleInput_valid, exampleInput_keys,
   next_MinSort_returns_each_record_once exampleInput_valid exampleInput_keys [] ⟨0, 0, 0, 0⟩
     ⟨0, 0⟩⟩

theorem regionOf_eq_page_div (ms : MinSortState) (g : Nat) :
    regionOf ms g = g / ms.records_per_block / ms.blocks_per_region := by
  unfold regionOf
  rw [Nat.div_div_eq_div_mul, Nat.mul_comm]

/-- C5 (the code at the failing input): on a valid input of one page whose only record
has key -1, init_MinSort leaves min[0] at the sentinel INT_MAX, although region 0 holds
a valid record and its smallest key as a signed integer is -1. -/
theorem init_MinSort_skips_negative_key :
    ValidInput negativeKeyInput 4 negativeKeySort ∧
    (slotAt negativeKeyInput.file (recordsPerPage negativeKeySort) 0).key = -1 ∧
    (init_MinSort (initialState negativeKeyInput [] 4) negativeKeySort ⟨0, 0, 0, 0⟩).map
      (fun p => (p.1.numRegions, p.1.min)) = some (1, [INT_MAX]) :=
  ⟨⟨by decide, by decide, by decide, by decide, by decide, by decide, by decide,
    by decide, by decide⟩,
   by decide, by decide⟩

/-- C7 (as stated, refuted): in a state whose only region minimum is the sentinel the
selection leaves regionIdx at INT_MAX, which is not an index attaining the minimum. -/
theorem selection_claim_fails_when_drained :
    ¬ SelectsLowestMinimum drainedState exampleSort ⟨0, 0⟩ ⟨0, 0, 0, 0⟩ := by
  intro h
  have h1 := h.2.1.1
  revert h1
  decide

/-- C7 (amended): on entry with nextIdx = 0, in a state with at most INT_MAX regions whose
minima are at most the sentinel, the selection leaves current equal to the minimum of
min[0..G) and next equal to the sentinel; when some entry is below the sentinel regionIdx
is the lowest index attaining the minimum, when every entry is the sentinel regionIdx is
INT_MAX; and next_MinSort returns NULL exactly when every entry is the sentinel. -/
theorem selectRegion_picks_lowest_minimum (ms : MinSortState) (es : external_sort_t)
    (tupleBuffer : test_record_t) (metric : metrics_t) (h0 : ms.nextIdx = 0)
    (hG : ms.numRegions ≤ INT_MAX)
    (hle : ∀ r, r < ms.numRegions → ms.min.getD r 0 ≤ INT_MAX) :
    (∀ r, r < ms.numRegions → (selectRegion ms metric).1.current ≤ ms.min.getD r 0) ∧
    (0 < ms.numRegions →
      ∃ r, r < ms.numRegions ∧ ms.min.getD r 0 = (selectRegion ms metric).1.current) ∧
    ((∃ r, r < ms.numRegions ∧ ms.min.getD r 0 ≠ INT_MAX) →
      (selectRegion ms metric).1.regionIdx < ms.numRegions ∧
      ms.min.getD (selectRegion ms metric).1.regionIdx 0 = (selectRegion ms metric).1.current ∧
      ∀ r, r < (selectRegion ms metric).1.regionIdx →
        (selectRegion ms metric).1.current < ms.min.getD r 0) ∧
    ((∀ r, r < ms.numRegions → ms.min.getD r 0 = INT_MAX) →
      (selectRegion ms metric).1.regionIdx = INT_MAX) ∧
    (selectRegion ms metric).1.next = INT_MAX ∧
    ((next_MinSort ms es tupleBuffer metric).2.2 = none ↔
      ∀ r, r < ms.numRegions → ms.min.getD r 0 = INT_MAX) := by
  obtain ⟨c, ri, mt, hsel, hcase⟩ := selectRegion_spec ms metric
  have hnull : (next_MinSort ms es tupleBuffer metric).2.2 = none ↔ ri = INT_MAX := by
    rw [next_MinSort_eq, if_pos h0, hsel]
    by_cases hri : ri = INT_MAX
    · rw [if_pos ⟨h0, hri⟩]; simp [hri]
    · rw [if_neg (fun hh => hri hh.2)]
      simp [drainStep, hri]
  rw [hnull, hsel]
  rcases hcase with ⟨a1, a2, a3⟩ | ⟨a1, a2, a3, a4, a5⟩
  · have hall : ∀ r, r < ms.numRegions → ms.min.getD r 0 = INT_MAX :=
      fun r hr => le_antisymm (hle r hr) (a3 r hr)
    refine ⟨fun r hr => by rw [hall r hr]; exact le_of_eq a2, fun hpos => ⟨0, hpos, ?_⟩, ?_,
      fun _ => a1, rfl, fun _ => hall, fun _ => a1⟩
    · rw [hall 0 hpos]; exact a2.symm
    · rintro ⟨r, hr, hne⟩
      exact absurd (hall r hr) hne
  · have hne : ri ≠ INT_MAX := by omega
    refine ⟨a4, fun _ => ⟨ri, a1, a2.symm⟩, fun _ => ⟨a1, a2.symm, a5⟩, ?_, rfl, ?_⟩
    · intro hall
      have := hall ri a1
      have a2 : c = ms.min.getD ri 0 := a2
      omega
    · constructor
      · intro h; exact absurd h hne
      · intro hall
        have := hall ri a1
        have a2 : c = ms.min.getD ri 0 := a2
        omega

theorem selectRegion_picks_lowest_minimum_witness :
    threeRegionState.nextIdx = 0 ∧ threeRegionState.numRegions ≤ INT_MAX ∧
    (∀ r, r < threeRegionState.numRegions → threeRegionState.min.getD r 0 ≤ INT_MAX) ∧
    (selectRegion threeRegionState ⟨0, 0, 0, 0⟩).1.regionIdx = 1 ∧
    ((next_MinSort threeRegionState exampleSort ⟨0, 0⟩ ⟨0, 0, 0, 0⟩).2.2 = none ↔
      ∀ r, r < threeRegionState.numRegions → threeRegionState.min.getD r 0 = INT_MAX) :=
  ⟨by decide, by decide, by decide, by decide,
   (selectRegion_picks_lowest_minimum threeRegionState exampleSort ⟨0, 0⟩ ⟨0, 0, 0, 0⟩
     (by decide) (by decide) (by decide)).2.2.2.2.2⟩

theorem pageOf_append (es : external_sort_t) (R : Nat) (em l : List test_record_t) (j : Nat)
    (h : (j + 1) * R ≤ em.length) : pageOf es R (em ++ l) j = pageOf es R em j := by
  unfold pageOf
  have h1 : j * R ≤ em.length := by rw [Nat.succ_mul] at h; omega
  rw [List.drop_append_of_le_length h1, List.take_append_of_le_length]
  rw [List.length_drop]
  rw [Nat.succ_mul] at h
  omega

theorem map_pageOf_append (es : external_sort_t) (R : Nat) (em l : List test_record_t)
    (n : Nat) (h : n * R ≤ em.length) :
    (List.range n).map (pageOf es R (em ++ l)) = (List.range n).map (pageOf es R em) := by
  apply List.map_congr_left
  intro j hj
  rw [List.mem_range] at hj
  apply pageOf_append
  calc (j + 1) * R ≤ n * R := Nat.mul_le_mul_right _ hj
    _ ≤ em.length := h

/-- The page flushed when the output buffer is full is the next full page of the
emitted records. -/
theorem full_page_eq (es : external_sort_t) (R : Nat) (em : List test_record_t)
    (buf : Nat → test_record_t)
    (n c : Nat) (t : test_record_t) (hlen : n * R + c = em.length) (hc : c + 1 = R)
    (hslots : ∀ i, i < c → em.get? (n * R + i) = some (buf i)) :
    (⟨n, c + 1, stampSlots es n (c + 1) ((List.range R).map (Function.update buf c t))⟩ :
        OutputPage)
      = pageOf es R (em ++ [t]) n := by
  unfold pageOf
  rw [hc]
  congr 2
  apply List.ext_get?
  intro i
  by_cases hi : i < R
  · rw [List.get?_map, List.get?_range hi, Option.map_some', List.get?_take hi, List.get?_drop]
    by_cases hic : i = c
    · subst hic
      rw [Function.update_same, hlen, List.get?_append_right (le_refl _), Nat.sub_self]
      rfl
    · have hlt : i < c := by omega
      rw [Function.update_noteq hic, List.get?_append (by omega)]
      exact (hslots i hlt).symm
  · have h1 : ((List.range R).map (Function.update buf c t)).length ≤ i := by
      rw [List.length_map, List.length_range]; omega
    have h2 : (List.take R (List.drop (n * R) (em ++ [t]))).length ≤ i := by
      rw [List.length_take, List.length_drop, List.length_append, List.length_singleton]
      omega
    rw [List.get?_eq_none.2 h1, List.get?_eq_none.2 h2]

theorem writeLoop_spec (es : external_sort_t) (R : Nat) (writeOk : Nat → Bool) (hR : 0 < R) :
    ∀ (fuel : Nat) (s : SortState) (ps : List Nat), Inv s.ms ps → Packed es R s →
      s.emitted = ps.map (recAt s.ms) →
      (eligibleSlots s.ms).length < ps.length + fuel →
      ∃ b sF psF, writeLoop es R writeOk fuel s = some (b, sF) ∧
        SameInput s.ms sF.ms ∧ Inv sF.ms psF ∧ sF.emitted = psF.map (recAt s.ms) ∧
        sF.outputFile = (List.range sF.outputFile.length).map (pageOf es R sF.emitted) ∧
        s.outputFile.length ≤ sF.outputFile.length ∧
        (∀ j, s.outputFile.length ≤ j → j < sF.outputFile.length → writeOk j = true) ∧
        (b = true → Packed es R sF ∧ psF.Perm (eligibleSlots s.ms)) ∧
        (b = false → writeOk sF.outputFile.length = false ∧
          (sF.outputFile.length + 1) * R = sF.emitted.length ∧
          sF.emitted.length ≤ (eligibleSlots s.ms).length) := by
  intro fuel
  induction fuel with
  | zero =>
    intro s ps h hp hem hf
    have := h.length_le
    omega
  | succ fuel ih =>
    intro s ps h hp hem hf
    rw [writeLoop]
    rcases next_MinSort_step h es (s.outputBuffer s.count) s.metric with
      ⟨a1, a2, ms1, mt1, a3, a4, a5, _, _, _⟩ | ⟨gs, ms1, mt1, b1, b2, b3, b4, b5, b6, b7, b8⟩
    · rw [a3]
      refine ⟨true, { s with ms := ms1, metric := mt1 }, ps, rfl, a4, a5, hem, hp.file,
        le_refl _, fun j h1 h2 => absurd (show j < s.outputFile.length from h2) (by omega),
        fun _ => ⟨?_, h.perm_of_done a1 a2⟩,
        fun hh => by simp at hh⟩
      exact ⟨hp.file, hp.block, hp.pages, hp.count_lt, hp.slots⟩
    · rw [b1]
      simp only []
      have hlen : s.outputFile.length * R + s.count = s.emitted.length := hp.pages
      have hem1 : s.emitted ++ [recAt s.ms gs] = (ps ++ [gs]).map (recAt ms1) := by
        rw [List.map_append, List.map_singleton, hem]
        congr 1
        · apply List.map_congr_left
          intro g _
          exact (b7.recAt_same g).symm
        · rw [b7.recAt_same]
      have hE : eligibleSlots ms1 = eligibleSlots s.ms := b7.eligibleSlots_same
      have hle : (ps ++ [gs]).length ≤ (eligibleSlots s.ms).length := by
        rw [← hE]; exact b8.length_le
      have hstable : (List.range s.outputFile.length).map
            (pageOf es R (s.emitted ++ [recAt s.ms gs]))
          = (List.range s.outputFile.length).map (pageOf es R s.emitted) :=
        map_pageOf_append es R _ _ _ (by omega)
      have hrec : ∀ psF : List Nat, psF.map (recAt ms1) = psF.map (recAt s.ms) := by
        intro psF
        apply List.map_congr_left
        intro g _
        exact b7.recAt_same g
      by_cases hfull : s.count + 1 = R
      · rw [if_pos hfull]
        have hpage : (⟨s.blockIndex, s.count + 1,
              stampSlots es s.blockIndex (s.count + 1)
                ((List.range R).map (Function.update s.outputBuffer s.count (recAt s.ms gs)))⟩ :
              OutputPage)
            = pageOf es R (s.emitted ++ [recAt s.ms gs]) s.outputFile.length := by
          rw [hp.block]
          exact full_page_eq es R s.emitted s.outputBuffer _ _ _ hlen hfull hp.slots
        rw [hpage]
        by_cases hw : writeOk s.outputFile.length = true
        · rw [if_pos hw]
          obtain ⟨s1, hs1⟩ : ∃ s1 : SortState, s1 =
              { ms := ms1, metric := mt1,
                outputBuffer := fun k => stampSlot es s.blockIndex (s.count + 1) k
                  (Function.update s.outputBuffer s.count (recAt s.ms gs) k),
                count := 0, blockIndex := s.blockIndex + 1,
                outputFile := s.outputFile ++
                  [pageOf es R (s.emitted ++ [recAt s.ms gs]) s.outputFile.length],
                emitted := s.emitted ++ [recAt s.ms gs] } := ⟨_, rfl⟩
          rw [← hs1]
          have e1 : s1.ms = ms1 := by rw [hs1]
          have e2 : s1.outputFile = s.outputFile ++
              [pageOf es R (s.emitted ++ [recAt s.ms gs]) s.outputFile.length] := by rw [hs1]
          have e3 : s1.emitted = s.emitted ++ [recAt s.ms gs] := by rw [hs1]
          have e4 : s1.count = 0 := by rw [hs1]
          have e5 : s1.blockIndex = s.blockIndex + 1 := by rw [hs1]
          have e6 : s1.outputFile.length = s.outputFile.length + 1 := by
            rw [e2, List.length_append, List.length_singleton]
          have hp1 : Packed es R s1 := by
            refine ⟨?_, by rw [e5, e6, hp.block], ?_, by rw [e4]; exact hR, ?_⟩
            · rw [e6, List.range_succ, List.map_append, List.map_singleton, e3, hstable,
                ← hp.file, e2]
            · rw [e6, e4, e3, List.length_append, List.length_singleton, Nat.succ_mul]
              omega
            · intro i hi
              rw [e4] at hi
              omega
          obtain ⟨b, sF, psF, c1, c2, c3, c4, c5, c6, c7, c8, c9⟩ := ih s1 (ps ++ [gs])
            (by rw [e1]; exact b8) hp1 (by rw [e3, e1]; exact hem1)
            (by rw [e1, hE, List.length_append, List.length_singleton]; omega)
          rw [e1] at c2 c4 c8 c9
          rw [hE] at c8 c9
          rw [e6] at c6 c7
          refine ⟨b, sF, psF, c1, b7.same_seq c2, c3, by rw [c4, hrec], c5, by omega, ?_, c8, c9⟩
          intro j h1 h2
          rcases Nat.eq_or_lt_of_le h1 with e | e
          · rw [← e]; exact hw
          · exact c7 j (by omega) h2
        · rw [if_neg hw]
          have hw : writeOk s.outputFile.length = false := by simpa using hw
          refine ⟨false, _, ps ++ [gs], rfl, b7, b8, by rw [← hrec]; exact hem1, ?_,
            le_refl _, fun j h1 h2 => absurd (show j < s.outputFile.length from h2) (by omega),
            fun hh => by simp at hh,
            fun _ => ⟨hw, ?_, ?_⟩⟩
          · show s.outputFile = (List.range s.outputFile.length).map
              (pageOf es R (s.emitted ++ [recAt s.ms gs]))
            rw [hstable]; exact hp.file
          · show (s.outputFile.length + 1) * R = (s.emitted ++ [recAt s.ms gs]).length
            rw [List.length_append, List.length_singleton, Nat.succ_mul]
            omega
          · show (s.emitted ++ [recAt s.ms gs]).length ≤ _
            rw [hem1, List.length_map]; exact hle
      · rw [if_neg hfull]
        have hclt := hp.count_lt
        obtain ⟨s1, hs1⟩ : ∃ s1 : SortState, s1 =
            { s with ms := ms1, metric := mt1,
                     outputBuffer := Function.update s.outputBuffer s.count (recAt s.ms gs),
                     count := s.count + 1,
                     emitted := s.emitted ++ [recAt s.ms gs] } := ⟨_, rfl⟩
        rw [← hs1]
        have e1 : s1.ms = ms1 := by rw [hs1]
        have e2 : s1.outputFile = s.outputFile := by rw [hs1]
        have e3 : s1.emitted = s.emitted ++ [recAt s.ms gs] := by rw [hs1]
        have e4 : s1.count = s.count + 1 := by rw [hs1]
        have e5 : s1.blockIndex = s.blockIndex := by rw [hs1]
        have e7 : s1.outputBuffer = Function.update s.outputBuffer s.count (recAt s.ms gs) := by
          rw [hs1]
        have hp1 : Packed es R s1 := by
          refine ⟨?_, by rw [e5, e2, hp.block], ?_, by rw [e4]; omega, ?_⟩
          · rw [e2, e3, hstable]; exact hp.file
          · rw [e2, e4, e3, List.length_append, List.length_singleton]; omega
          · intro i hi
            rw [e4] at hi
            rw [e2, e3, e7]
            by_cases hic : i = s.count
            · subst hic
              rw [Function.update_same, hlen, List.get?_append_right (le_refl _), Nat.sub_self]
              rfl
            · rw [Function.update_noteq hic, List.get?_append (by omega)]
              exact hp.slots i (by omega)
        obtain ⟨b, sF, psF, c1, c2, c3, c4, c5, c6, c7, c8, c9⟩ := ih s1 (ps ++ [gs])
          (by rw [e1]; exact b8) hp1 (by rw [e3, e1]; exact hem1)
          (by rw [e1, hE, List.length_append, List.length_singleton]; omega)
        rw [e1] at c2 c4 c8 c9
        rw [hE] at c8 c9
        rw [e2] at c6 c7
        exact ⟨b, sF, psF, c1, b7.same_seq c2, c3, by rw [c4, hrec], c5, c6, c7, c8, c9⟩

theorem ceilDiv_of_rem {E R n c : Nat} (h : n * R + c = E) (hc : c < R) :
    ceilDiv E R = if c = 0 then n else n + 1 := by
  unfold ceilDiv
  split
  · rename_i h0
    apply Nat.div_eq_of_lt_le
    · omega
    · rw [Nat.succ_mul]; omega
  · apply Nat.div_eq_of_lt_le
    · rw [Nat.succ_mul]; omega
    · rw [Nat.succ_mul, Nat.succ_mul]; omega

theorem eligibleSlots_length_le (ms : MinSortState) :
    (eligibleSlots ms).length ≤ ms.num_records := by
  unfold eligibleSlots
  calc ((List.range ms.num_records).filter _).length ≤ (List.range ms.num_records).length :=
        List.length_filter_le _ _
    _ = ms.num_records := List.length_range _

theorem get?_range_map_pageOf (es : external_sort_t) (R : Nat) (em : List test_record_t) (n j : Nat) (hj : j < n) :
    ((List.range n).map (pageOf es R em)).get? j = some (pageOf es R em j) := by
  rw [List.get?_map, List.get?_range hj]; rfl

/-- What a run of flash_minsort on a valid input with enough fuel produces. `E` is the
number of valid records with a key below the sentinel. -/
theorem flash_minsort_spec {is : file_iterator_state_t} {M : Nat} {es : external_sort_t}
    (hv : ValidInput is M es) (buffer : List test_record_t) (outputBuffer : Nat → test_record_t)
    (metric : metrics_t) (writeOk : Nat → Bool) (fuel : Nat) (hf : is.totalRecords < fuel) :
    ∃ res ms0 mt0, init_MinSort (initialState is buffer M) es metric = some (ms0, mt0) ∧
      flash_minsort fuel is buffer outputBuffer M es metric writeOk = some res ∧
      (∀ j, j < res.outputFile.length → writeOk j = true) ∧
      (∀ j, j < res.outputFile.length → ∃ page, res.outputFile.get? j = some page ∧
        page.blockIndex = j ∧
        ((j + 1) * recordsPerPage es ≤ res.emitted.length →
          page = pageOf es (recordsPerPage es) res.emitted j)) ∧
      (res.status = 0 ∨ res.status = 9) ∧
      (res.status = 0 → res.resultFilePtr = some 0 ∧
        res.emitted.length = (eligibleSlots ms0).length ∧
        res.outputFile.length = ceilDiv (eligibleSlots ms0).length (recordsPerPage es)) ∧
      (res.status = 9 → res.resultFilePtr = none ∧ writeOk res.outputFile.length = false ∧
        res.outputFile.length < ceilDiv (eligibleSlots ms0).length (recordsPerPage es)) := by
  obtain ⟨ms0, mt0, h1, h2, h3, h4, h5, _⟩ := init_MinSort_spec hv buffer metric
  have hR : 0 < recordsPerPage es := hv.R_pos
  have hpk : Packed es (recordsPerPage es) ⟨ms0, mt0, outputBuffer, 0, 0, [], []⟩ :=
    ⟨rfl, rfl, by simp, hR, fun i hi => absurd hi (by simp)⟩
  obtain ⟨b, sF, psF, c1, c2, c3, c4, c5, c6, c7, c8, c9⟩ :=
    writeLoop_spec es (recordsPerPage es) writeOk hR fuel
      ⟨ms0, mt0, outputBuffer, 0, 0, [], []⟩ [] h2 hpk rfl
      (by
        have := eligibleSlots_length_le ms0
        rw [h5] at this
        simp only [List.length_nil, Nat.zero_add]
        omega)
  have c7 : ∀ j, j < sF.outputFile.length → writeOk j = true :=
    fun j hj => c7 j (Nat.zero_le _) hj
  have c8 : b = true → Packed es (recordsPerPage es) sF ∧ psF.Perm (eligibleSlots ms0) := c8
  have c9 : b = false → writeOk sF.outputFile.length = false ∧
      (sF.outputFile.length + 1) * recordsPerPage es = sF.emitted.length ∧
      sF.emitted.length ≤ (eligibleSlots ms0).length := c9
  have hpages : ∀ j, j < sF.outputFile.length → ∃ page, sF.outputFile.get? j = some page ∧
      page.blockIndex = j ∧ ((j + 1) * recordsPerPage es ≤ sF.emitted.length →
        page = pageOf es (recordsPerPage es) sF.emitted j) := by
    intro j hj
    refine ⟨pageOf es (recordsPerPage es) sF.emitted j, ?_, rfl, fun _ => rfl⟩
    rw [c5]
    exact get?_range_map_pageOf _ _ _ _ _ hj
  have hflash : flash_minsort fuel is buffer outputBuffer M es metric writeOk
      = (match (some (b, sF) : Option (Bool × SortState)) with
        | none => none
        | some (false, s) => some ⟨9, none, s.outputFile, s.metric, s.emitted⟩
        | some (true, s) =>
          if s.count > 0 then
            if writeOk s.outputFile.length then
              some ⟨0, some 0, s.outputFile ++ [⟨s.blockIndex, s.count, stampSlots es s.blockIndex s.count s.ms.buffer⟩], s.metric,
                s.emitted⟩
            else some ⟨9, none, s.outputFile, s.metric, s.emitted⟩
          else some ⟨0, some 0, s.outputFile, s.metric, s.emitted⟩) := by
    unfold flash_minsort
    rw [h1]
    simp only []
    have : writeLoop es ((es.page_size - es.headerSize) / es.record_size) writeOk fuel
        ⟨ms0, mt0, outputBuffer, 0, 0, [], []⟩ = some (b, sF) := c1
    rw [this]
  cases b with
  | false =>
    obtain ⟨d1, d2, d3⟩ := c9 rfl
    refine ⟨⟨9, none, sF.outputFile, sF.metric, sF.emitted⟩, ms0, mt0, h1, hflash, c7, hpages,
      Or.inr rfl,
      fun hh => absurd (show (9 : Nat) = 0 from hh) (by decide), fun _ => ⟨rfl, d1, ?_⟩⟩
    show sF.outputFile.length < ceilDiv _ _
    unfold ceilDiv
    apply Nat.lt_of_succ_le
    rw [Nat.le_div_iff_mul_le hR]
    show (sF.outputFile.length + 1) * recordsPerPage es ≤ _
    omega
  | true =>
    obtain ⟨d1, d2⟩ := c8 rfl
    have hE : sF.emitted.length = (eligibleSlots ms0).length := by
      rw [c4, List.length_map]; exact d2.length_eq
    have hcd := ceilDiv_of_rem (E := (eligibleSlots ms0).length)
      (by rw [← hE]; exact d1.pages) d1.count_lt
    simp only [] at hflash
    by_cases hc : sF.count > 0
    · rw [if_pos hc] at hflash
      rw [if_neg (by omega)] at hcd
      by_cases hw : writeOk sF.outputFile.length = true
      · rw [if_pos hw] at hflash
        refine ⟨_, ms0, mt0, h1, hflash, ?_, ?_, Or.inl rfl, fun _ => ⟨rfl, hE, ?_⟩,
          fun hh => absurd (show (0 : Nat) = 9 from hh) (by decide)⟩
        · intro j hj
          have hj : j < (sF.outputFile ++ [(⟨sF.blockIndex, sF.count, stampSlots es sF.blockIndex sF.count sF.ms.buffer⟩ : OutputPage)]).length := hj
          rw [List.length_append, List.length_singleton] at hj
          rcases Nat.lt_or_ge j sF.outputFile.length with h | h
          · exact c7 j h
          · have : j = sF.outputFile.length := by omega
            rw [this]; exact hw
        · intro j hj
          have hj : j < (sF.outputFile ++ [(⟨sF.blockIndex, sF.count, stampSlots es sF.blockIndex sF.count sF.ms.buffer⟩ : OutputPage)]).length := hj
          rw [List.length_append, List.length_singleton] at hj
          show ∃ page, (sF.outputFile ++ [(⟨sF.blockIndex, sF.count, stampSlots es sF.blockIndex sF.count sF.ms.buffer⟩ : OutputPage)]).get? j
            = some page ∧ page.blockIndex = j ∧
            ((j + 1) * recordsPerPage es ≤ sF.emitted.length →
              page = pageOf es (recordsPerPage es) sF.emitted j)
          rcases Nat.lt_or_ge j sF.outputFile.length with h | h
          · rw [List.get?_append h]
            exact hpages j h
          · have hje : j = sF.outputFile.length := by omega
            subst hje
            rw [List.get?_append_right (le_refl _), Nat.sub_self]
            refine ⟨_, rfl, d1.block, fun hle => ?_⟩
            exfalso
            have := d1.pages
            have := d1.count_lt
            rw [Nat.succ_mul] at hle
            omega
        · show (sF.outputFile ++ [(⟨sF.blockIndex, sF.count, stampSlots es sF.blockIndex sF.count sF.ms.buffer⟩ : OutputPage)]).length = _
          rw [List.length_append, List.length_singleton, hcd]
      · rw [if_neg hw] at hflash
        have hw : writeOk sF.outputFile.length = false := by simpa using hw
        refine ⟨_, ms0, mt0, h1, hflash, c7, hpages, Or.inr rfl,
          fun hh => absurd (show (9 : Nat) = 0 from hh) (by decide), fun _ => ⟨rfl, hw, ?_⟩⟩
        show sF.outputFile.length < _
        rw [hcd]; omega
    · rw [if_neg hc] at hflash
      rw [if_pos (by omega)] at hcd
      exact ⟨_, ms0, mt0, h1, hflash, c7, hpages, Or.inl rfl, fun _ => ⟨rfl, hE, hcd.symm⟩,
        fun hh => absurd (show (0 : Nat) = 9 from hh) (by decide)⟩

theorem eligibleSlots_length {ms : MinSortState} {is : file_iterator_state_t} {R : Nat}
    (h3 : ms.iteratorState = is) (h4 : ms.records_per_block = R)
    (h5 : ms.num_records = is.totalRecords) :
    (eligibleSlots ms).length = eligibleCount is R := by
  unfold eligibleSlots eligibleCount ukey recAt
  rw [h3, h4, h5]

/-- C3 (the code at the failing input): on the valid input of two pages of two slots with
the three valid keys 3, 1, 2 and all writes succeeding, flash_minsort returns 0 but the
output file reads 1, 2, 2, which is not a permutation of the input records: the final
short page is written from the input page buffer. -/
theorem flash_minsort_final_page_not_sorted_permutation :
    ValidInput exampleInput 4 exampleSort ∧
    KeysBelowSentinel exampleInput (recordsPerPage exampleSort) ∧
    (flash_minsort 4 exampleInput [] (fun _ => ⟨0, 0⟩) 4 exampleSort ⟨0, 0, 0, 0⟩
        (fun _ => true)).map (fun r => (r.status, readOutput r.outputFile))
      = some (0, [⟨1, 10⟩, ⟨2, 20⟩, ⟨2, 20⟩]) ∧
    ¬ List.Perm [(⟨1, 10⟩ : test_record_t), ⟨2, 20⟩, ⟨2, 20⟩]
      (validRecords exampleInput (recordsPerPage exampleSort)) :=
  ⟨exampleInput_valid, exampleInput_keys, by decide, by decide⟩

/-- C4 (the code at the failing input): on a single input page holding keys 5, 3, 1 with
R = 7 and N = 3, next_MinSort returns the keys 1, 3, 5, but the one output page
flash_minsort writes has count 3 and its first three slots hold the keys 5, 3, 1. -/
theorem flash_minsort_short_page_unsorted :
    ValidInput shortPageInput 4 shortPageSort ∧
    recordsPerPage shortPageSort = 7 ∧
    (flash_minsort 4 shortPageInput [] (fun _ => ⟨0, 0⟩) 4 shortPageSort ⟨0, 0, 0, 0⟩
        (fun _ => true)).map
      (fun r => (r.status, r.emitted.map (fun x => x.key),
        r.outputFile.map (fun page =>
          (page.blockIndex, page.count, (page.records.take page.count).map (fun x => x.key)))))
      = some (0, [1, 3, 5], [(0, 3, [5, 3, 1])]) :=
  ⟨⟨by decide, by decide, by decide, by decide, by decide, by decide, by decide,
    by decide, by decide⟩,
   by decide, by decide⟩

/-- C9: on every valid input flash_minsort returns 0 and sets the result pointer to 0
when every page write succeeds; when the write of page f fails, f being the first
failing write and one of the pages the run has to write, it returns 9 without setting
the result pointer and the output file holds exactly the f pages written before. -/
theorem flash_minsort_status {is : file_iterator_state_t} {M : Nat} {es : external_sort_t}
    (hv : ValidInput is M es)
    (buffer : List test_record_t) (outputBuffer : Nat → test_record_t) (metric : metrics_t)
    (writeOk : Nat → Bool) (fuel : Nat) (hf : is.totalRecords < fuel) :
    ∃ res, flash_minsort fuel is buffer outputBuffer M es metric writeOk = some res ∧
      ((∀ j, writeOk j = true) → res.status = 0 ∧ res.resultFilePtr = some 0) ∧
      (∀ f, writeOk f = false → (∀ j, j < f → writeOk j = true) →
        f < ceilDiv (eligibleCount is (recordsPerPage es)) (recordsPerPage es) →
        res.status = 9 ∧ res.resultFilePtr = none ∧ res.outputFile.length = f) := by
  obtain ⟨res, ms0, mt0, h1, h2, h3, _, h5, h6, h7⟩ :=
    flash_minsort_spec hv buffer outputBuffer metric writeOk fuel hf
  obtain ⟨ms, mt, j1, _, j3, j4, j5, _⟩ := init_MinSort_spec hv buffer metric
  rw [h1] at j1
  have hms : ms0 = ms := congrArg Prod.fst (Option.some.inj j1)
  rw [hms, eligibleSlots_length j3 j4 j5] at h6 h7
  refine ⟨res, h2, ?_, ?_⟩
  · intro hw
    have hst : res.status = 0 := by
      rcases h5 with h | h
      · exact h
      · have := (h7 h).2.1
        rw [hw] at this
        exact absurd this (by decide)
    exact ⟨hst, (h6 hst).1⟩
  · intro f hff hfirst hlt
    have hst : res.status = 9 := by
      rcases h5 with h | h
      · have hlen := (h6 h).2.2
        have := h3 f (by rw [hlen]; exact hlt)
        rw [hff] at this
        exact absurd this (by decide)
      · exact h
    obtain ⟨k1, k2, _⟩ := h7 hst
    refine ⟨hst, k1, ?_⟩
    rcases Nat.lt_trichotomy res.outputFile.length f with c | c | c
    · have := hfirst _ c
      rw [k2] at this
      exact absurd this (by decide)
    · exact c
    · have := h3 f c
      rw [hff] at this
      exact absurd this (by decide)

theorem flash_minsort_status_witness :
    ValidInput exampleInput 4 exampleSort ∧
    ∃ res, flash_minsort 4 exampleInput [] (fun _ => ⟨0, 0⟩) 4 exampleSort ⟨0, 0, 0, 0⟩
        (fun j => j != 1) = some res ∧
      res.status = 9 ∧ res.resultFilePtr = none ∧ res.outputFile.length = 1 := by
  obtain ⟨res, h1, _, h3⟩ := flash_minsort_status exampleInput_valid [] (fun _ => ⟨0, 0⟩)
    ⟨0, 0, 0, 0⟩ (fun j => j != 1) 4 (by decide)
  exact ⟨exampleInput_valid, res, h1,
    h3 1 (by decide) (fun j hj => by interval_cases j; decide) (by decide)⟩

theorem init_MinSort_eq_scan (ms : MinSortState) (es : external_sort_t) (metric : metrics_t) :
    init_MinSort ms es metric = (initScan ms es es.num_pages).map initFinish := by
  unfold init_MinSort initScan
  simp only []
  cases ceilFloatDiv es.num_pages (ms.memoryAvailable / SORT_KEY_SIZE) with
  | none => rfl
  | some b =>
    simp only []
    cases ceilFloatDiv es.num_pages b with
    | none => rfl
    | some g => rfl

theorem initSlots_same (es : external_sort_t) (i rI : Nat) :
    ∀ (n j : Nat) (ms : MinSortState) (metric : metrics_t),
      SameInput ms (initSlots es i rI n j ms metric).1 ∧
      (initSlots es i rI n j ms metric).1.buffer = ms.buffer ∧
      (initSlots es i rI n j ms metric).1.lastBlockIdx = ms.lastBlockIdx ∧
      (initSlots es i rI n j ms metric).1.blocksRead = ms.blocksRead ∧
      (initSlots es i rI n j ms metric).2 = { metric with num_compar :=
        (metric.num_compar + min n (ms.num_records - (i * ms.records_per_block + j))) } := by
  intro n
  induction n with
  | zero =>
    intro j ms metric
    unfold initSlots
    exact ⟨SameInput.same_self ms, rfl, rfl, rfl, by simp⟩
  | succ n ih =>
    intro j ms metric
    unfold initSlots
    by_cases hc : i * ms.records_per_block + j < ms.num_records
    · rw [if_pos hc]
      simp only []
      obtain ⟨m1, hm1⟩ : ∃ m1 : MinSortState, m1 =
          (if toUnsigned (getValue ms j es) < ms.min.getD rI 0 then
            { ms with min := ms.min.set rI (toUnsigned (getValue ms j es)) } else ms) := ⟨_, rfl⟩
      rw [← hm1]
      have hs : SameInput ms m1 ∧ m1.buffer = ms.buffer ∧ m1.lastBlockIdx = ms.lastBlockIdx ∧
          m1.blocksRead = ms.blocksRead := by
        rw [hm1]; split
        · exact ⟨⟨rfl, rfl, rfl, rfl, rfl, rfl⟩, rfl, rfl, rfl⟩
        · exact ⟨SameInput.same_self ms, rfl, rfl, rfl⟩
      obtain ⟨a1, a2, a3, a4, a5⟩ := ih (j + 1) m1 { metric with num_compar := metric.num_compar + 1 }
      refine ⟨hs.1.same_seq a1, a2.trans hs.2.1, a3.trans hs.2.2.1, a4.trans hs.2.2.2, ?_⟩
      rw [a5, hs.1.num_records, hs.1.records_per_block]
      simp only [metrics_t.mk.injEq, and_true, true_and]
      omega
    · rw [if_neg hc]
      refine ⟨SameInput.same_self ms, rfl, rfl, rfl, ?_⟩
      have : ms.num_records - (i * ms.records_per_block + j) = 0 := by omega
      rw [this]; simp

theorem initPage_metric (es : external_sort_t) (p : MinSortState × metrics_t) (i : Nat) :
    SameInput p.1 (initPage es p i).1 ∧ (initPage es p i).1.lastBlockIdx = i ∧
    (initPage es p i).1.blocksRead = p.1.blocksRead + 1 ∧
    (initPage es p i).2 = { p.2 with num_reads := p.2.num_reads + 1, num_compar :=
      (p.2.num_compar + min p.1.records_per_block
        (p.1.num_records - i * p.1.records_per_block)) } := by
  unfold initPage
  simp only []
  obtain ⟨a1, a2, a3, a4, a5⟩ := initSlots_same es i
    (i / (readPage p.1 i es p.2).1.blocks_per_region)
    (readPage p.1 i es p.2).1.records_per_block 0 (readPage p.1 i es p.2).1
    (readPage p.1 i es p.2).2
  have hs : SameInput p.1 (readPage p.1 i es p.2).1 := ⟨rfl, rfl, rfl, rfl, rfl, rfl⟩
  refine ⟨hs.same_seq a1, a3, a4, ?_⟩
  rw [a5]
  rfl

theorem initPage_min_of_no_slots (es : external_sort_t) (p : MinSortState × metrics_t) (i : Nat)
    (hR : p.1.records_per_block = 0) : (initPage es p i).1.min = p.1.min := by
  unfold initPage
  simp only []
  have : (readPage p.1 i es p.2).1.records_per_block = 0 := hR
  rw [this]
  rfl

theorem initLoop_metric (es : external_sort_t) (m0 : MinSortState) (mt0 : metrics_t) :
    ∀ n, SameInput m0 ((List.range n).foldl (initPage es) (m0, mt0)).1 ∧
      ((List.range n).foldl (initPage es) (m0, mt0)).1.blocksRead = m0.blocksRead + n ∧
      (0 < n → ((List.range n).foldl (initPage es) (m0, mt0)).1.lastBlockIdx = n - 1) ∧
      (m0.records_per_block = 0 →
        ((List.range n).foldl (initPage es) (m0, mt0)).1.min = m0.min) ∧
      ((List.range n).foldl (initPage es) (m0, mt0)).2
        = { mt0 with num_reads := mt0.num_reads + n, num_compar :=
            (mt0.num_compar + min m0.num_records (n * m0.records_per_block)) } := by
  intro n
  induction n with
  | zero =>
    refine ⟨SameInput.same_self m0, rfl, fun h => absurd h (by decide), fun _ => rfl, ?_⟩
    simp
  | succ n ih =>
    rw [List.range_succ, List.foldl_append]
    simp only [List.foldl_cons, List.foldl_nil]
    obtain ⟨b1, b2, b3, b4, b5⟩ := ih
    obtain ⟨a1, a2, a3, a4⟩ :=
      initPage_metric es ((List.range n).foldl (initPage es) (m0, mt0)) n
    refine ⟨b1.same_seq a1, by rw [a3, b2]; omega, fun _ => a2, ?_, ?_⟩
    · intro hR
      rw [initPage_min_of_no_slots es _ n (by rw [b1.records_per_block]; exact hR)]
      exact b4 hR
    · rw [a4, b5, b1.records_per_block, b1.num_records, Nat.succ_mul]
      simp only [metrics_t.mk.injEq, and_true, true_and]
      refine ⟨by omega, ?_⟩
      omega

theorem initScan_some (is : file_iterator_state_t) (buffer : List test_record_t) (M : Nat)
    (es : external_sort_t) (hP1 : 1 ≤ es.num_pages) (hP : es.num_pages < 16777216)
    (hM1 : SORT_KEY_SIZE ≤ M) (hM : M < 4294967296) :
    ∃ m0 : MinSortState,
      (∀ n, initScan (initialState is buffer M) es n
        = some ((List.range n).foldl (initPage es) (m0, ⟨0, 0, 0, 0⟩))) ∧
      m0.records_per_block = recordsPerPage es ∧ m0.num_records = is.totalRecords ∧
      m0.blocksRead = 0 ∧ m0.blocks_per_region = ceilDiv es.num_pages (M / SORT_KEY_SIZE) ∧
      m0.numRegions = ceilDiv es.num_pages (ceilDiv es.num_pages (M / SORT_KEY_SIZE)) ∧
      m0.min = List.replicate m0.numRegions INT_MAX ∧ m0.nextIdx = 0 ∧
      m0.iteratorState = is ∧ m0.numBlocks = es.num_pages := by
  have hj1 : 1 ≤ M / SORT_KEY_SIZE := by
    unfold SORT_KEY_SIZE at hM1 ⊢
    omega
  have hj2 : M / SORT_KEY_SIZE < 4294967296 := by
    unfold SORT_KEY_SIZE
    omega
  have hB1 := ceilDiv_pos hP1 hj1
  have hB2 : ceilDiv es.num_pages (M / SORT_KEY_SIZE) ≤ es.num_pages := ceilDiv_le hj1
  have e1 : ceilFloatDiv es.num_pages (M / SORT_KEY_SIZE)
      = some (ceilDiv es.num_pages (M / SORT_KEY_SIZE)) :=
    ceilFloatDiv_exact _ _ hP1 hP hj1 hj2
  have e2 : ceilFloatDiv es.num_pages (ceilDiv es.num_pages (M / SORT_KEY_SIZE))
      = some (ceilDiv es.num_pages (ceilDiv es.num_pages (M / SORT_KEY_SIZE))) :=
    ceilFloatDiv_exact _ _ hP1 hP hB1 (by omega)
  unfold initScan initialState
  simp only [e1, e2]
  exact ⟨_, fun n => rfl, rfl, rfl, rfl, rfl, rfl, rfl, rfl, rfl, rfl⟩

theorem length_filter_range_lt (R c : Nat) :
    ((List.range R).filter (fun j => decide (j < c))).length = min R c := by
  induction R with
  | zero => simp
  | succ R ih =>
    rw [List.range_succ, List.filter_append, List.length_append, ih]
    by_cases h : R < c
    · simp [List.filter, h]; omega
    · simp [List.filter, h]; omega

theorem validSlots_length (R N i : Nat) :
    ((List.range R).filter (fun j => decide (i * R + j < N))).length = min R (N - i * R) := by
  rw [← length_filter_range_lt]
  congr 1
  apply List.filter_congr
  intro j _
  simp only [decide_eq_decide]
  omega

/-- C19: on every valid input init_MinSort reads the pages 0 .. P - 1 once each in
increasing order (iteration i of its page loop reads page i as read number i + 1) and
compares exactly the valid slots of each page (slots j with i * R + j < N), so that on
return num_reads = P and num_compar = N. -/
theorem init_MinSort_reads_and_comparisons {is : file_iterator_state_t} {M : Nat}
    {es : external_sort_t} (hv : ValidInput is M es) (buffer : List test_record_t)
    (metric : metrics_t) :
    ∃ m mt, init_MinSort (initialState is buffer M) es metric = some (m, mt) ∧
      mt.num_reads = es.num_pages ∧ mt.num_compar = is.totalRecords ∧
      m.blocksRead = es.num_pages ∧
      ∀ i, i < es.num_pages → ∃ p,
        initScan (initialState is buffer M) es i = some p ∧
        initScan (initialState is buffer M) es (i + 1) = some (initPage es p i) ∧
        p.2.num_reads = i ∧ (initPage es p i).2.num_reads = i + 1 ∧
        (initPage es p i).1.lastBlockIdx = i ∧
        (initPage es p i).2.num_compar = p.2.num_compar +
          ((List.range (recordsPerPage es)).filter
            (fun j => decide (i * recordsPerPage es + j < is.totalRecords))).length := by
  obtain ⟨m0, h1, h2, h3, h4, _, _, _, _, _, _⟩ :=
    initScan_some is buffer M es hv.P_pos hv.P_lt hv.M_ge hv.M_lt
  have hfin := init_MinSort_eq_scan (initialState is buffer M) es metric
  rw [h1 es.num_pages] at hfin
  obtain ⟨a1, a2, _, _, a5⟩ := initLoop_metric es m0 ⟨0, 0, 0, 0⟩ es.num_pages
  refine ⟨_, _, hfin, ?_, ?_, ?_, ?_⟩
  · show ((List.range es.num_pages).foldl (initPage es) (m0, ⟨0, 0, 0, 0⟩)).2.num_reads = _
    rw [a5]; simp
  · show ((List.range es.num_pages).foldl (initPage es) (m0, ⟨0, 0, 0, 0⟩)).2.num_compar = _
    rw [a5, h2, h3]
    have := hv.N_le
    simp only [Nat.zero_add]
    omega
  · show ((List.range es.num_pages).foldl (initPage es) (m0, ⟨0, 0, 0, 0⟩)).1.blocksRead = _
    rw [a2, h4]; omega
  · intro i _
    refine ⟨_, h1 i, ?_, ?_, ?_, ?_, ?_⟩
    · rw [h1 (i + 1), List.range_succ, List.foldl_append]
      rfl
    · rw [(initLoop_metric es m0 ⟨0, 0, 0, 0⟩ i).2.2.2.2]; simp
    · rw [(initPage_metric es _ i).2.2.2, (initLoop_metric es m0 ⟨0, 0, 0, 0⟩ i).2.2.2.2]; simp
    · exact (initPage_metric es _ i).2.1
    · rw [(initPage_metric es _ i).2.2.2, validSlots_length,
        (initLoop_metric es m0 ⟨0, 0, 0, 0⟩ i).1.records_per_block,
        (initLoop_metric es m0 ⟨0, 0, 0, 0⟩ i).1.num_records, h2, h3]

theorem init_MinSort_reads_and_comparisons_witness :
    ValidInput exampleInput 4 exampleSort ∧
    ∃ m mt, init_MinSort (initialState exampleInput [] 4) exampleSort ⟨0, 0, 0, 0⟩
        = some (m, mt) ∧
      mt.num_reads = 2 ∧ mt.num_compar = 3 ∧ m.blocksRead = 2 := by
  obtain ⟨m, mt, h1, h2, h3, h4, _⟩ :=
    init_MinSort_reads_and_comparisons exampleInput_valid [] ⟨0, 0, 0, 0⟩
  exact ⟨exampleInput_valid, m, mt, h1, h2, h3, h4⟩

/-- C11 (the code at the failing input): on the valid input of two pages of two slots
with three valid records and all writes succeeding, flash_minsort returns 0 and has
written two output pages, but the counter num_writes is 0. -/
theorem flash_minsort_num_writes_stays_zero :
    ValidInput exampleInput 4 exampleSort ∧
    (flash_minsort 4 exampleInput [] (fun _ => ⟨0, 0⟩) 4 exampleSort ⟨0, 0, 0, 0⟩
        (fun _ => true)).map
      (fun r => (r.status, r.outputFile.length, r.metric.num_writes)) = some (0, 2, 0) :=
  ⟨exampleInput_valid, by decide⟩

set_option maxRecDepth 8192 in
theorem ceilFloatDiv_large_first :
    ceilFloatDiv largeSort.num_pages (4 / SORT_KEY_SIZE) = some 16777216 := by decide

set_option maxRecDepth 8192 in
theorem ceilFloatDiv_large_second : ceilFloatDiv largeSort.num_pages 16777216 = some 1 := by
  decide

theorem initScan_of_ceil (ms : MinSortState) (es : external_sort_t) (b g : Nat)
    (h1 : ceilFloatDiv es.num_pages (ms.memoryAvailable / SORT_KEY_SIZE) = some b)
    (h2 : ceilFloatDiv es.num_pages b = some g) :
    ∃ m0 : MinSortState,
      (∀ n, initScan ms es n = some ((List.range n).foldl (initPage es) (m0, ⟨0, 0, 0, 0⟩))) ∧
      m0.blocks_per_region = b ∧ m0.numRegions = g ∧ m0.numBlocks = es.num_pages := by
  unfold initScan
  simp only [h1, h2]
  exact ⟨_, fun n => rfl, rfl, rfl, rfl⟩

/-- C13 (the code at the failing input): with P = 2^24 + 1 pages and a budget of M = K = 4
bytes, init_MinSort sets blocks_per_region to 2^24 and numRegions to 1, whereas
ceil(P / floor(M / K)) = 2^24 + 1; the last page, number 2^24, then maps to region
index 1, which is not below numRegions. -/
theorem init_MinSort_float_regions (is : file_iterator_state_t) (buffer : List test_record_t)
    (metric : metrics_t) :
    ∃ m mt, init_MinSort (initialState is buffer 4) largeSort metric = some (m, mt) ∧
      m.numBlocks = largeSort.num_pages ∧ largeSort.num_pages = 16777217 ∧
      m.blocks_per_region = 16777216 ∧ m.numRegions = 1 ∧
      ceilDiv largeSort.num_pages (4 / SORT_KEY_SIZE) = 16777217 ∧
      16777216 / m.blocks_per_region = 1 := by
  obtain ⟨m0, h1, h2, h3, h4⟩ := initScan_of_ceil (initialState is buffer 4) largeSort
    16777216 1 ceilFloatDiv_large_first ceilFloatDiv_large_second
  have a1 := (initLoop_metric largeSort m0 ⟨0, 0, 0, 0⟩ largeSort.num_pages).1
  rw [init_MinSort_eq_scan, h1 largeSort.num_pages]
  obtain ⟨q, hq⟩ : ∃ q, q = (List.range largeSort.num_pages).foldl (initPage largeSort)
    (m0, ⟨0, 0, 0, 0⟩) := ⟨_, rfl⟩
  rw [← hq] at a1 ⊢
  have b1 : (initFinish q).1.numBlocks = q.1.numBlocks := rfl
  have b2 : (initFinish q).1.blocks_per_region = q.1.blocks_per_region := rfl
  have b3 : (initFinish q).1.numRegions = q.1.numRegions := rfl
  have c1 : largeSort.num_pages = 16777217 := rfl
  have c2 : ceilDiv largeSort.num_pages (4 / SORT_KEY_SIZE) = 16777217 := by decide
  refine ⟨(initFinish q).1, (initFinish q).2, rfl, ?_, c1, ?_, ?_, c2, ?_⟩
  · rw [b1, a1.numBlocks, h4]
  · rw [b2, a1.blocks_per_region, h2]
  · rw [b3, a1.numRegions, h3]
  · rw [b2, a1.blocks_per_region, h2]

theorem ceilDiv_le_of_le_mul {a b c : Nat} (hb : 1 ≤ b) (h : a ≤ c * b) : ceilDiv a b ≤ c := by
  unfold ceilDiv
  apply Nat.le_of_lt_succ
  rw [Nat.div_lt_iff_lt_mul (by omega), Nat.succ_mul]
  omega

/-- Within the range where the single-precision quotient is exact (P < 2^24) the region
geometry of init_MinSort is the one of the specification. -/
theorem init_MinSort_regions_exact {is : file_iterator_state_t} {M : Nat}
    {es : external_sort_t} (hv : ValidInput is M es) (buffer : List test_record_t)
    (metric : metrics_t) :
    ∃ m mt, init_MinSort (initialState is buffer M) es metric = some (m, mt) ∧
      m.blocks_per_region = ceilDiv es.num_pages (M / SORT_KEY_SIZE) ∧
      m.numRegions = ceilDiv es.num_pages m.blocks_per_region ∧
      1 ≤ m.numRegions ∧ m.numRegions ≤ M / SORT_KEY_SIZE ∧ m.min.length = m.numRegions ∧
      (∀ i, i < es.num_pages → i / m.blocks_per_region < m.numRegions) ∧
      (M = SORT_KEY_SIZE → m.numRegions = 1 ∧ m.blocks_per_region = es.num_pages) := by
  obtain ⟨m, mt, j1, j2, _, _, _, _, j7, j8, _⟩ := init_MinSort_spec hv buffer metric
  have hj1 : 1 ≤ M / SORT_KEY_SIZE := by
    have := hv.M_ge
    unfold SORT_KEY_SIZE at this ⊢
    omega
  have hB1 := ceilDiv_pos hv.P_pos hj1
  have hG1 := ceilDiv_pos hv.P_pos hB1
  have hPB := le_ceilDiv_mul (a := es.num_pages) hj1
  have hPG := le_ceilDiv_mul (a := es.num_pages) hB1
  refine ⟨m, mt, j1, j7, by rw [j8, j7], by rw [j8]; exact hG1, ?_, j2.min_len, ?_, ?_⟩
  · rw [j8]
    exact ceilDiv_le_of_le_mul hB1 (by rw [Nat.mul_comm]; exact hPB)
  · intro i hi
    rw [j7, j8, Nat.div_lt_iff_lt_mul hB1]
    omega
  · intro hM
    have hj : M / SORT_KEY_SIZE = 1 := by rw [hM]; rfl
    have hB : ceilDiv es.num_pages 1 = es.num_pages := by unfold ceilDiv; simp
    have hP := hv.P_pos
    rw [j8, j7, hj, hB]
    refine ⟨?_, rfl⟩
    unfold ceilDiv
    apply Nat.div_eq_of_lt_le <;> omega

theorem getD_replicate_of_lt (n i a d : Nat) (h : i < n) :
    (List.replicate n a).getD i d = a := by
  simp [List.getD_eq_getElem?_getD, List.getElem?_replicate, h]

theorem next_MinSort_null_of_sentinels (ms : MinSortState) (es : external_sort_t)
    (tb : test_record_t) (metric : metrics_t) (h0 : ms.nextIdx = 0)
    (hall : ∀ r, r < ms.numRegions → ms.min.getD r 0 = INT_MAX) :
    ∃ m1 mt1, next_MinSort ms es tb metric = (m1, mt1, none) := by
  obtain ⟨c, ri, mt, hsel, hcase⟩ := selectRegion_spec ms metric
  rw [next_MinSort_eq, if_pos h0, hsel]
  rcases hcase with ⟨a1, _, _⟩ | ⟨a1, a2, a3, _, _⟩
  · rw [if_pos ⟨h0, a1⟩]
    exact ⟨_, _, rfl⟩
  · rw [hall ri a1] at a2
    omega

/-- C14 (as stated, refuted): with pages too small for one record (page_size 10,
header 6, record 8) init_MinSort still reads the page and flash_minsort reports
success. -/
theorem configuration_errors_not_reported :
    ¬ RefusesBadConfiguration tinyPageInput 4 tinyPageSort := by
  intro h
  have h1 := (h (Or.inr (Or.inl (by decide))) [] (fun _ => ⟨0, 0⟩) ⟨0, 0, 0, 0⟩
    (fun _ => true) 1).1
  have e : (init_MinSort (initialState tinyPageInput [] 4) tinyPageSort ⟨0, 0, 0, 0⟩).map
      (fun p => p.2.num_reads) = some 1 := by decide
  cases hi : init_MinSort (initialState tinyPageInput [] 4) tinyPageSort ⟨0, 0, 0, 0⟩ with
  | none => rw [hi] at e; exact absurd e (by decide)
  | some p =>
    have h2 := h1 p.1 p.2 hi
    rw [hi] at e
    have e2 : p.2.num_reads = 1 := Option.some.inj e
    omega

/-- C14 (amended): init_MinSort makes no configuration check and reports nothing. With a
budget below one key its region computation divides by zero and is undefined. With a
budget of at least one key and pages too small for one record (R = 0) it reads all P
pages, compares no key, the first next_MinSort call returns NULL, and flash_minsort
returns 0 with an empty output file. -/
theorem init_MinSort_scans_without_checks (is : file_iterator_state_t) (M : Nat)
    (es : external_sort_t) (buffer : List test_record_t) (outputBuffer : Nat → test_record_t)
    (metric : metrics_t) (tupleBuffer : test_record_t) (writeOk : Nat → Bool) :
    (M < SORT_KEY_SIZE → init_MinSort (initialState is buffer M) es metric = none) ∧
    (1 ≤ es.num_pages → es.num_pages < 16777216 → SORT_KEY_SIZE ≤ M → M < 4294967296 →
      es.headerSize ≤ es.page_size → 1 ≤ es.record_size →
      es.page_size < es.headerSize + es.record_size →
      ∃ m mt, init_MinSort (initialState is buffer M) es metric = some (m, mt) ∧
        mt.num_reads = es.num_pages ∧ mt.num_compar = 0 ∧
        (next_MinSort m es tupleBuffer mt).2.2 = none ∧
        ∀ fuel, 0 < fuel →
          ∃ res, flash_minsort fuel is buffer outputBuffer M es metric writeOk = some res ∧
            res.status = 0 ∧ res.resultFilePtr = some 0 ∧ res.outputFile = []) := by
  constructor
  · intro hM
    have hj : M / SORT_KEY_SIZE = 0 := Nat.div_eq_of_lt hM
    unfold init_MinSort initialState
    simp only [hj]
    rfl
  · intro hP1 hP hM1 hM hH hr hsmall
    have hR : recordsPerPage es = 0 := by
      unfold recordsPerPage
      exact Nat.div_eq_of_lt (by omega)
    obtain ⟨m0, h1, h2, h3, _, _, h6, h7, h8, _, _⟩ := initScan_some is buffer M es hP1 hP hM1 hM
    have hfin := init_MinSort_eq_scan (initialState is buffer M) es metric
    rw [h1 es.num_pages] at hfin
    obtain ⟨a1, _, _, a4, a5⟩ := initLoop_metric es m0 ⟨0, 0, 0, 0⟩ es.num_pages
    obtain ⟨q, hq⟩ : ∃ q, q = (List.range es.num_pages).foldl (initPage es)
      (m0, ⟨0, 0, 0, 0⟩) := ⟨_, rfl⟩
    rw [← hq] at hfin a1 a4 a5
    have hmin : (initFinish q).1.min = List.replicate m0.numRegions INT_MAX := by
      show q.1.min = _
      rw [a4 (h2.trans hR), h7]
    have hall : ∀ r, r < (initFinish q).1.numRegions → (initFinish q).1.min.getD r 0 = INT_MAX := by
      intro r hr
      have hr : r < m0.numRegions := by rw [← a1.numRegions]; exact hr
      rw [hmin]
      exact getD_replicate_of_lt _ _ _ _ hr
    have hnull : ∀ tb, ∃ m1 mt1,
        next_MinSort (initFinish q).1 es tb (initFinish q).2 = (m1, mt1, none) :=
      fun tb => next_MinSort_null_of_sentinels _ es tb _ rfl hall
    refine ⟨(initFinish q).1, (initFinish q).2, hfin, ?_, ?_, ?_, ?_⟩
    · show q.2.num_reads = _
      rw [a5]; simp
    · show q.2.num_compar = _
      rw [a5, h2, hR]; simp
    · obtain ⟨m1, mt1, e⟩ := hnull tupleBuffer
      rw [e]
    · intro fuel hf
      obtain ⟨f, rfl⟩ : ∃ f, fuel = f + 1 := ⟨fuel - 1, by omega⟩
      obtain ⟨m1, mt1, e⟩ := hnull (outputBuffer 0)
      have hfin2 : init_MinSort (initialState is buffer M) es metric
          = some ((initFinish q).1, (initFinish q).2) := hfin
      unfold flash_minsort
      rw [hfin2]
      simp only []
      unfold writeLoop
      simp only [e]
      exact ⟨_, rfl, rfl, rfl, rfl⟩

theorem init_MinSort_scans_without_checks_witness :
    init_MinSort (initialState tinyPageInput [] 3) tinyPageSort ⟨0, 0, 0, 0⟩ = none ∧
    ∃ m mt, init_MinSort (initialState tinyPageInput [] 4) tinyPageSort ⟨0, 0, 0, 0⟩
        = some (m, mt) ∧
      mt.num_reads = tinyPageSort.num_pages ∧ mt.num_compar = 0 ∧
      (next_MinSort m tinyPageSort ⟨0, 0⟩ mt).2.2 = none ∧
      ∀ fuel, 0 < fuel →
        ∃ res, flash_minsort fuel tinyPageInput [] (fun _ => ⟨0, 0⟩) 4 tinyPageSort
            ⟨0, 0, 0, 0⟩ (fun _ => true) = some res ∧
          res.status = 0 ∧ res.resultFilePtr = some 0 ∧ res.outputFile = [] :=
  ⟨(init_MinSort_scans_without_checks tinyPageInput 3 tinyPageSort [] (fun _ => ⟨0, 0⟩)
      ⟨0, 0, 0, 0⟩ ⟨0, 0⟩ (fun _ => true)).1 (by decide),
   (init_MinSort_scans_without_checks tinyPageInput 4 tinyPageSort [] (fun _ => ⟨0, 0⟩)
      ⟨0, 0, 0, 0⟩ ⟨0, 0⟩ (fun _ => true)).2 (by decide) (by decide) (by decide) (by decide)
      (by decide) (by decide) (by decide)⟩

/-- What a call of drainStep leaves behind, from a state armed at slot `gs`: the region
and `current` are kept; either no later valid slot of the region holds `current`, the
position hint is 0 and the region minimum becomes `next`, the smallest key above
`current` in the region (or the sentinel); or the hint is the region-local position of
the first later slot holding `current` and the minima are unchanged. -/
theorem drainStep_cases {ms : MinSortState} {ps : List Nat} {gs : Nat} (h : Armed ms ps gs)
    (es : external_sort_t) (tb : test_record_t) (metric : metrics_t) :
    ∃ ms1 mt1, drainStep ms es tb metric = (ms1, mt1, some (recAt ms gs)) ∧
      ms1.regionIdx = ms.regionIdx ∧ ms1.current = ms.current ∧
      ms.current < ms1.next ∧ ms1.next ≤ INT_MAX ∧
      (ms1.next < INT_MAX → ∃ g, regionStart ms ms.regionIdx ≤ g ∧
        g < regionStart ms ms.regionIdx + ms.blocks_per_region * ms.records_per_block ∧
        g < ms.num_records ∧ ukey ms g = ms1.next) ∧
      ((ms1.nextIdx = 0 ∧ ms1.min = ms.min.set ms.regionIdx ms1.next ∧
        (∀ g, gs + 1 ≤ g →
          g < regionStart ms ms.regionIdx + ms.blocks_per_region * ms.records_per_block →
          g < ms.num_records → ukey ms g ≠ ms.current) ∧
        (∀ g, regionStart ms ms.regionIdx ≤ g →
          g < regionStart ms ms.regionIdx + ms.blocks_per_region * ms.records_per_block →
          g < ms.num_records → ms.current < ukey ms g → ms1.next ≤ ukey ms g)) ∨
       (ms1.nextIdx ≠ 0 ∧ ms1.min = ms.min ∧
        gs + 1 ≤ regionStart ms ms.regionIdx + ms1.nextIdx ∧
        regionStart ms ms.regionIdx + ms1.nextIdx
          < regionStart ms ms.regionIdx + ms.blocks_per_region * ms.records_per_block ∧
        regionStart ms ms.regionIdx + ms1.nextIdx < ms.num_records ∧
        ukey ms (regionStart ms ms.regionIdx + ms1.nextIdx) = ms.current ∧
        (∀ g, gs + 1 ≤ g → g < regionStart ms ms.regionIdx + ms1.nextIdx →
          g < ms.num_records → ukey ms g ≠ ms.current) ∧
        (∀ g, regionStart ms ms.regionIdx ≤ g →
          g < regionStart ms ms.regionIdx + ms1.nextIdx →
          g < ms.num_records → ms.current < ukey ms g → ms1.next ≤ ukey ms g))) := by
  unfold drainStep
  simp only []
  generalize hr : searchRegion es (ms.regionIdx * ms.blocks_per_region) ms.nextIdx tb
    (ms.blocks_per_region - ms.nextIdx / ms.records_per_block)
    (ms.nextIdx / ms.records_per_block) 0 ms metric = r
  obtain ⟨f1, f2, f3, f4, f5, f6, f7, f8, f9, f10⟩ := search_of_armed h es tb metric r hr
  obtain ⟨m2, hm2⟩ : ∃ m2 : MinSortState, { r.ms with nextIdx := 0 } = m2 := ⟨_, rfl⟩
  rw [hm2]
  have g1 : Frame ms m2 := by
    subst hm2
    exact ⟨f3.1, f3.2, f3.3, f3.4, f3.5, f3.6, f3.7, f3.8, f3.9⟩
  have g2 : Coherent m2 := by subst hm2; exact f4
  have g3 : m2.nextIdx = 0 := by subst hm2; rfl
  have g4 : m2.next = r.ms.next := by subst hm2; rfl
  have g5 : m2.lastBlockIdx = ms.regionIdx * ms.blocks_per_region + r.k := by
    subst hm2; exact f5
  have g6 : Scanned ms m2 (regionStart ms ms.regionIdx + ms.nextIdx) gs :=
    ⟨f10.noHit, by rw [g4]; exact f10.next_le, by rw [g4]; exact f10.next_lb,
     by rw [g4]; exact f10.next_from⟩
  have hR := g1.records_per_block
  have hB := g1.blocks_per_region
  have hN := g1.num_records
  rw [f3.blocks_per_region]
  generalize hq : scanRest es (ms.regionIdx * ms.blocks_per_region)
    (ms.blocks_per_region - r.k) r.k r.i m2 r.metric = q
  obtain ⟨q1, q2, q3⟩ := scanRest_spec es _ _ _ _ _ _ q hq (by rw [hB]; omega)
    (by rw [hN, g1.iteratorState, hR]; exact h.file_len) g2 g3 r.i
    (by rw [g5]; simp) (by rw [hR]; exact f8) (by rw [hR]; omega)
  simp only [hR, hN, g1.ukey_eq, g1.current] at q3
  have ehi : (ms.regionIdx * ms.blocks_per_region + (r.k + (ms.blocks_per_region - r.k)))
      * ms.records_per_block
      = regionStart ms ms.regionIdx + ms.blocks_per_region * ms.records_per_block := by
    have : r.k + (ms.blocks_per_region - r.k) = ms.blocks_per_region := by omega
    rw [this, Nat.add_mul]; rfl
  rw [f9, ehi] at q3
  have hfq := g1.seq q1
  -- what the two scans together say about `next`
  have hgs := h.gs_ge
  have hnle : q.1.next ≤ ms.next := by
    rcases q3 with ⟨_, s⟩ | ⟨_, g, _, _, _, _, _, s⟩
    · exact le_trans s.next_le g6.next_le
    · exact le_trans s.next_le g6.next_le
  have hnle' : q.1.next ≤ INT_MAX := le_trans hnle h.next_le
  have key : ∀ hi, Scanned m2 q.1 (gs + 1) hi →
      hi ≤ regionStart ms ms.regionIdx + ms.blocks_per_region * ms.records_per_block →
      ms.current < q.1.next ∧
      (q.1.next < INT_MAX → ∃ g, regionStart ms ms.regionIdx ≤ g ∧
        g < regionStart ms ms.regionIdx + ms.blocks_per_region * ms.records_per_block ∧
        g < ms.num_records ∧ ukey ms g = q.1.next) ∧
      (∀ g, regionStart ms ms.regionIdx ≤ g → g < hi → g < ms.num_records →
        ms.current < ukey ms g → q.1.next ≤ ukey ms g) ∧
      (∀ g, gs + 1 ≤ g → g < hi → g < ms.num_records → ukey ms g ≠ ms.current) := by
    intro hi s hhi
    have sno := s.noHit
    have slb := s.next_lb
    have sfrom := s.next_from
    rw [hN] at sno slb sfrom
    simp only [g1.ukey_eq, g1.current] at sno slb sfrom
    have hfrom : q.1.next = ms.next ∨ (ms.current < q.1.next ∧
        ∃ g, regionStart ms ms.regionIdx ≤ g ∧
          g < regionStart ms ms.regionIdx + ms.blocks_per_region * ms.records_per_block ∧
          g < ms.num_records ∧ ukey ms g = q.1.next) := by
      rcases sfrom with e | ⟨a1, g, a2, a3, a4, a5⟩
      · rcases g6.next_from with e' | ⟨b1, g, b2, b3, b4, b5⟩
        · exact Or.inl (e.trans e')
        · right
          rw [e]
          exact ⟨b1, g, by omega, by have := h.gs_lt; omega, b4, b5⟩
      · exact Or.inr ⟨a1, g, by omega, by omega, a4, a5⟩
    refine ⟨?_, ?_, ?_, sno⟩
    · rcases hfrom with e | ⟨a, _⟩
      · rw [e]; exact h.next_gt
      · exact a
    · intro hlt
      rcases hfrom with e | ⟨_, a⟩
      · rw [e] at hlt ⊢; exact h.next_wit hlt
      · exact a
    · intro g a1 a2 a3 a4
      by_cases c1 : g < regionStart ms ms.regionIdx + ms.nextIdx
      · exact le_trans hnle (h.next_lb g a1 c1 a3 a4)
      · by_cases c2 : g < gs
        · exact le_trans s.next_le (g6.next_lb g (by omega) c2 a3 a4)
        · by_cases c3 : g = gs
          · subst c3; rw [h.gs_hit] at a4; omega
          · exact slb g (by omega) a2 a3 a4
  rcases q3 with ⟨n0, s⟩ | ⟨n1, g, a1, a2, a3, a4, a5, s⟩
  · obtain ⟨k1, k2, k3, k4⟩ := key _ s (le_refl _)
    rw [if_pos n0]
    refine ⟨{ q.1 with min := q.1.min.set q.1.regionIdx q.1.next }, q.2, by rw [f2],
      hfq.regionIdx, hfq.current, k1, hnle', k2, Or.inl ⟨n0, ?_, k4, k3⟩⟩
    show q.1.min.set q.1.regionIdx q.1.next = _
    rw [hfq.min, hfq.regionIdx]
  · obtain ⟨k1, k2, k3, k4⟩ := key _ s (by omega)
    rw [if_neg n1]
    have a5' : regionStart ms ms.regionIdx + q.1.nextIdx = g := a5
    refine ⟨q.1, q.2, by rw [f2], hfq.regionIdx, hfq.current, k1, hnle', k2,
      Or.inr ⟨n1, hfq.min, ?_, ?_, ?_, ?_, ?_, ?_⟩⟩
    · rw [a5']; exact a1
    · rw [a5']; exact a2
    · rw [a5']; exact a3
    · rw [a5']; exact a4
    · rw [a5']; exact k4
    · rw [a5']; exact k3

theorem searchSlots_reads (es : external_sort_t) (k curBlk : Nat) (tb : test_record_t) :
    ∀ (n i : Nat) (ms : MinSortState) (metric : metrics_t) (r : SearchResult),
      searchSlots es k curBlk tb n i ms metric = r →
      r.metric.num_reads = metric.num_reads ∧ r.ms.lastBlockIdx = ms.lastBlockIdx ∧ r.k = k := by
  intro n
  induction n with
  | zero =>
    intro i ms metric r hr
    simp only [searchSlots] at hr
    subst hr
    exact ⟨rfl, rfl, rfl⟩
  | succ n ih =>
    intro i ms metric r hr
    rw [searchSlots] at hr
    split at hr
    · subst hr
      exact ⟨rfl, rfl, rfl⟩
    · simp only [] at hr
      split at hr
      · subst hr
        exact ⟨rfl, rfl, rfl⟩
      · obtain ⟨h1, h2, h3⟩ := ih (i + 1) (bump ms (toUnsigned (getValue ms i es))) _ r hr
        exact ⟨h1, h2.trans (bump_lastBlockIdx _ _), h3⟩

theorem restSlots_reads (es : external_sort_t) (k curBlk : Nat) :
    ∀ (n i : Nat) (ms : MinSortState) (metric : metrics_t) (r : RestResult),
      restSlots es k curBlk n i ms metric = r →
      r.metric.num_reads = metric.num_reads ∧ r.ms.lastBlockIdx = ms.lastBlockIdx ∧
      r.ms.records_per_block = ms.records_per_block ∧
      (r.found = true → r.ms.nextIdx = k * ms.records_per_block + r.i ∧ i ≤ r.i ∧ r.i < i + n) ∧
      (r.found = false → ms.nextIdx = 0 → r.ms.nextIdx = 0) := by
  intro n
  induction n with
  | zero =>
    intro i ms metric r hr
    simp only [restSlots] at hr
    subst hr
    exact ⟨rfl, rfl, rfl, by simp, fun _ h => h⟩
  | succ n ih =>
    intro i ms metric r hr
    rw [restSlots] at hr
    split at hr
    · subst hr
      exact ⟨rfl, rfl, rfl, by simp, fun _ h => h⟩
    · simp only [] at hr
      split at hr
      · subst hr
        exact ⟨rfl, rfl, rfl, fun _ => ⟨rfl, le_refl _, by show i < i + (n + 1); omega⟩, by simp⟩
      · obtain ⟨h1, h2, h3, h4, h5⟩ :=
          ih (i + 1) (bump ms (toUnsigned (getValue ms i es))) _ r hr
        have hfr := bump_frame ms (toUnsigned (getValue ms i es))
        rw [hfr.records_per_block] at h3 h4
        refine ⟨h1, h2.trans (bump_lastBlockIdx _ _), h3, fun hf => ?_, fun hf h0 => ?_⟩
        · obtain ⟨a, b, c⟩ := h4 hf
          exact ⟨a, by omega, by omega⟩
        · exact h5 hf (bump_nextIdx _ _ h0)

theorem load_reads (ms : MinSortState) (curBlk : Nat) (es : external_sort_t) (metric : metrics_t)
    (p : MinSortState × metrics_t)
    (hp : (if curBlk ≠ ms.lastBlockIdx then readPage ms curBlk es metric else (ms, metric)) = p) :
    p.1.lastBlockIdx = curBlk ∧ p.1.nextIdx = ms.nextIdx ∧
    p.1.records_per_block = ms.records_per_block ∧
    p.2.num_reads ≤ metric.num_reads + 1 ∧
    (curBlk = ms.lastBlockIdx → p.2.num_reads = metric.num_reads) := by
  by_cases h : curBlk ≠ ms.lastBlockIdx
  · rw [if_pos h] at hp
    subst hp
    exact ⟨rfl, rfl, rfl, le_refl _, fun e => absurd e h⟩
  · rw [if_neg h] at hp
    subst hp
    exact ⟨(not_not.1 h).symm, rfl, rfl, Nat.le_succ _, fun _ => rfl⟩

theorem searchRegion_reads (es : external_sort_t) (startBlk startIndex : Nat)
    (tb : test_record_t) :
    ∀ (n k i : Nat) (ms : MinSortState) (metric : metrics_t) (r : SearchResult),
      searchRegion es startBlk startIndex tb n k i ms metric = r →
      k ≤ r.k ∧ r.metric.num_reads + k ≤ metric.num_reads + r.k + 1 ∧
      (startBlk + k = ms.lastBlockIdx → r.metric.num_reads + k ≤ metric.num_reads + r.k) := by
  intro n
  induction n with
  | zero =>
    intro k i ms metric r hr
    simp only [searchRegion] at hr
    subst hr
    exact ⟨le_refl _, Nat.le_succ _, fun _ => le_refl _⟩
  | succ n ih =>
    intro k i ms metric r hr
    rw [searchRegion] at hr
    generalize hp : (if startBlk + k ≠ ms.lastBlockIdx then readPage ms (startBlk + k) es metric
      else (ms, metric)) = p at hr
    obtain ⟨p1, p2, p3, p4, p5⟩ := load_reads ms (startBlk + k) es metric p hp
    generalize hs : searchSlots es k (startBlk + k) tb
      (p.1.records_per_block - startIndex % p.1.records_per_block)
      (startIndex % p.1.records_per_block) p.1 p.2 = r0 at hr
    obtain ⟨s1, s2, s3⟩ := searchSlots_reads es k (startBlk + k) tb _ _ _ _ r0 hs
    split at hr
    · subst hr
      rw [s3, s1]
      exact ⟨le_refl _, by omega, fun e => by have := p5 e; omega⟩
    · obtain ⟨a1, a2, a3⟩ := ih (k + 1) r0.i r0.ms r0.metric r hr
      rw [s1] at a2
      exact ⟨by omega, by omega, fun e => by have := p5 e; omega⟩

theorem scanRest_reads (es : external_sort_t) (startBlk : Nat) :
    ∀ (n k i : Nat) (ms : MinSortState) (metric : metrics_t) (q : MinSortState × metrics_t),
      scanRest es startBlk n k i ms metric = q → ms.nextIdx = 0 → 0 < ms.records_per_block →
      q.1.records_per_block = ms.records_per_block ∧
      q.2.num_reads ≤ metric.num_reads + n ∧
      (startBlk + k = ms.lastBlockIdx → 0 < n → q.2.num_reads + 1 ≤ metric.num_reads + n) ∧
      (q.1.nextIdx ≠ 0 →
        k ≤ q.1.nextIdx / ms.records_per_block ∧
        q.1.lastBlockIdx = startBlk + q.1.nextIdx / ms.records_per_block ∧
        q.2.num_reads + k ≤ metric.num_reads + q.1.nextIdx / ms.records_per_block + 1 ∧
        (startBlk + k = ms.lastBlockIdx →
          q.2.num_reads + k ≤ metric.num_reads + q.1.nextIdx / ms.records_per_block)) := by
  intro n
  induction n with
  | zero =>
    intro k i ms metric q hq h0 hR
    simp only [scanRest] at hq
    subst hq
    exact ⟨rfl, le_refl _, fun _ h => absurd h (by decide), fun h => absurd h0 h⟩
  | succ n ih =>
    intro k i ms metric q hq h0 hR
    rw [scanRest] at hq
    generalize hp : (if startBlk + k ≠ ms.lastBlockIdx then readPage ms (startBlk + k) es metric
      else (ms, metric)) = p at hq
    obtain ⟨p1, p2, p3, p4, p5⟩ := load_reads ms (startBlk + k) es metric p hp
    generalize hi : (if startBlk + k ≠ ms.lastBlockIdx then 0 else i) = i1 at hq
    generalize hs : restSlots es k (startBlk + k) (p.1.records_per_block - i1) i1 p.1 p.2 = r0
      at hq
    obtain ⟨s1, s2, s3, s4, s5⟩ := restSlots_reads es k (startBlk + k) _ _ _ _ r0 hs
    rw [p3] at s3 s4
    split at hq
    · rename_i hf
      subst hq
      obtain ⟨b1, b2, b3⟩ := s4 hf
      have hk : r0.ms.nextIdx / ms.records_per_block = k := by
        rw [b1]
        apply Nat.div_eq_of_lt_le
        · omega
        · rw [Nat.succ_mul]; omega
      refine ⟨s3, ?_, ?_, fun _ => ?_⟩
      · show r0.metric.num_reads ≤ _
        omega
      · intro e _
        show r0.metric.num_reads + 1 ≤ _
        have := p5 e
        omega
      · show k ≤ r0.ms.nextIdx / ms.records_per_block ∧
          r0.ms.lastBlockIdx = startBlk + r0.ms.nextIdx / ms.records_per_block ∧
          r0.metric.num_reads + k ≤ metric.num_reads + r0.ms.nextIdx / ms.records_per_block + 1 ∧
          (startBlk + k = ms.lastBlockIdx →
            r0.metric.num_reads + k ≤ metric.num_reads + r0.ms.nextIdx / ms.records_per_block)
        rw [hk, s2, p1, s1]
        exact ⟨le_refl _, rfl, by omega, fun e => by have := p5 e; omega⟩
    · rename_i hf
      have hf : r0.found = false := by simpa using hf
      have hn0 : r0.ms.nextIdx = 0 := s5 hf (p2.trans h0)
      obtain ⟨a1, a2, a3, a4⟩ := ih (k + 1) r0.i r0.ms r0.metric q hq hn0 (by rw [s3]; exact hR)
      rw [s3] at a1 a4
      rw [s1] at a2 a4
      refine ⟨a1, by omega, fun e _ => by have := p5 e; omega, fun hne => ?_⟩
      obtain ⟨c1, c2, c3, _⟩ := a4 hne
      refine ⟨by omega, ?_, by omega, fun e => by have := p5 e; omega⟩
      rw [c2]

theorem foldl_select_reads (l : List Nat) :
    ∀ p : MinSortState × metrics_t,
      (l.foldl (fun (p : MinSortState × metrics_t) i =>
        if p.1.min.getD i 0 < p.1.current then
          ({ p.1 with current := p.1.min.getD i 0, regionIdx := i },
            { p.2 with num_compar := p.2.num_compar + 1 })
        else (p.1, { p.2 with num_compar := p.2.num_compar + 1 })) p).2.num_reads
        = p.2.num_reads := by
  induction l with
  | nil => intro p; rfl
  | cons a l ih =>
    intro p
    rw [List.foldl_cons, ih]
    split <;> rfl

theorem selectRegion_reads (ms : MinSortState) (metric : metrics_t) :
    (selectRegion ms metric).2.num_reads = metric.num_reads :=
  foldl_select_reads _ _

/-- Page reads of one drainStep from a state armed at `gs`: with `k0` the page of the
start position and `k1` the page of the new position hint, at most `k1 - k0 + 1` pages
are read when a further occurrence of `current` is found, and at most
`blocks_per_region - k0` otherwise; one read less when the start page is resident. -/
theorem drainStep_reads {ms : MinSortState} {ps : List Nat} {gs : Nat} (h : Armed ms ps gs)
    (es : external_sort_t) (tb : test_record_t) (metric : metrics_t) :
    ((drainStep ms es tb metric).1.nextIdx ≠ 0 →
      ms.nextIdx / ms.records_per_block
        ≤ (drainStep ms es tb metric).1.nextIdx / ms.records_per_block ∧
      (drainStep ms es tb metric).1.lastBlockIdx = ms.regionIdx * ms.blocks_per_region
        + (drainStep ms es tb metric).1.nextIdx / ms.records_per_block ∧
      (drainStep ms es tb metric).2.1.num_reads + ms.nextIdx / ms.records_per_block
        ≤ metric.num_reads + (drainStep ms es tb metric).1.nextIdx / ms.records_per_block + 1 ∧
      (ms.regionIdx * ms.blocks_per_region + ms.nextIdx / ms.records_per_block
          = ms.lastBlockIdx →
        (drainStep ms es tb metric).2.1.num_reads + ms.nextIdx / ms.records_per_block
          ≤ metric.num_reads + (drainStep ms es tb metric).1.nextIdx / ms.records_per_block)) ∧
    ((drainStep ms es tb metric).1.nextIdx = 0 →
      (drainStep ms es tb metric).2.1.num_reads + ms.nextIdx / ms.records_per_block
        ≤ metric.num_reads + ms.blocks_per_region ∧
      (ms.regionIdx * ms.blocks_per_region + ms.nextIdx / ms.records_per_block
          = ms.lastBlockIdx →
        (drainStep ms es tb metric).2.1.num_reads + ms.nextIdx / ms.records_per_block + 1
          ≤ metric.num_reads + ms.blocks_per_region)) := by
  unfold drainStep
  simp only []
  generalize hr : searchRegion es (ms.regionIdx * ms.blocks_per_region) ms.nextIdx tb
    (ms.blocks_per_region - ms.nextIdx / ms.records_per_block)
    (ms.nextIdx / ms.records_per_block) 0 ms metric = r
  obtain ⟨f1, f2, f3, f4, f5, f6, f7, f8, f9, f10⟩ := search_of_armed h es tb metric r hr
  obtain ⟨s1, s2, s3⟩ := searchRegion_reads es _ _ tb _ _ _ _ _ r hr
  obtain ⟨m2, hm2⟩ : ∃ m2 : MinSortState, { r.ms with nextIdx := 0 } = m2 := ⟨_, rfl⟩
  rw [hm2]
  have g3 : m2.nextIdx = 0 := by subst hm2; rfl
  have g5 : m2.lastBlockIdx = ms.regionIdx * ms.blocks_per_region + r.k := by
    subst hm2; exact f5
  have hR : m2.records_per_block = ms.records_per_block := by
    subst hm2; exact f3.records_per_block
  rw [f3.blocks_per_region]
  generalize hq : scanRest es (ms.regionIdx * ms.blocks_per_region)
    (ms.blocks_per_region - r.k) r.k r.i m2 r.metric = q
  obtain ⟨q1, q2, q3, q4⟩ := scanRest_reads es _ _ _ _ _ _ q hq g3 (by rw [hR]; exact h.R_pos)
  rw [hR] at q1 q4
  have q3' := q3 g5.symm (by omega)
  constructor
  · intro hne
    have hne' : q.1.nextIdx ≠ 0 := by
      intro e
      rw [if_pos e] at hne
      exact hne e
    rw [if_neg hne']
    obtain ⟨c1, c2, c3, c4⟩ := q4 hne'
    have c4' := c4 g5.symm
    exact ⟨by omega, c2, by omega, fun e => by have := s3 e; omega⟩
  · intro he
    have he' : q.1.nextIdx = 0 := by
      by_contra hne
      rw [if_neg hne] at he
      exact hne he
    exact ⟨by omega, fun e => by have := s3 e; omega⟩

theorem regionOf_mono (ms : MinSortState) {a b : Nat} (h : a ≤ b) :
    regionOf ms a ≤ regionOf ms b := by
  unfold regionOf
  exact Nat.div_le_div_right h

theorem SlotBefore.same {a b : MinSortState} (h : SameInput a b) {x y : Nat}
    (hxy : SlotBefore a x y) : SlotBefore b x y := by
  unfold SlotBefore at hxy ⊢
  rw [h.ukey_same, h.ukey_same]
  exact hxy

theorem emitted_of_armed {m : MinSortState} {ps : List Nat} {gs : Nat} (h : Armed m ps gs)
    (es : external_sort_t) (tb : test_record_t) (mt : metrics_t)
    (hres : m.nextIdx ≠ 0 → m.regionIdx * m.blocks_per_region
      + m.nextIdx / m.records_per_block = m.lastBlockIdx)
    (hlow : ∀ r, r < m.regionIdx → m.current < m.min.getD r 0)
    (hstrict : ∀ g, g ∈ ps → ∀ r, r < regionOf m g → ukey m g < m.min.getD r 0)
    (hsorted : ps.Pairwise (SlotBefore m)) :
    ∃ ms1 mt1, drainStep m es tb mt = (ms1, mt1, some (recAt m gs)) ∧
      Emitted m mt ps gs ms1 mt1 := by
  obtain ⟨ms1, mt1, e, b2, b3, _⟩ := drainStep_spec h es tb mt
  obtain ⟨ms1', mt1', e', c1, c2, c3, c4, c5, c6⟩ := drainStep_cases h es tb mt
  rw [e] at e'
  have e1 : ms1 = ms1' := congrArg Prod.fst e'
  have e2 : mt1 = mt1' := congrArg (fun x => x.2.1) e'
  subst e1 e2
  have hrd := drainStep_reads h es tb mt
  rw [e] at hrd
  simp only [] at hrd
  obtain ⟨r1, r2⟩ := hrd
  have hri := h.region_lt
  have hlen : m.regionIdx < m.min.length := by rw [h.min_len]; exact hri
  have hmono : ∀ r, m.min.getD r 0 ≤ ms1.min.getD r 0 := by
    intro r
    rcases c6 with ⟨_, hm, _⟩ | ⟨_, hm, _⟩
    · rw [hm]
      by_cases hr : m.regionIdx = r
      · subst hr
        rw [getD_set_eq _ _ _ hlen, h.min_eq]
        omega
      · rw [getD_set_ne _ _ _ _ hr]
    · rw [hm]
  have hoff : ∀ r, r ≠ m.regionIdx → ms1.min.getD r 0 = m.min.getD r 0 := by
    intro r hr
    rcases c6 with ⟨_, hm, _⟩ | ⟨_, hm, _⟩
    · rw [hm, getD_set_ne _ _ _ _ (Ne.symm hr)]
    · rw [hm]
  have hord : Ordered ms1 (ps ++ [gs]) := by
    refine ⟨?_, ?_, ?_, ?_⟩
    · intro hne
      obtain ⟨_, a2, _, _⟩ := r1 hne
      rw [c1, b2.blocks_per_region, b2.records_per_block, a2]
    · intro hne r hr
      rw [c1] at hr
      rw [c2, hoff r (by omega)]
      exact hlow r hr
    · intro g hg r hr
      rw [b2.regionOf_same] at hr
      rw [b2.ukey_same]
      rcases List.mem_append.1 hg with hg | hg
      · exact lt_of_lt_of_le (hstrict g hg r hr) (hmono r)
      · have : g = gs := by simpa using hg
        subst this
        rw [h.gs_region] at hr
        rw [hoff r (by omega), h.gs_hit]
        exact hlow r hr
    · rw [List.pairwise_append]
      refine ⟨hsorted.imp (fun hxy => hxy.same b2), List.pairwise_singleton _ _, ?_⟩
      intro a ha b hb
      have : b = gs := by simpa using hb
      subst this
      apply SlotBefore.same b2
      unfold SlotBefore
      have hle : ukey m a ≤ m.current := by
        rw [← h.min_eq]
        exact h.below a ha _ hri
      rw [h.gs_hit]
      rcases Nat.lt_or_ge (ukey m a) m.current with hlt | hge
      · exact Or.inl hlt
      · right
        have heq : ukey m a = m.current := by omega
        refine ⟨heq, ?_⟩
        have hret := (h.ret a).1 ha
        by_cases hreg : regionOf m a = m.regionIdx
        · rw [if_pos hreg] at hret
          rcases hret.2 with x | ⟨_, x⟩
          · omega
          · exact x
        · rcases Nat.lt_or_ge (regionOf m a) m.regionIdx with hr | hr
          · by_contra hge2
            have := regionOf_mono m (Nat.le_of_not_lt hge2)
            rw [h.gs_region] at this
            omega
          · have := hstrict a ha m.regionIdx (by omega)
            rw [h.min_eq] at this
            omega
  refine ⟨ms1, mt1, e, ?_⟩
  refine
    { same := b2, inv := b3, ord := hord, valid := h.gs_valid, fresh := h.gs_not_mem,
      region := ?_, region_lt := ?_, key := ?_, key_lt := ?_, min_before := ?_,
      min_lower := ?_, min_all := ?_, hint := ?_, first := ?_, next_gt := ?_, next_le := c4,
      next_wit := ?_, outcome := ?_, reads_hit := ?_, reads_end := ?_ }
  · rw [c1]; exact h.gs_region
  · rw [c1]; exact hri
  · rw [c2]; exact h.gs_hit
  · rw [c2]; exact h.current_lt
  · rw [c1, c2]; exact h.min_eq
  · rw [c1, c2]; exact hlow
  · rw [c2]; exact h.current_le
  · rw [c1]; exact h.gs_hint
  · rw [c1, c2]
    intro g hlo hhi hk
    refine (h.ret g).2 ⟨by have := h.gs_valid; omega, ?_⟩
    have hreg : regionOf m g = m.regionIdx :=
      (regionOf_eq_iff m g _ h.width_pos).2 ⟨hlo, by have := h.gs_lt; omega⟩
    rw [if_pos hreg]
    exact Or.inr ⟨hk, hhi⟩
  · rw [c2]; exact c3
  · rw [c1]; exact c5
  · rw [c1, c2]
    rcases c6 with ⟨a1, a2, a3, a4⟩ | ⟨a1, a2, a3, a4, a5, a6, a7, _⟩
    · exact Or.inl ⟨a1, a2, a3, a4⟩
    · exact Or.inr ⟨a1, a2, a3, a4, a5, a6, a7⟩
  · intro hne
    obtain ⟨a1, a2, a3, a4⟩ := r1 hne
    unfold credit
    rw [if_neg hne, b2.records_per_block]
    by_cases h0 : m.nextIdx = 0
    · rw [if_pos h0]
      rw [h0, Nat.zero_div] at a3
      omega
    · rw [if_neg h0]
      have := a4 (hres h0)
      omega
  · intro he
    obtain ⟨a1, a2⟩ := r2 he
    unfold credit
    by_cases h0 : m.nextIdx = 0
    · rw [if_pos h0]
      rw [h0, Nat.zero_div] at a1
      omega
    · rw [if_neg h0]
      have := a2 (hres h0)
      omega

theorem phaseB_eq (ms : MinSortState) (es : external_sort_t) (tb : test_record_t)
    (metric : metrics_t) (m : MinSortState) (mt : metrics_t)
    (hp : (if ms.nextIdx = 0 then selectRegion ms metric else (ms, metric)) = (m, mt)) :
    phaseB ms es tb metric =
      searchRegion es (m.regionIdx * m.blocks_per_region) m.nextIdx tb
        (m.blocks_per_region - m.nextIdx / m.records_per_block)
        (m.nextIdx / m.records_per_block) 0 m mt ∧
    selected ms metric = m := by
  unfold phaseB selected
  rw [hp]
  exact ⟨rfl, rfl⟩

/-- The helper definitions `selected` and `phaseB` name parts of next_MinSort: the call
returns NULL exactly when it starts with `nextIdx = 0` and selection leaves `regionIdx`
at INT_MAX, and otherwise returns the tuple buffer as the search loop leaves it. -/
theorem next_MinSort_result_eq (ms : MinSortState) (es : external_sort_t) (tb : test_record_t)
    (metric : metrics_t) :
    (next_MinSort ms es tb metric).2.2 =
      if ms.nextIdx = 0 ∧ (selected ms metric).regionIdx = INT_MAX then none
      else some (phaseB ms es tb metric).tupleBuffer := by
  unfold next_MinSort selected phaseB
  simp only []
  by_cases h : ms.nextIdx = 0 ∧
      (if ms.nextIdx = 0 then selectRegion ms metric else (ms, metric)).1.regionIdx = INT_MAX
  · rw [if_pos h, if_pos h]
  · rw [if_neg h, if_neg h]

/-- One call of next_MinSort from a state that satisfies `Inv` and `Ordered`: either it
returns NULL without reading a page and both hold again, or its search loop stops at a
valid slot `gs` of the active region whose key is `current`, the record of `gs` is
returned, and the call is described by `Emitted`. -/
theorem next_MinSort_call {ms : MinSortState} {ps : List Nat} (h : Inv ms ps)
    (ho : Ordered ms ps) (es : external_sort_t) (tb : test_record_t) (metric : metrics_t) :
    (ms.nextIdx = 0 ∧ (∀ r, r < ms.numRegions → ms.min.getD r 0 = INT_MAX) ∧
      ∃ ms1 mt1, next_MinSort ms es tb metric = (ms1, mt1, none) ∧ SameInput ms ms1 ∧
        Inv ms1 ps ∧ Ordered ms1 ps ∧ ms1.nextIdx = 0 ∧
        mt1.num_reads = metric.num_reads) ∨
    (∃ gs ms1 mt1, next_MinSort ms es tb metric = (ms1, mt1, some (recAt ms gs)) ∧
      returnedSlot ms es tb metric = gs ∧ Emitted ms metric ps gs ms1 mt1 ∧
      (phaseB ms es tb metric).found = true ∧
      (phaseB ms es tb metric).tupleBuffer = recAt ms gs ∧
      (selected ms metric).current = ms1.current ∧
      (selected ms metric).regionIdx = ms1.regionIdx) := by
  rw [next_MinSort_eq]
  by_cases h0 : ms.nextIdx = 0
  · obtain ⟨c, ri, mt, hsel, hcase⟩ := selectRegion_spec ms metric
    have hmt : mt.num_reads = metric.num_reads := by
      have := selectRegion_reads ms metric
      rw [hsel] at this
      exact this
    have hp : (if ms.nextIdx = 0 then selectRegion ms metric else (ms, metric))
        = ({ ms with current := c, regionIdx := ri, next := INT_MAX }, mt) := by
      rw [if_pos h0, hsel]
    obtain ⟨hb1, hb2⟩ := phaseB_eq ms es tb metric _ _ hp
    rw [returnedSlot_eq ms es tb metric _ _ hp, hb1, hb2, hp]
    rcases hcase with ⟨a1, a2, a3⟩ | ⟨a1, a2, a3, a4, a5⟩
    · left
      refine ⟨h0, fun r hr => le_antisymm (h.min_le r hr) (a3 r hr), ?_⟩
      rw [if_pos ⟨h0, a1⟩]
      refine ⟨_, _, rfl, ⟨rfl, rfl, rfl, rfl, rfl, rfl⟩,
        h.idle _ ⟨rfl, rfl, rfl, rfl, rfl, rfl⟩ rfl rfl rfl h0 h0, ?_, h0, hmt⟩
      exact ⟨fun hne => absurd h0 hne, fun hne => absurd h0 hne, ho.strict, ho.sorted⟩
    · right
      have hne : ri ≠ INT_MAX := by have := h.G_le; omega
      rw [if_neg (fun hh => hne hh.2)]
      obtain ⟨gs, harm⟩ := armed_of_select h h0 _ c ri rfl a1 a2 a3 a4
      obtain ⟨ms1, mt1, b1, he⟩ := emitted_of_armed harm es tb mt
        (fun hn => absurd h0 hn) a5 ho.strict ho.sorted
      obtain ⟨f1, f2, _⟩ := search_of_armed harm es tb mt _ rfl
      obtain ⟨_, _, _, _, _, d4⟩ := drainStep_spec harm es tb mt
      have hs : SameInput ms { ms with current := c, regionIdx := ri, next := INT_MAX } :=
        ⟨rfl, rfl, rfl, rfl, rfl, rfl⟩
      refine ⟨gs, ms1, mt1, b1, d4, ?_, f1, f2, ?_, ?_⟩
      · exact
          { same := hs.same_seq he.same, inv := he.inv, ord := he.ord, valid := he.valid,
            fresh := he.fresh, region := he.region, region_lt := he.region_lt, key := he.key,
            key_lt := he.key_lt, min_before := he.min_before, min_lower := he.min_lower,
            min_all := he.min_all, hint := he.hint, first := he.first, next_gt := he.next_gt,
            next_le := he.next_le, next_wit := he.next_wit, outcome := he.outcome,
            reads_hit := fun x => by have := he.reads_hit x; rw [hmt] at this; exact this,
            reads_end := fun x => by have := he.reads_end x; rw [hmt] at this; exact this }
      · have e1 := he.key
        have e2 : ukey _ gs = c := harm.gs_hit
        exact e2.symm.trans e1
      · have e1 := he.region
        have e2 : regionOf _ gs = ri := harm.gs_region
        exact e2.symm.trans e1
  · right
    have hp : (if ms.nextIdx = 0 then selectRegion ms metric else (ms, metric))
        = (ms, metric) := by rw [if_neg h0]
    obtain ⟨hb1, hb2⟩ := phaseB_eq ms es tb metric _ _ hp
    rw [returnedSlot_eq ms es tb metric _ _ hp, hb1, hb2, hp]
    rw [if_neg (fun hh => h0 hh.1)]
    have harm := armed_of_draining h h0
    obtain ⟨ms1, mt1, b1, he⟩ := emitted_of_armed harm es tb metric
      ho.resident (ho.lower h0) ho.strict ho.sorted
    obtain ⟨f1, f2, _⟩ := search_of_armed harm es tb metric _ rfl
    obtain ⟨_, _, _, _, _, d4⟩ := drainStep_spec harm es tb metric
    refine ⟨_, ms1, mt1, b1, d4, he, f1, f2, ?_, ?_⟩
    · exact harm.gs_hit.symm.trans he.key
    · exact harm.gs_region.symm.trans he.region

theorem Ordered.start {ms : MinSortState} (h0 : ms.nextIdx = 0) : Ordered ms [] :=
  ⟨fun h => absurd h0 h, fun h => absurd h0 h, fun g hg => absurd hg (List.not_mem_nil g),
   List.Pairwise.nil⟩

theorem callNext_call {c : Caller} {ps : List Nat} (h : Inv c.ms ps) (ho : Ordered c.ms ps)
    (es : external_sort_t) :
    (∃ c1, callNext es c = (c1, none) ∧ SameInput c.ms c1.ms ∧ Inv c1.ms ps ∧
      Ordered c1.ms ps ∧ c.ms.nextIdx = 0 ∧ c1.ms.nextIdx = 0 ∧
      c1.metric.num_reads = c.metric.num_reads) ∨
    (∃ c1 gs, callNext es c = (c1, some (recAt c.ms gs)) ∧
      returnedSlot c.ms es c.tupleBuffer c.metric = gs ∧
      Emitted c.ms c.metric ps gs c1.ms c1.metric) := by
  rcases next_MinSort_call h ho es c.tupleBuffer c.metric with
    ⟨a1, a2, ms1, mt1, a3, a4, a5, a6, a7, a8⟩ | ⟨gs, ms1, mt1, b1, b2, b3, _⟩
  · left
    refine ⟨⟨ms1, mt1, c.tupleBuffer⟩, ?_, a4, a5, a6, a1, a7, a8⟩
    unfold callNext
    rw [a3]
  · right
    refine ⟨⟨ms1, mt1, recAt c.ms gs⟩, gs, ?_, b2, b3⟩
    unfold callNext
    rw [b1]

/-- All calls keep `Inv` and `Ordered`. -/
theorem trace_ordered (es : external_sort_t) :
    ∀ (n : Nat) (c : Caller) (ps : List Nat), Inv c.ms ps → Ordered c.ms ps →
      SameInput c.ms (stateAfter es n c).ms ∧
      Inv (stateAfter es n c).ms (ps ++ returnedSlots es n c) ∧
      Ordered (stateAfter es n c).ms (ps ++ returnedSlots es n c) := by
  intro n
  induction n with
  | zero =>
    intro c ps h ho
    simp only [stateAfter, returnedSlots, List.append_nil]
    exact ⟨SameInput.same_self _, h, ho⟩
  | succ n ih =>
    intro c ps h ho
    rcases callNext_call h ho es with ⟨c1, a1, a2, a3, a4, _⟩ | ⟨c1, gs, b1, b2, b3⟩
    · obtain ⟨i1, i2, i3⟩ := ih c1 ps a3 a4
      simp only [stateAfter, returnedSlots, a1]
      exact ⟨a2.same_seq i1, i2, i3⟩
    · obtain ⟨i1, i2, i3⟩ := ih c1 (ps ++ [gs]) b3.inv b3.ord
      simp only [stateAfter, returnedSlots, b1, b2]
      rw [List.append_assoc] at i2 i3
      exact ⟨b3.same.same_seq i1, i2, i3⟩

/-- The iterator state after init_MinSort and any number of calls satisfies `Inv` and
`Ordered` for the slots returned so far. -/
theorem reachable_inv {is : file_iterator_state_t} {M : Nat} {es : external_sort_t}
    (hv : ValidInput is M es) (buffer : List test_record_t) (metric : metrics_t)
    (tb : test_record_t) :
    ∃ ms mt, init_MinSort (initialState is buffer M) es metric = some (ms, mt) ∧
      ms.iteratorState = is ∧ ms.records_per_block = recordsPerPage es ∧
      ms.num_records = is.totalRecords ∧ Inv ms [] ∧ ms.nextIdx = 0 ∧
      ∀ n, SameInput ms (stateAfter es n ⟨ms, mt, tb⟩).ms ∧
        Inv (stateAfter es n ⟨ms, mt, tb⟩).ms (returnedSlots es n ⟨ms, mt, tb⟩) ∧
        Ordered (stateAfter es n ⟨ms, mt, tb⟩).ms (returnedSlots es n ⟨ms, mt, tb⟩) := by
  obtain ⟨ms, mt, j1, j2, j3, j4, j5, _, _, _, j9⟩ := init_MinSort_spec hv buffer metric
  refine ⟨ms, mt, j1, j3, j4, j5, j2, j9, fun n => ?_⟩
  have := trace_ordered es n ⟨ms, mt, tb⟩ [] j2 (Ordered.start j9)
  rw [List.nil_append] at this
  exact this

/-- C15: on every valid input, in every state reached from init_MinSort by next_MinSort
calls, a call that does not return NULL leaves its search loop through `goto done`: the
loop stops at a valid slot of the active region whose key is `current`, and the record
of that slot is what the call copies into the tuple buffer and returns. The fall-through
from the search loop is not taken. -/
theorem next_MinSort_search_finds_current {is : file_iterator_state_t} {M : Nat}
    {es : external_sort_t} (hv : ValidInput is M es) (buffer : List test_record_t)
    (metric : metrics_t) (tupleBuffer : test_record_t) :
    ∃ ms mt, init_MinSort (initialState is buffer M) es metric = some (ms, mt) ∧
      ∀ n c, c = stateAfter es n ⟨ms, mt, tupleBuffer⟩ →
        (next_MinSort c.ms es c.tupleBuffer c.metric).2.2 ≠ none →
        (phaseB c.ms es c.tupleBuffer c.metric).found = true ∧
        returnedSlot c.ms es c.tupleBuffer c.metric < is.totalRecords ∧
        regionOf c.ms (returnedSlot c.ms es c.tupleBuffer c.metric)
          = (selected c.ms c.metric).regionIdx ∧
        toUnsigned (slotAt is.file (recordsPerPage es)
            (returnedSlot c.ms es c.tupleBuffer c.metric)).key
          = (selected c.ms c.metric).current ∧
        (phaseB c.ms es c.tupleBuffer c.metric).tupleBuffer
          = slotAt is.file (recordsPerPage es) (returnedSlot c.ms es c.tupleBuffer c.metric) ∧
        (next_MinSort c.ms es c.tupleBuffer c.metric).2.2
          = some (slotAt is.file (recordsPerPage es)
              (returnedSlot c.ms es c.tupleBuffer c.metric)) := by
  obtain ⟨ms, mt, j1, j3, j4, j5, _, _, htr⟩ := reachable_inv hv buffer metric tupleBuffer
  refine ⟨ms, mt, j1, ?_⟩
  intro n c hc hne
  obtain ⟨s1, s2, s3⟩ := htr n
  rw [← hc] at s1 s2 s3
  have hrec : recAt c.ms = slotAt is.file (recordsPerPage es) :=
    recAt_eq_slotAt (s1.iteratorState.trans j3) (s1.records_per_block.trans j4)
  rcases next_MinSort_call s2 s3 es c.tupleBuffer c.metric with
    ⟨_, _, ms1, mt1, a3, _⟩ | ⟨gs, ms1, mt1, b1, b2, b3, b4, b5, b6, b7⟩
  · rw [a3] at hne
    exact absurd rfl hne
  · rw [b2, b1, b4, b5, b6, b7, ← hrec]
    refine ⟨rfl, ?_, b3.region, b3.key, rfl, rfl⟩
    rw [← j5, ← s1.num_records]
    exact b3.valid

theorem next_MinSort_search_finds_current_witness :
    ValidInput exampleInput 4 exampleSort ∧
    ∃ ms mt, init_MinSort (initialState exampleInput [] 4) exampleSort ⟨0, 0, 0, 0⟩
        = some (ms, mt) ∧
      (phaseB ms exampleSort ⟨0, 0⟩ mt).found = true ∧
      returnedSlot ms exampleSort ⟨0, 0⟩ mt < exampleInput.totalRecords ∧
      (next_MinSort ms exampleSort ⟨0, 0⟩ mt).2.2
        = some (slotAt exampleInput.file (recordsPerPage exampleSort)
            (returnedSlot ms exampleSort ⟨0, 0⟩ mt)) := by
  obtain ⟨ms, mt, h1, h2⟩ :=
    next_MinSort_search_finds_current exampleInput_valid [] ⟨0, 0, 0, 0⟩ ⟨0, 0⟩
  have hne : (next_MinSort ms exampleSort ⟨0, 0⟩ mt).2.2 ≠ none := by
    have e : init_MinSort (initialState exampleInput [] 4) exampleSort ⟨0, 0, 0, 0⟩
        = some (ms, mt) := h1
    have ev : (init_MinSort (initialState exampleInput [] 4) exampleSort ⟨0, 0, 0, 0⟩).map
        (fun p => (next_MinSort p.1 exampleSort ⟨0, 0⟩ p.2).2.2) = some (some ⟨1, 10⟩) := by
      decide
    rw [e] at ev
    have ev2 : (next_MinSort ms exampleSort ⟨0, 0⟩ mt).2.2 = some ⟨1, 10⟩ := Option.some.inj ev
    rw [ev2]
    exact fun h => Option.noConfusion h
  obtain ⟨a1, a2, _, _, _, a6⟩ := h2 0 ⟨ms, mt, ⟨0, 0⟩⟩ rfl hne
  exact ⟨exampleInput_valid, ms, mt, h1, a1, a2, a6⟩

theorem eligible_records {ms : MinSortState} {is : file_iterator_state_t} {R : Nat}
    (h3 : ms.iteratorState = is) (h4 : ms.records_per_block = R)
    (h5 : ms.num_records = is.totalRecords) (hk : Int32Keys is R) :
    (eligibleSlots ms).map (recAt ms)
      = (validRecords is R).filter (fun r => decide (0 ≤ r.key ∧ r.key < 2147483647)) := by
  unfold eligibleSlots validRecords
  rw [List.filter_map, recAt_eq_slotAt h3 h4, h5]
  congr 1
  apply List.filter_congr
  intro g hg
  rw [List.mem_range] at hg
  have e : ukey ms g = toUnsigned (slotAt is.file R g).key := by
    unfold ukey recAt; rw [h3, h4]
  have := hk g hg
  simp only [Function.comp, e, decide_eq_decide]
  exact toUnsigned_lt_iff _ this.1 this.2

/-- C16: keys are compared as unsigned values against the sentinel. On every valid input
with int32 keys, a record whose key is negative or INT_MAX has an unsigned key of at
least INT_MAX and so is never below a region minimum; after init_MinSort every min[r]
is at most the unsigned key of every valid record of region r and, when below the
sentinel, is the key of a valid record of region r with key in [0, INT_MAX); and the
records returned before the first NULL are exactly the valid records with key in
[0, INT_MAX), their number E in place of N. -/
theorem next_MinSort_returns_keys_below_sentinel {is : file_iterator_state_t} {M : Nat}
    {es : external_sort_t} (hv : ValidInput is M es) (hk : Int32Keys is (recordsPerPage es))
    (buffer : List test_record_t) (metric : metrics_t) (tupleBuffer : test_record_t) :
    ∃ ms mt, init_MinSort (initialState is buffer M) es metric = some (ms, mt) ∧
      (∀ g, g < is.totalRecords →
        ((slotAt is.file (recordsPerPage es) g).key < 0 ∨
          (slotAt is.file (recordsPerPage es) g).key = 2147483647) →
        INT_MAX ≤ toUnsigned (slotAt is.file (recordsPerPage es) g).key ∧
        ∀ r, r < ms.numRegions →
          ms.min.getD r 0 ≤ toUnsigned (slotAt is.file (recordsPerPage es) g).key) ∧
      (∀ g, g < is.totalRecords →
        ms.min.getD (regionOf ms g) 0 ≤ toUnsigned (slotAt is.file (recordsPerPage es) g).key) ∧
      (∀ r, r < ms.numRegions → ms.min.getD r 0 < INT_MAX →
        ∃ g, g < is.totalRecords ∧ regionOf ms g = r ∧
          0 ≤ (slotAt is.file (recordsPerPage es) g).key ∧
          (slotAt is.file (recordsPerPage es) g).key = (ms.min.getD r 0 : Int)) ∧
      ∃ out : List test_record_t,
        nextResults es (eligibleCount is (recordsPerPage es) + 1) ⟨ms, mt, tupleBuffer⟩
          = out.map some ++ [none] ∧
        out.length = eligibleCount is (recordsPerPage es) ∧
        out.Perm ((validRecords is (recordsPerPage es)).filter
          (fun r => decide (0 ≤ r.key ∧ r.key < 2147483647))) := by
  obtain ⟨ms, mt, j1, j2, j3, j4, j5, _, _, _, j9⟩ := init_MinSort_spec hv buffer metric
  have hu : ∀ g, ukey ms g = toUnsigned (slotAt is.file (recordsPerPage es) g).key := by
    intro g
    unfold ukey recAt; rw [j3, j4]
  refine ⟨ms, mt, j1, ?_, ?_, ?_, ?_⟩
  · intro g hg hbad
    have hr := hk g hg
    have h1 : INT_MAX ≤ toUnsigned (slotAt is.file (recordsPerPage es) g).key := by
      unfold toUnsigned INT_MAX
      omega
    exact ⟨h1, fun r hr => le_trans (j2.min_le r hr) h1⟩
  · intro g hg
    rw [← hu]
    by_contra hlt
    have hlt : ukey ms g < ms.min.getD (regionOf ms g) 0 := by omega
    have hret : Returned ms g := by
      unfold Returned
      rw [if_neg (fun hh => hh.1 j9)]
      exact hlt
    exact absurd ((j2.ret g).2 ⟨by rw [j5]; exact hg, hret⟩) (List.not_mem_nil g)
  · intro r hr hlt
    obtain ⟨g, g1, g2, g3⟩ := j2.min_wit r hr hlt
    rw [j5] at g1
    rw [hu] at g3
    have hr := hk g g1
    have hlt' : toUnsigned (slotAt is.file (recordsPerPage es) g).key < INT_MAX := by
      rw [g3]; exact hlt
    have hc := toUnsigned_cast _ hr.1 hr.2 hlt'
    have hnn := ((toUnsigned_lt_iff _ hr.1 hr.2).1 hlt').1
    exact ⟨g, g1, g2, hnn, by rw [← g3]; exact hc.symm⟩
  · have hE : (eligibleSlots ms).length = eligibleCount is (recordsPerPage es) :=
      eligibleSlots_length j3 j4 j5
    obtain ⟨t1, t2, t3⟩ := trace_count es (eligibleCount is (recordsPerPage es))
      ⟨ms, mt, tupleBuffer⟩ [] j2 (by rw [hE]; simp)
    rw [List.nil_append] at t3
    refine ⟨(returnedSlots es (eligibleCount is (recordsPerPage es))
      ⟨ms, mt, tupleBuffer⟩).map (recAt ms), ?_, ?_, ?_⟩
    · rw [t1, List.map_map]
      rfl
    · rw [List.length_map, t2]
    · rw [← eligible_records j3 j4 j5 hk]
      exact t3.map _

theorem next_MinSort_returns_keys_below_sentinel_witness :
    ValidInput negativeKeyInput 4 negativeKeySort ∧
    Int32Keys negativeKeyInput (recordsPerPage negativeKeySort) ∧
    eligibleCount negativeKeyInput (recordsPerPage negativeKeySort) = 0 ∧
    ∃ ms mt, init_MinSort (initialState negativeKeyInput [] 4) negativeKeySort ⟨0, 0, 0, 0⟩
        = some (ms, mt) ∧
      ∃ out : List test_record_t,
        nextResults negativeKeySort
            (eligibleCount negativeKeyInput (recordsPerPage negativeKeySort) + 1)
            ⟨ms, mt, ⟨0, 0⟩⟩ = out.map some ++ [none] ∧
        out.length = eligibleCount negativeKeyInput (recordsPerPage negativeKeySort) := by
  have hv : ValidInput negativeKeyInput 4 negativeKeySort :=
    ⟨by decide, by decide, by decide, by decide, by decide, by decide, by decide,
      by decide, by decide⟩
  have hk : Int32Keys negativeKeyInput (recordsPerPage negativeKeySort) := by
    intro g hg
    have hg : g < 1 := hg
    interval_cases g
    decide
  obtain ⟨ms, mt, h1, _, _, _, out, h5, h6, _⟩ :=
    next_MinSort_returns_keys_below_sentinel hv hk [] ⟨0, 0, 0, 0⟩ ⟨0, 0⟩
  exact ⟨hv, hk, by decide, ms, mt, h1, out, h5, h6⟩

theorem orderedInsert_lex (k : Nat → Nat) (a : Nat) :
    ∀ S : List Nat, S.Pairwise (fun x y => k x < k y ∨ (k x = k y ∧ x < y)) →
      (∀ b, b ∈ S → a < b) →
      (S.orderedInsert (fun x y => k x ≤ k y) a).Pairwise
        (fun x y => k x < k y ∨ (k x = k y ∧ x < y)) := by
  intro S
  induction S with
  | nil => intro _ _; simp
  | cons b S ih =>
    intro hS hlt
    rw [List.pairwise_cons] at hS
    obtain ⟨hb, hS'⟩ := hS
    have hab : a < b := hlt b (List.mem_cons_self _ _)
    rw [List.orderedInsert]
    by_cases hle : k a ≤ k b
    · rw [if_pos hle]
      refine List.Pairwise.cons ?_ (List.Pairwise.cons hb hS')
      intro x hx
      rcases List.mem_cons.1 hx with rfl | hx
      · omega
      · have := hb x hx
        have := hlt x (List.mem_cons_of_mem _ hx)
        omega
    · rw [if_neg hle]
      refine List.Pairwise.cons ?_ (ih hS' (fun x hx => hlt x (List.mem_cons_of_mem _ hx)))
      intro x hx
      rw [List.mem_orderedInsert] at hx
      rcases hx with rfl | hx
      · omega
      · exact hb x hx

theorem insertionSort_lex (k : Nat → Nat) :
    ∀ l : List Nat, l.Pairwise (fun x y => x < y) →
      (l.insertionSort (fun x y => k x ≤ k y)).Pairwise
        (fun x y => k x < k y ∨ (k x = k y ∧ x < y)) := by
  intro l
  induction l with
  | nil => intro _; simp
  | cons a l ih =>
    intro hl
    rw [List.pairwise_cons] at hl
    rw [List.insertionSort]
    apply orderedInsert_lex k a _ (ih hl.2)
    intro b hb
    exact hl.1 b ((List.perm_insertionSort _ l).subset hb)

theorem eq_of_perm_of_lex (k : Nat → Nat) {l1 l2 : List Nat} (hp : l1.Perm l2)
    (h1 : l1.Pairwise (fun x y => k x < k y ∨ (k x = k y ∧ x < y)))
    (h2 : l2.Pairwise (fun x y => k x < k y ∨ (k x = k y ∧ x < y))) : l1 = l2 := by
  haveI : IsAntisymm Nat (fun x y => k x < k y ∨ (k x = k y ∧ x < y)) :=
    ⟨fun a b hab hba => by omega⟩
  exact List.eq_of_perm_of_sorted hp h1 h2

/-- C17: on every valid input with keys in [0, INT_MAX) the N records returned before
the first NULL are the stable sort by key of the valid input records taken in file
order: the returned slots are ordered by key and, for equal keys, by position in the
file (lower region first, within a region lower page and slot first). -/
theorem next_MinSort_emission_is_stable {is : file_iterator_state_t} {M : Nat}
    {es : external_sort_t} (hv : ValidInput is M es)
    (hk : KeysBelowSentinel is (recordsPerPage es))
    (buffer : List test_record_t) (metric : metrics_t) (tupleBuffer : test_record_t) :
    ∃ ms mt, init_MinSort (initialState is buffer M) es metric = some (ms, mt) ∧
      nextResults es (is.totalRecords + 1) ⟨ms, mt, tupleBuffer⟩
        = (stableSortByKey (validRecords is (recordsPerPage es))).map some ++ [none] ∧
      stableSortByKey (validRecords is (recordsPerPage es))
        = (returnedSlots es is.totalRecords ⟨ms, mt, tupleBuffer⟩).map
            (slotAt is.file (recordsPerPage es)) ∧
      (returnedSlots es is.totalRecords ⟨ms, mt, tupleBuffer⟩).Pairwise
        (fun a b =>
          (slotAt is.file (recordsPerPage es) a).key < (slotAt is.file (recordsPerPage es) b).key ∨
          ((slotAt is.file (recordsPerPage es) a).key = (slotAt is.file (recordsPerPage es) b).key
            ∧ a < b)) := by
  obtain ⟨ms, mt, j1, j3, j4, j5, j2, j9, htr⟩ := reachable_inv hv buffer metric tupleBuffer
  obtain ⟨s1, s2, s3⟩ := htr is.totalRecords
  have hel := eligibleSlots_all j3 j4 j5 hk
  obtain ⟨t1, t2, t3⟩ := trace_count es is.totalRecords ⟨ms, mt, tupleBuffer⟩ [] j2
    (by rw [hel]; simp)
  rw [List.nil_append, hel] at t3
  have hrec : recAt ms = slotAt is.file (recordsPerPage es) := recAt_eq_slotAt j3 j4
  have hu : ∀ g, g < is.totalRecords →
      ((ukey ms g : Nat) : Int) = (slotAt is.file (recordsPerPage es) g).key := by
    intro g hg
    have := hk g hg
    unfold ukey
    rw [hrec]
    exact toUnsigned_of_nonneg _ this.1 (by omega)
  refine ⟨ms, mt, j1, ?_⟩
  generalize hps : returnedSlots es is.totalRecords ⟨ms, mt, tupleBuffer⟩ = ps at *
  have hsorted : ps.Pairwise (fun x y => ukey ms x < ukey ms y ∨ (ukey ms x = ukey ms y ∧ x < y)) := by
    have := s3.sorted
    refine this.imp ?_
    intro a b hab
    unfold SlotBefore at hab
    rw [s1.ukey_same, s1.ukey_same] at hab
    exact hab
  have hT := insertionSort_lex (ukey ms) (List.range is.totalRecords) (List.pairwise_lt_range _)
  have hperm : ps.Perm ((List.range is.totalRecords).insertionSort
      (fun x y => ukey ms x ≤ ukey ms y)) :=
    t3.trans (List.perm_insertionSort _ _).symm
  have heq := eq_of_perm_of_lex (ukey ms) hperm hsorted hT
  have hmap : ps.map (slotAt is.file (recordsPerPage es))
      = stableSortByKey (validRecords is (recordsPerPage es)) := by
    unfold stableSortByKey validRecords
    rw [heq]
    apply List.map_insertionSort
    intro a ha b hb
    rw [List.mem_range] at ha hb
    rw [← hu a ha, ← hu b hb]
    exact Nat.cast_le.symm
  refine ⟨?_, hmap.symm, ?_⟩
  · rw [t1, ← hmap, hrec, List.map_map]
    rfl
  · have hmem : ∀ g, g ∈ ps → g < is.totalRecords := fun g hg =>
      List.mem_range.1 (t3.subset hg)
    refine hsorted.imp_of_mem ?_
    intro a b ha hb hab
    rw [← hu a (hmem a ha), ← hu b (hmem b hb)]
    rcases hab with h | ⟨h, h'⟩
    · exact Or.inl (by exact_mod_cast h)
    · exact Or.inr ⟨by rw [h], h'⟩

theorem next_MinSort_emission_is_stable_witness :
    ValidInput exampleInput 4 exampleSort ∧
    KeysBelowSentinel exampleInput (recordsPerPage exampleSort) ∧
    ∃ ms mt, init_MinSort (initialState exampleInput [] 4) exampleSort ⟨0, 0, 0, 0⟩
        = some (ms, mt) ∧
      nextResults exampleSort (exampleInput.totalRecords + 1) ⟨ms, mt, ⟨0, 0⟩⟩
        = (stableSortByKey (validRecords exampleInput (recordsPerPage exampleSort))).map some
          ++ [none] := by
  obtain ⟨ms, mt, h1, h2, _⟩ :=
    next_MinSort_emission_is_stable exampleInput_valid exampleInput_keys [] ⟨0, 0, 0, 0⟩ ⟨0, 0⟩
  exact ⟨exampleInput_valid, exampleInput_keys, ms, mt, h1, h2⟩

/-- The position hint and the region minimum after a call that returned slot `gs`, in
terms of the unsigned keys: the hint is non-zero exactly when the active region holds a
further unreturned slot with key `current`, and then it is the first such slot; else the
region minimum is the smallest key above `current` in the region, or the sentinel. -/
theorem emitted_hint_cases {ms : MinSortState} {metric : metrics_t} {ps : List Nat} {gs : Nat}
    {ms1 : MinSortState} {mt1 : metrics_t} (h : Inv ms ps)
    (e : Emitted ms metric ps gs ms1 mt1) :
    ((∃ g, g < ms.num_records ∧ regionOf ms g = ms1.regionIdx ∧ ukey ms g = ms1.current ∧
        g ∉ ps ∧ g ≠ gs) ↔ ms1.nextIdx ≠ 0) ∧
    (ms1.nextIdx ≠ 0 →
      ms1.min.getD ms1.regionIdx 0 = ms1.current ∧
      gs < regionStart ms ms1.regionIdx + ms1.nextIdx ∧
      regionStart ms ms1.regionIdx + ms1.nextIdx < ms.num_records ∧
      regionOf ms (regionStart ms ms1.regionIdx + ms1.nextIdx) = ms1.regionIdx ∧
      ukey ms (regionStart ms ms1.regionIdx + ms1.nextIdx) = ms1.current ∧
      regionStart ms ms1.regionIdx + ms1.nextIdx ∉ ps ∧
      ∀ g, g < ms.num_records → regionOf ms g = ms1.regionIdx → ukey ms g = ms1.current →
        g ∉ ps → g ≠ gs → regionStart ms ms1.regionIdx + ms1.nextIdx ≤ g) ∧
    (ms1.nextIdx = 0 →
      ms1.current < ms1.min.getD ms1.regionIdx 0 ∧ ms1.min.getD ms1.regionIdx 0 ≤ INT_MAX ∧
      (∀ g, g < ms.num_records → regionOf ms g = ms1.regionIdx → ms1.current < ukey ms g →
        ms1.min.getD ms1.regionIdx 0 ≤ ukey ms g) ∧
      (ms1.min.getD ms1.regionIdx 0 < INT_MAX →
        ∃ g, g < ms.num_records ∧ regionOf ms g = ms1.regionIdx ∧
          ukey ms g = ms1.min.getD ms1.regionIdx 0)) := by
  have hW := h.W_pos
  have hreg : ∀ g, regionOf ms g = ms1.regionIdx ↔ regionStart ms ms1.regionIdx ≤ g ∧
      g < regionStart ms ms1.regionIdx + ms.blocks_per_region * ms.records_per_block :=
    fun g => regionOf_eq_iff ms g _ hW
  have hgs := (hreg gs).1 e.region
  have hlen : ms1.regionIdx < ms.min.length := by rw [h.min_len]; exact e.region_lt
  -- an unreturned slot of the region with key `current`, other than `gs`, lies after `gs`
  have hafter : ∀ g, g < ms.num_records → regionOf ms g = ms1.regionIdx →
      ukey ms g = ms1.current → g ∉ ps → g ≠ gs → gs + 1 ≤ g := by
    intro g _ g2 g3 g4 g5
    by_contra hlt
    exact g4 (e.first g ((hreg g).1 g2).1 (by omega) g3)
  rcases e.outcome with ⟨a1, a2, a3, a4⟩ | ⟨a1, a2, a3, a4, a5, a6, a7⟩
  · have hnone : ¬ ∃ g, g < ms.num_records ∧ regionOf ms g = ms1.regionIdx ∧
        ukey ms g = ms1.current ∧ g ∉ ps ∧ g ≠ gs := by
      rintro ⟨g, g1, g2, g3, g4, g5⟩
      exact a3 g (hafter g g1 g2 g3 g4 g5) ((hreg g).1 g2).2 g1 g3
    have hmin : ms1.min.getD ms1.regionIdx 0 = ms1.next := by
      rw [a2, getD_set_eq _ _ _ hlen]
    refine ⟨⟨fun hx => absurd hx hnone, fun hx => absurd a1 hx⟩, fun hx => absurd a1 hx,
      fun _ => ?_⟩
    rw [hmin]
    refine ⟨e.next_gt, e.next_le, ?_, ?_⟩
    · intro g g1 g2 g3
      exact a4 g ((hreg g).1 g2).1 ((hreg g).1 g2).2 g1 g3
    · intro hlt
      obtain ⟨g, g1, g2, g3, g4⟩ := e.next_wit hlt
      exact ⟨g, g3, (hreg g).2 ⟨g1, g2⟩, g4⟩
  · have hg2reg := (hreg (regionStart ms ms1.regionIdx + ms1.nextIdx)).2 ⟨by omega, a4⟩
    have hnot : regionStart ms ms1.regionIdx + ms1.nextIdx ∉ ps := by
      intro hm
      have hin : regionStart ms ms1.regionIdx + ms1.nextIdx ∈ ps ++ [gs] :=
        List.mem_append.2 (Or.inl hm)
      have hret := ((e.inv.ret _).1 hin).2
      unfold Returned at hret
      rw [e.same.regionOf_same, e.same.ukey_same, e.same.regionStart_same,
        if_pos ⟨a1, hg2reg⟩, a6] at hret
      omega
    refine ⟨⟨fun _ => a1, fun _ => ⟨_, a5, hg2reg, a6, hnot, by omega⟩⟩, fun _ => ?_,
      fun hx => absurd hx a1⟩
    refine ⟨by rw [a2]; exact e.min_before, by omega, a5, hg2reg, a6, hnot, ?_⟩
    intro g g1 g2 g3 g4 g5
    by_contra hlt
    exact a7 g (hafter g g1 g2 g3 g4 g5) (by omega) g1 g3

theorem toUnsigned_eq_iff (k : Int) (c : Nat) (h0 : -2147483648 ≤ k) (h1 : k < 2147483648)
    (hc : c < INT_MAX) : toUnsigned k = c ↔ k = (c : Int) := by
  unfold toUnsigned INT_MAX at *
  omega

theorem toUnsigned_of_gt (k : Int) (c : Nat) (h1 : k < 2147483648) (hlt : (c : Int) < k) :
    c < toUnsigned k ∧ ((toUnsigned k : Nat) : Int) = k := by
  unfold toUnsigned
  omega

/-- C18: on every valid input with int32 keys, after a call of next_MinSort that returns
the record `t` of slot `gs` of the active region: if the region holds a further record
with key `t.key` not yet returned, nextIdx is non-zero, it is the region-local position
of the first such record, which lies after `gs`, and min[regionIdx] still equals
`current`; otherwise nextIdx = 0 and min[regionIdx] is the smallest key above `t.key`
among the valid records of the region, or the sentinel when there is none. -/
theorem next_MinSort_hint_and_minimum {is : file_iterator_state_t} {M : Nat}
    {es : external_sort_t} (hv : ValidInput is M es) (hk : Int32Keys is (recordsPerPage es))
    (buffer : List test_record_t) (metric : metrics_t) (tupleBuffer : test_record_t) :
    ∃ ms mt, init_MinSort (initialState is buffer M) es metric = some (ms, mt) ∧
      ∀ n c ms1 mt1 t, c = stateAfter es n ⟨ms, mt, tupleBuffer⟩ →
        next_MinSort c.ms es c.tupleBuffer c.metric = (ms1, mt1, some t) →
        ∃ gs, returnedSlot c.ms es c.tupleBuffer c.metric = gs ∧ gs < is.totalRecords ∧
          t = slotAt is.file (recordsPerPage es) gs ∧
          regionOf ms gs = ms1.regionIdx ∧ t.key = (ms1.current : Int) ∧
          ((∃ g, g < is.totalRecords ∧ regionOf ms g = ms1.regionIdx ∧
              (slotAt is.file (recordsPerPage es) g).key = t.key ∧
              g ∉ returnedSlots es n ⟨ms, mt, tupleBuffer⟩ ∧ g ≠ gs) ↔ ms1.nextIdx ≠ 0) ∧
          (ms1.nextIdx ≠ 0 →
            ms1.min.getD ms1.regionIdx 0 = ms1.current ∧
            gs < regionStart ms ms1.regionIdx + ms1.nextIdx ∧
            regionStart ms ms1.regionIdx + ms1.nextIdx < is.totalRecords ∧
            regionOf ms (regionStart ms ms1.regionIdx + ms1.nextIdx) = ms1.regionIdx ∧
            (slotAt is.file (recordsPerPage es)
              (regionStart ms ms1.regionIdx + ms1.nextIdx)).key = t.key ∧
            regionStart ms ms1.regionIdx + ms1.nextIdx
              ∉ returnedSlots es n ⟨ms, mt, tupleBuffer⟩ ∧
            ∀ g, g < is.totalRecords → regionOf ms g = ms1.regionIdx →
              (slotAt is.file (recordsPerPage es) g).key = t.key →
              g ∉ returnedSlots es n ⟨ms, mt, tupleBuffer⟩ → g ≠ gs →
              regionStart ms ms1.regionIdx + ms1.nextIdx ≤ g) ∧
          (ms1.nextIdx = 0 →
            t.key < (ms1.min.getD ms1.regionIdx 0 : Int) ∧
            ms1.min.getD ms1.regionIdx 0 ≤ INT_MAX ∧
            (∀ g, g < is.totalRecords → regionOf ms g = ms1.regionIdx →
              t.key < (slotAt is.file (recordsPerPage es) g).key →
              (ms1.min.getD ms1.regionIdx 0 : Int) ≤ (slotAt is.file (recordsPerPage es) g).key) ∧
            ((∃ g, g < is.totalRecords ∧ regionOf ms g = ms1.regionIdx ∧
                t.key < (slotAt is.file (recordsPerPage es) g).key) →
              ∃ g, g < is.totalRecords ∧ regionOf ms g = ms1.regionIdx ∧
                (slotAt is.file (recordsPerPage es) g).key
                  = (ms1.min.getD ms1.regionIdx 0 : Int)) ∧
            ((¬ ∃ g, g < is.totalRecords ∧ regionOf ms g = ms1.regionIdx ∧
                t.key < (slotAt is.file (recordsPerPage es) g).key) →
              ms1.min.getD ms1.regionIdx 0 = INT_MAX)) := by
  obtain ⟨ms, mt, j1, j3, j4, j5, _, _, htr⟩ := reachable_inv hv buffer metric tupleBuffer
  refine ⟨ms, mt, j1, ?_⟩
  intro n c ms1 mt1 t hc hcall
  obtain ⟨s1, s2, s3⟩ := htr n
  rw [← hc] at s1 s2 s3
  have hrec : recAt c.ms = slotAt is.file (recordsPerPage es) :=
    recAt_eq_slotAt (s1.iteratorState.trans j3) (s1.records_per_block.trans j4)
  have hN : c.ms.num_records = is.totalRecords := s1.num_records.trans j5
  have hU : ∀ g, ukey c.ms g = toUnsigned (slotAt is.file (recordsPerPage es) g).key := by
    intro g; unfold ukey; rw [hrec]
  have hRg : ∀ g, regionOf c.ms g = regionOf ms g := s1.regionOf_same
  have hRs : ∀ r, regionStart c.ms r = regionStart ms r := s1.regionStart_same
  rcases next_MinSort_call s2 s3 es c.tupleBuffer c.metric with
    ⟨_, _, m1, t1, a3, _⟩ | ⟨gs, m1, t1, b1, b2, e, _⟩
  · rw [a3] at hcall
    exact absurd (congrArg (fun x => x.2.2) hcall) (fun h => Option.noConfusion h)
  rw [b1] at hcall
  have e1 : m1 = ms1 := congrArg Prod.fst hcall
  have e2 : t1 = mt1 := congrArg (fun x => x.2.1) hcall
  have e3 : recAt c.ms gs = t := Option.some.inj (congrArg (fun x => x.2.2) hcall)
  subst e1 e2
  obtain ⟨d1, d2, d3⟩ := emitted_hint_cases s2 e
  have hgs : gs < is.totalRecords := by rw [← hN]; exact e.valid
  have ht : t = slotAt is.file (recordsPerPage es) gs := by rw [← e3, hrec]
  have hcur := e.key_lt
  have hbk := hk gs hgs
  have hkey : t.key = (m1.current : Int) := by
    rw [ht]
    exact (toUnsigned_eq_iff _ _ hbk.1 hbk.2 hcur).1 (by rw [← hU]; exact e.key)
  have heqv : ∀ g, g < is.totalRecords →
      ((slotAt is.file (recordsPerPage es) g).key = t.key ↔ ukey c.ms g = m1.current) := by
    intro g hg
    have hb := hk g hg
    rw [hkey, hU]
    exact (toUnsigned_eq_iff _ _ hb.1 hb.2 hcur).symm
  simp only [hN, hRg, hRs] at d1 d2 d3
  refine ⟨gs, b2, hgs, ht, by rw [← hRg]; exact e.region, hkey, ?_, ?_, ?_⟩
  · rw [← d1]
    constructor
    · rintro ⟨g, g1, g2, g3, g4, g5⟩
      exact ⟨g, g1, g2, (heqv g g1).1 g3, g4, g5⟩
    · rintro ⟨g, g1, g2, g3, g4, g5⟩
      exact ⟨g, g1, g2, (heqv g g1).2 g3, g4, g5⟩
  · intro hne
    obtain ⟨f1, f2, f3, f4, f5, f6, f7⟩ := d2 hne
    exact ⟨f1, f2, f3, f4, (heqv _ f3).2 f5, f6,
      fun g g1 g2 g3 g4 g5 => f7 g g1 g2 ((heqv g g1).1 g3) g4 g5⟩
  · intro h0
    obtain ⟨f1, f2, f3, f4⟩ := d3 h0
    have hlb : ∀ g, g < is.totalRecords → regionOf ms g = m1.regionIdx →
        t.key < (slotAt is.file (recordsPerPage es) g).key →
        (m1.min.getD m1.regionIdx 0 : Int) ≤ (slotAt is.file (recordsPerPage es) g).key := by
      intro g g1 g2 g3
      have hb := hk g g1
      rw [hkey] at g3
      obtain ⟨u1, u2⟩ := toUnsigned_of_gt _ _ hb.2 g3
      have := f3 g g1 g2 (by rw [hU]; exact u1)
      rw [hU] at this
      rw [← u2]
      exact_mod_cast this
    have hwit : m1.min.getD m1.regionIdx 0 < INT_MAX →
        ∃ g, g < is.totalRecords ∧ regionOf ms g = m1.regionIdx ∧
          (slotAt is.file (recordsPerPage es) g).key = (m1.min.getD m1.regionIdx 0 : Int) := by
      intro hlt
      obtain ⟨g, g1, g2, g3⟩ := f4 hlt
      have hb := hk g g1
      refine ⟨g, g1, g2, ?_⟩
      rw [hU] at g3
      exact (toUnsigned_eq_iff _ _ hb.1 hb.2 hlt).1 g3
    refine ⟨by rw [hkey]; exact_mod_cast f1, f2, hlb, ?_, ?_⟩
    · rintro ⟨g, g1, g2, g3⟩
      rcases Nat.lt_or_ge (m1.min.getD m1.regionIdx 0) INT_MAX with hlt | hge
      · exact hwit hlt
      · refine ⟨g, g1, g2, ?_⟩
        have h1 := hlb g g1 g2 g3
        have h2 := (hk g g1).2
        have h3 : m1.min.getD m1.regionIdx 0 = INT_MAX := by omega
        rw [h3] at h1 ⊢
        unfold INT_MAX at h1 ⊢
        omega
    · intro hno
      by_contra hne
      have hlt : m1.min.getD m1.regionIdx 0 < INT_MAX := by omega
      obtain ⟨g, g1, g2, g3⟩ := hwit hlt
      exact hno ⟨g, g1, g2, by rw [g3, hkey]; exact_mod_cast f1⟩

theorem next_MinSort_hint_and_minimum_witness :
    ValidInput exampleInput 4 exampleSort ∧
    Int32Keys exampleInput (recordsPerPage exampleSort) ∧
    ∃ ms mt, init_MinSort (initialState exampleInput [] 4) exampleSort ⟨0, 0, 0, 0⟩
        = some (ms, mt) ∧
      ∃ ms1 mt1, next_MinSort ms exampleSort ⟨0, 0⟩ mt = (ms1, mt1, some ⟨1, 10⟩) ∧
        ∃ gs, returnedSlot ms exampleSort ⟨0, 0⟩ mt = gs ∧ gs < exampleInput.totalRecords ∧
          (⟨1, 10⟩ : test_record_t) = slotAt exampleInput.file (recordsPerPage exampleSort) gs ∧
          regionOf ms gs = ms1.regionIdx ∧ (1 : Int) = (ms1.current : Int) := by
  obtain ⟨ms, mt, h1, h2⟩ := next_MinSort_hint_and_minimum exampleInput_valid
    exampleInput_keys.int32 [] ⟨0, 0, 0, 0⟩ ⟨0, 0⟩
  have ev : (init_MinSort (initialState exampleInput [] 4) exampleSort ⟨0, 0, 0, 0⟩).map
      (fun p => (next_MinSort p.1 exampleSort ⟨0, 0⟩ p.2).2.2) = some (some ⟨1, 10⟩) := by
    decide
  rw [h1] at ev
  have ev2 : (next_MinSort ms exampleSort ⟨0, 0⟩ mt).2.2 = some ⟨1, 10⟩ := Option.some.inj ev
  have hcall : next_MinSort ms exampleSort ⟨0, 0⟩ mt
      = ((next_MinSort ms exampleSort ⟨0, 0⟩ mt).1, (next_MinSort ms exampleSort ⟨0, 0⟩ mt).2.1,
          some ⟨1, 10⟩) := Prod.ext rfl (Prod.ext rfl ev2)
  obtain ⟨gs, a1, a2, a3, a4, a5, _⟩ := h2 0 ⟨ms, mt, ⟨0, 0⟩⟩ _ _ _ rfl hcall
  exact ⟨exampleInput_valid, exampleInput_keys.int32, ms, mt, h1, _, _, hcall, gs, a1, a2, a3,
    a4, a5⟩

theorem mem_pendingKeys (ms : MinSortState) (ps : List Nat) (x : Nat × Nat) :
    x ∈ pendingKeys ms ps ↔
      ∃ g, g < ms.num_records ∧ ukey ms g < INT_MAX ∧ g ∉ ps ∧
        (regionOf ms g, ukey ms g) = x := by
  unfold pendingKeys eligibleSlots
  simp only [List.mem_toFinset, List.mem_map, List.mem_filter, List.mem_range,
    decide_eq_true_eq]
  constructor
  · rintro ⟨g, ⟨⟨g1, g2⟩, g3⟩, g4⟩
    exact ⟨g, g1, g2, g3, g4⟩
  · rintro ⟨g, g1, g2, g3, g4⟩
    exact ⟨g, ⟨⟨g1, g2⟩, g3⟩, g4⟩

theorem pendingKeys_same {a b : MinSortState} (h : SameInput a b) (ps : List Nat) :
    pendingKeys b ps = pendingKeys a ps := by
  ext x
  rw [mem_pendingKeys, mem_pendingKeys]
  simp only [h.num_records, h.ukey_same, h.regionOf_same]

theorem pendingKeys_subset (ms : MinSortState) (ps : List Nat) (gs : Nat) :
    pendingKeys ms (ps ++ [gs]) ⊆ pendingKeys ms ps := by
  intro x hx
  rw [mem_pendingKeys] at hx ⊢
  obtain ⟨g, g1, g2, g3, g4⟩ := hx
  exact ⟨g, g1, g2, fun hm => g3 (List.mem_append.2 (Or.inl hm)), g4⟩

theorem pendingKeys_pos {ms : MinSortState} {ps : List Nat} (h : Inv ms ps)
    (hne : ms.nextIdx ≠ 0) : 1 ≤ (pendingKeys ms ps).card := by
  have d := h.mid hne
  apply Finset.card_pos.2
  refine ⟨(regionOf ms (regionStart ms ms.regionIdx + ms.nextIdx), ms.current), ?_⟩
  rw [mem_pendingKeys]
  refine ⟨_, d.valid, by rw [d.hit]; exact d.current_lt, ?_, by rw [d.hit]⟩
  intro hm
  have hret := ((h.ret _).1 hm).2
  unfold Returned at hret
  have hreg : regionOf ms (regionStart ms ms.regionIdx + ms.nextIdx) = ms.regionIdx :=
    (regionOf_eq_iff ms _ _ h.W_pos).2 ⟨by omega, by have := d.idx_lt; omega⟩
  rw [if_pos ⟨hne, hreg⟩, d.hit] at hret
  omega

theorem credit_le {ms : MinSortState} {ps : List Nat} (h : Inv ms ps) :
    credit ms ≤ ms.blocks_per_region * (pendingKeys ms ps).card := by
  unfold credit
  by_cases h0 : ms.nextIdx = 0
  · rw [if_pos h0]; exact Nat.zero_le _
  · rw [if_neg h0]
    have d := h.mid h0
    have h1 : ms.nextIdx / ms.records_per_block < ms.blocks_per_region :=
      (Nat.div_lt_iff_lt_mul h.R_pos).2 d.idx_lt
    have h2 := pendingKeys_pos h h0
    calc ms.nextIdx / ms.records_per_block + 1 ≤ ms.blocks_per_region * 1 := by omega
      _ ≤ ms.blocks_per_region * (pendingKeys ms ps).card := Nat.mul_le_mul_left _ h2

/-- The accounting of page reads over one returning call: reads plus B for every pending
(region, key) pair, less the credit of a draining state, does not grow. -/
theorem emitted_reads_potential {ms : MinSortState} {metric : metrics_t} {ps : List Nat}
    {gs : Nat} {ms1 : MinSortState} {mt1 : metrics_t} (h : Inv ms ps)
    (e : Emitted ms metric ps gs ms1 mt1) (C : Nat)
    (hC : metric.num_reads + ms.blocks_per_region * (pendingKeys ms ps).card
      ≤ C + credit ms) :
    mt1.num_reads + ms.blocks_per_region * (pendingKeys ms (ps ++ [gs])).card
      ≤ C + credit ms1 := by
  have hsub := pendingKeys_subset ms ps gs
  have hcard := Finset.card_le_card hsub
  obtain ⟨d1, _, _⟩ := emitted_hint_cases h e
  by_cases h0 : ms1.nextIdx = 0
  · have hc1 : credit ms1 = 0 := by unfold credit; rw [if_pos h0]
    have hin : (ms1.regionIdx, ms1.current) ∈ pendingKeys ms ps := by
      rw [mem_pendingKeys]
      exact ⟨gs, e.valid, by rw [e.key]; exact e.key_lt, e.fresh, by rw [e.region, e.key]⟩
    have hout : (ms1.regionIdx, ms1.current) ∉ pendingKeys ms (ps ++ [gs]) := by
      intro hm
      rw [mem_pendingKeys] at hm
      obtain ⟨g, g1, g2, g3, g4⟩ := hm
      have g5 : regionOf ms g = ms1.regionIdx := congrArg Prod.fst g4
      have g6 : ukey ms g = ms1.current := congrArg Prod.snd g4
      have : ms1.nextIdx ≠ 0 := d1.1 ⟨g, g1, g5, g6,
        fun hm => g3 (List.mem_append.2 (Or.inl hm)),
        fun hm => g3 (List.mem_append.2 (Or.inr (by rw [hm]; exact List.mem_singleton_self _)))⟩
      exact this h0
    have hlt : (pendingKeys ms (ps ++ [gs])).card < (pendingKeys ms ps).card :=
      Finset.card_lt_card ⟨hsub, fun hh => hout (hh hin)⟩
    have hmul : ms.blocks_per_region * ((pendingKeys ms (ps ++ [gs])).card + 1)
        ≤ ms.blocks_per_region * (pendingKeys ms ps).card := Nat.mul_le_mul_left _ hlt
    rw [Nat.mul_succ] at hmul
    have := e.reads_end h0
    omega
  · have hmul : ms.blocks_per_region * (pendingKeys ms (ps ++ [gs])).card
        ≤ ms.blocks_per_region * (pendingKeys ms ps).card := Nat.mul_le_mul_left _ hcard
    have := e.reads_hit h0
    omega

theorem trace_reads (es : external_sort_t) (C : Nat) :
    ∀ (n : Nat) (c : Caller) (ps : List Nat), Inv c.ms ps → Ordered c.ms ps →
      c.metric.num_reads + c.ms.blocks_per_region * (pendingKeys c.ms ps).card
        ≤ C + credit c.ms →
      (stateAfter es n c).metric.num_reads
          + c.ms.blocks_per_region * (pendingKeys c.ms (ps ++ returnedSlots es n c)).card
        ≤ C + credit (stateAfter es n c).ms := by
  intro n
  induction n with
  | zero =>
    intro c ps h ho hC
    simp only [stateAfter, returnedSlots, List.append_nil]
    exact hC
  | succ n ih =>
    intro c ps h ho hC
    rcases callNext_call h ho es with
      ⟨c1, a1, a2, a3, a4, a5, a6, a7⟩ | ⟨c1, gs, b1, b2, b3⟩
    · have hcr : credit c1.ms = credit c.ms := by
        unfold credit; rw [if_pos a5, if_pos a6]
      have := ih c1 ps a3 a4 (by
        rw [a7, a2.blocks_per_region, pendingKeys_same a2, hcr]; exact hC)
      simp only [stateAfter, returnedSlots, a1]
      rw [a2.blocks_per_region, pendingKeys_same a2] at this
      exact this
    · have hstep := emitted_reads_potential h b3 C hC
      have := ih c1 (ps ++ [gs]) b3.inv b3.ord (by
        rw [b3.same.blocks_per_region, pendingKeys_same b3.same]; exact hstep)
      simp only [stateAfter, returnedSlots, b1, b2]
      rw [b3.same.blocks_per_region, pendingKeys_same b3.same, List.append_assoc] at this
      exact this

theorem pendingKeys_card_le {ms : MinSortState} {is : file_iterator_state_t}
    (h : Inv ms []) (h3 : ms.iteratorState = is) (h5 : ms.num_records = is.totalRecords) :
    (pendingKeys ms []).card
      ≤ Finset.sum (Finset.range ms.numRegions)
          (fun r => distinctKeys is ms.records_per_block ms.blocks_per_region r) := by
  have hsub : pendingKeys ms [] ⊆ (Finset.range ms.numRegions).biUnion
      (fun r => ((((List.range is.totalRecords).filter
          (fun g => g / ms.records_per_block / ms.blocks_per_region = r)).map
          (fun g => (slotAt is.file ms.records_per_block g).key)).toFinset).image
        (fun k => (r, toUnsigned k))) := by
    intro x hx
    rw [mem_pendingKeys] at hx
    obtain ⟨g, g1, _, _, g4⟩ := hx
    rw [Finset.mem_biUnion]
    refine ⟨regionOf ms g, Finset.mem_range.2 (h.region_lt g1), ?_⟩
    rw [Finset.mem_image]
    refine ⟨(slotAt is.file ms.records_per_block g).key, ?_, ?_⟩
    · rw [List.mem_toFinset, List.mem_map]
      refine ⟨g, ?_, rfl⟩
      rw [List.mem_filter, List.mem_range]
      exact ⟨by rw [← h5]; exact g1, by simp [regionOf_eq_page_div]⟩
    · rw [← g4]
      unfold ukey recAt
      rw [h3]
  calc (pendingKeys ms []).card
      ≤ _ := Finset.card_le_card hsub
    _ ≤ _ := Finset.card_biUnion_le
    _ ≤ _ := Finset.sum_le_sum (fun r _ => Finset.card_image_le)

theorem init_MinSort_num_reads {is : file_iterator_state_t} {M : Nat} {es : external_sort_t}
    (hv : ValidInput is M es) (buffer : List test_record_t) (metric : metrics_t)
    (m : MinSortState) (mt : metrics_t)
    (h : init_MinSort (initialState is buffer M) es metric = some (m, mt)) :
    mt.num_reads = es.num_pages := by
  obtain ⟨m0, h1, _⟩ := initScan_some is buffer M es hv.P_pos hv.P_lt hv.M_ge hv.M_lt
  rw [init_MinSort_eq_scan, h1 es.num_pages] at h
  have a5 := (initLoop_metric es m0 ⟨0, 0, 0, 0⟩ es.num_pages).2.2.2.2
  have e : mt = ((List.range es.num_pages).foldl (initPage es) (m0, ⟨0, 0, 0, 0⟩)).2 :=
    (congrArg Prod.snd (Option.some.inj h)).symm
  rw [e, a5]
  simp

/-- C20: on every valid input the counter num_reads is P after init_MinSort and, after
any number of next_MinSort calls (in particular up to end-of-stream), at most
P + (sum over the regions r of D_r) * B, with D_r the number of distinct key values among
the valid records of region r. A call that starts and ends with the position hint on the
same page of the region does not read: a page is read only when it differs from
lastBlockIdx. -/
theorem next_MinSort_reads_bounded {is : file_iterator_state_t} {M : Nat}
    {es : external_sort_t} (hv : ValidInput is M es) (buffer : List test_record_t)
    (metric : metrics_t) (tupleBuffer : test_record_t) :
    ∃ ms mt, init_MinSort (initialState is buffer M) es metric = some (ms, mt) ∧
      mt.num_reads = es.num_pages ∧
      (∀ n, (stateAfter es n ⟨ms, mt, tupleBuffer⟩).metric.num_reads
        ≤ readBound is es ms.blocks_per_region ms.numRegions) ∧
      ∀ n c, c = stateAfter es n ⟨ms, mt, tupleBuffer⟩ → c.ms.nextIdx ≠ 0 →
        (callNext es c).1.ms.nextIdx ≠ 0 →
        (callNext es c).1.ms.nextIdx / recordsPerPage es = c.ms.nextIdx / recordsPerPage es →
        (callNext es c).1.metric.num_reads ≤ c.metric.num_reads := by
  obtain ⟨ms, mt, j1, j3, j4, j5, j2, j9, htr⟩ := reachable_inv hv buffer metric tupleBuffer
  have hP := init_MinSort_num_reads hv buffer metric ms mt j1
  refine ⟨ms, mt, j1, hP, ?_, ?_⟩
  · intro n
    obtain ⟨s1, s2, s3⟩ := htr n
    have hcr0 : credit ms = 0 := by unfold credit; rw [if_pos j9]
    have ht := trace_reads es (mt.num_reads + ms.blocks_per_region * (pendingKeys ms []).card)
      n ⟨ms, mt, tupleBuffer⟩ [] j2 (Ordered.start j9) (by
        show mt.num_reads + ms.blocks_per_region * (pendingKeys ms []).card ≤ _
        omega)
    rw [List.nil_append] at ht
    have hcl := credit_le s2
    rw [s1.blocks_per_region, pendingKeys_same s1] at hcl
    have hcard := pendingKeys_card_le j2 j3 j5
    have hmul := Nat.mul_le_mul_left ms.blocks_per_region hcard
    unfold readBound
    rw [← j4, ← hP, Nat.mul_comm _ ms.blocks_per_region]
    have ht' : (stateAfter es n ⟨ms, mt, tupleBuffer⟩).metric.num_reads
        + ms.blocks_per_region
          * (pendingKeys ms (returnedSlots es n ⟨ms, mt, tupleBuffer⟩)).card
        ≤ mt.num_reads + ms.blocks_per_region * (pendingKeys ms []).card
          + credit (stateAfter es n ⟨ms, mt, tupleBuffer⟩).ms := ht
    omega
  · intro n c hc hne hne1 hpage
    obtain ⟨s1, s2, s3⟩ := htr n
    rw [← hc] at s1 s2 s3
    have hR : c.ms.records_per_block = recordsPerPage es := s1.records_per_block.trans j4
    rcases callNext_call s2 s3 es with ⟨c1, a1, _, _, _, _, _, a7⟩ | ⟨c1, gs, b1, _, b3⟩
    · rw [a1]; exact le_of_eq a7
    · rw [b1] at hne1 hpage ⊢
      have := b3.reads_hit hne1
      unfold credit at this
      rw [if_neg hne, if_neg hne1, b3.same.records_per_block, hR, hpage] at this
      show c1.metric.num_reads ≤ c.metric.num_reads
      omega

set_option maxRecDepth 100000 in
theorem next_MinSort_reads_bounded_witness :
    ValidInput twoPageInput 8 twoPageSort ∧
    (init_MinSort (initialState twoPageInput [] 8) twoPageSort ⟨0, 0, 0, 0⟩).map
      (fun p => (p.1.numRegions,
        readBound twoPageInput twoPageSort p.1.blocks_per_region p.1.numRegions,
        (stateAfter twoPageSort 15 ⟨p.1, p.2, ⟨0, 0⟩⟩).metric.num_reads))
      = some (2, 4, 4) ∧
    ∃ ms mt, init_MinSort (initialState twoPageInput [] 8) twoPageSort ⟨0, 0, 0, 0⟩
        = some (ms, mt) ∧
      mt.num_reads = twoPageSort.num_pages ∧
      ∀ n, (stateAfter twoPageSort n ⟨ms, mt, ⟨0, 0⟩⟩).metric.num_reads
        ≤ readBound twoPageInput twoPageSort ms.blocks_per_region ms.numRegions := by
  have hv : ValidInput twoPageInput 8 twoPageSort :=
    ⟨by decide, by decide, by decide, by decide, by decide, by decide, by decide,
      by decide, by decide⟩
  obtain ⟨ms, mt, h1, h2, h3, _⟩ :=
    next_MinSort_reads_bounded hv [] ⟨0, 0, 0, 0⟩ ⟨0, 0⟩
  exact ⟨hv, by decide, ms, mt, h1, h2, h3⟩

theorem searchSlots_writes (es : external_sort_t) (k curBlk : Nat) (tb : test_record_t) :
    ∀ (n i : Nat) (ms : MinSortState) (metric : metrics_t),
      (searchSlots es k curBlk tb n i ms metric).metric.num_writes = metric.num_writes := by
  intro n
  induction n with
  | zero => intro i ms metric; rfl
  | succ n ih =>
    intro i ms metric
    rw [searchSlots]
    split
    · rfl
    · simp only []
      split
      · rfl
      · rw [ih]

theorem restSlots_writes (es : external_sort_t) (k curBlk : Nat) :
    ∀ (n i : Nat) (ms : MinSortState) (metric : metrics_t),
      (restSlots es k curBlk n i ms metric).metric.num_writes = metric.num_writes := by
  intro n
  induction n with
  | zero => intro i ms metric; rfl
  | succ n ih =>
    intro i ms metric
    rw [restSlots]
    split
    · rfl
    · simp only []
      split
      · rfl
      · rw [ih]

theorem load_writes (ms : MinSortState) (curBlk : Nat) (es : external_sort_t)
    (metric : metrics_t) :
    (if curBlk ≠ ms.lastBlockIdx then readPage ms curBlk es metric
      else (ms, metric)).2.num_writes = metric.num_writes := by
  split <;> rfl

theorem searchRegion_writes (es : external_sort_t) (startBlk startIndex : Nat)
    (tb : test_record_t) :
    ∀ (n k i : Nat) (ms : MinSortState) (metric : metrics_t),
      (searchRegion es startBlk startIndex tb n k i ms metric).metric.num_writes
        = metric.num_writes := by
  intro n
  induction n with
  | zero => intro k i ms metric; rfl
  | succ n ih =>
    intro k i ms metric
    rw [searchRegion]
    have hl := load_writes ms (startBlk + k) es metric
    generalize (if startBlk + k ≠ ms.lastBlockIdx then readPage ms (startBlk + k) es metric
      else (ms, metric)) = p at hl ⊢
    have hs := searchSlots_writes es k (startBlk + k) tb
      (p.1.records_per_block - startIndex % p.1.records_per_block)
      (startIndex % p.1.records_per_block) p.1 p.2
    generalize searchSlots es k (startBlk + k) tb
      (p.1.records_per_block - startIndex % p.1.records_per_block)
      (startIndex % p.1.records_per_block) p.1 p.2 = r0 at hs ⊢
    split
    · exact hs.trans hl
    · rw [ih]
      exact hs.trans hl

theorem scanRest_writes (es : external_sort_t) (startBlk : Nat) :
    ∀ (n k i : Nat) (ms : MinSortState) (metric : metrics_t),
      (scanRest es startBlk n k i ms metric).2.num_writes = metric.num_writes := by
  intro n
  induction n with
  | zero => intro k i ms metric; rfl
  | succ n ih =>
    intro k i ms metric
    rw [scanRest]
    have hl := load_writes ms (startBlk + k) es metric
    generalize (if startBlk + k ≠ ms.lastBlockIdx then readPage ms (startBlk + k) es metric
      else (ms, metric)) = p at hl ⊢
    generalize (if startBlk + k ≠ ms.lastBlockIdx then 0 else i) = i1
    have hs := restSlots_writes es k (startBlk + k) (p.1.records_per_block - i1) i1 p.1 p.2
    generalize restSlots es k (startBlk + k) (p.1.records_per_block - i1) i1 p.1 p.2 = r0
      at hs ⊢
    split
    · exact hs.trans hl
    · rw [ih]
      exact hs.trans hl

theorem foldl_select_writes (l : List Nat) :
    ∀ p : MinSortState × metrics_t,
      (l.foldl (fun (p : MinSortState × metrics_t) i =>
        if p.1.min.getD i 0 < p.1.current then
          ({ p.1 with current := p.1.min.getD i 0, regionIdx := i },
            { p.2 with num_compar := p.2.num_compar + 1 })
        else (p.1, { p.2 with num_compar := p.2.num_compar + 1 })) p).2.num_writes
        = p.2.num_writes := by
  induction l with
  | nil => intro p; rfl
  | cons a l ih =>
    intro p
    rw [List.foldl_cons, ih]
    split <;> rfl

/-- No call of next_MinSort changes the counter num_writes. -/
theorem next_MinSort_writes (ms : MinSortState) (es : external_sort_t) (tb : test_record_t)
    (metric : metrics_t) :
    (next_MinSort ms es tb metric).2.1.num_writes = metric.num_writes := by
  have hsel : (if ms.nextIdx = 0 then selectRegion ms metric else (ms, metric)).2.num_writes
      = metric.num_writes := by
    split
    · exact foldl_select_writes _ _
    · rfl
  rw [next_MinSort_eq]
  generalize (if ms.nextIdx = 0 then selectRegion ms metric else (ms, metric)) = p at hsel ⊢
  by_cases hc : ms.nextIdx = 0 ∧ p.1.regionIdx = INT_MAX
  · rw [if_pos hc]
    exact hsel
  · rw [if_neg hc]
    unfold drainStep
    simp only []
    rw [scanRest_writes, searchRegion_writes]
    exact hsel

theorem writeLoop_writes (es : external_sort_t) (R : Nat) (writeOk : Nat → Bool) :
    ∀ (fuel : Nat) (s : SortState) (b : Bool) (sF : SortState),
      writeLoop es R writeOk fuel s = some (b, sF) →
      sF.metric.num_writes = s.metric.num_writes := by
  intro fuel
  induction fuel with
  | zero =>
    intro s b sF h
    simp only [writeLoop] at h
    exact absurd h (fun hh => Option.noConfusion hh)
  | succ fuel ih =>
    intro s b sF h
    rw [writeLoop] at h
    have hw := next_MinSort_writes s.ms es (s.outputBuffer s.count) s.metric
    generalize next_MinSort s.ms es (s.outputBuffer s.count) s.metric = res at h hw
    obtain ⟨ms1, mt1, o⟩ := res
    cases o with
    | none =>
      simp only [Option.some.injEq, Prod.mk.injEq] at h
      rw [← h.2]
      exact hw
    | some t =>
      simp only [] at h
      split at h
      · split at h
        · rw [ih _ _ _ h]
          exact hw
        · simp only [Option.some.injEq, Prod.mk.injEq] at h
          rw [← h.2]
          exact hw
      · rw [ih _ _ _ h]
        exact hw

theorem initLoop_writes (es : external_sort_t) (p0 : MinSortState × metrics_t) (n : Nat) :
    ((List.range n).foldl (initPage es) p0).2.num_writes = p0.2.num_writes := by
  have := (initLoop_metric es p0.1 p0.2 n).2.2.2.2
  rw [this]

theorem initScan_writes (ms : MinSortState) (es : external_sort_t) (n : Nat)
    (p : MinSortState × metrics_t) (h : initScan ms es n = some p) : p.2.num_writes = 0 := by
  unfold initScan at h
  simp only [] at h
  cases h1 : ceilFloatDiv es.num_pages (ms.memoryAvailable / SORT_KEY_SIZE) with
  | none => rw [h1] at h; exact absurd h (fun hh => Option.noConfusion hh)
  | some b =>
    rw [h1] at h
    simp only [] at h
    cases h2 : ceilFloatDiv es.num_pages b with
    | none => rw [h2] at h; exact absurd h (fun hh => Option.noConfusion hh)
    | some g =>
      rw [h2] at h
      simp only [Option.some.injEq] at h
      rw [← h]
      exact initLoop_writes es _ n

/-- On every input and for every outcome of the writes, a run of flash_minsort that
returns leaves num_writes at 0: the counter is set to 0 by init_MinSort and no statement
increments it. -/
theorem flash_minsort_num_writes_zero (fuel : Nat) (is : file_iterator_state_t)
    (buffer : List test_record_t) (outputBuffer : Nat → test_record_t) (M : Nat)
    (es : external_sort_t) (metric : metrics_t) (writeOk : Nat → Bool) (res : SortResult)
    (h : flash_minsort fuel is buffer outputBuffer M es metric writeOk = some res) :
    res.metric.num_writes = 0 := by
  unfold flash_minsort at h
  cases hi : init_MinSort (initialState is buffer M) es metric with
  | none => rw [hi] at h; exact absurd h (fun hh => Option.noConfusion hh)
  | some p =>
    obtain ⟨ms, mt⟩ := p
    rw [hi] at h
    simp only [] at h
    have hmt : mt.num_writes = 0 := by
      rw [init_MinSort_eq_scan] at hi
      cases hs : initScan (initialState is buffer M) es es.num_pages with
      | none => rw [hs] at hi; exact absurd hi (fun hh => Option.noConfusion hh)
      | some q =>
        rw [hs] at hi
        have e : mt = (initFinish q).2 := (congrArg Prod.snd (Option.some.inj hi)).symm
        rw [e]
        exact initScan_writes _ es _ q hs
    cases hw : writeLoop es ((es.page_size - es.headerSize) / es.record_size) writeOk fuel
        ⟨ms, mt, outputBuffer, 0, 0, [], []⟩ with
    | none => rw [hw] at h; exact absurd h (fun hh => Option.noConfusion hh)
    | some r =>
      obtain ⟨b, sF⟩ := r
      have hsF := writeLoop_writes es _ writeOk fuel _ b sF hw
      rw [hw] at h
      have hz : sF.metric.num_writes = 0 := hsF.trans hmt
      cases b with
      | false =>
        simp only [Option.some.injEq] at h
        rw [← h]; exact hz
      | true =>
        simp only [] at h
        split at h
        · split at h
          · simp only [Option.some.injEq] at h
            rw [← h]; exact hz
          · simp only [Option.some.injEq] at h
            rw [← h]; exact hz
        · simp only [Option.some.injEq] at h
          rw [← h]; exact hz

end FlashMinSort
